import Mathlib

/-! SimpleTrieSpellChecker: a compact trie with path-compressed leaves.

A shallow embedding of `src/src/SimpleTrieSpellChecker.c` (and of the seeding
sequence of `src/src/main.c`).

* A C string is a `List Char` (the bytes before the terminating NUL); reading
  the byte at index `strlen` gives the terminator, see `charAt`.
* A `NonLeafPtr` is a `Node`: the NULL pointer, a pointer to a `LeafNode`, or a
  pointer to a `NonLeafNode` with its two parallel arrays `letters` and `ptrs`.
* The tree is exclusively owned, so the in-place updates of the source are
  modelled by returning the updated node.
* Allocation is assumed to succeed and the fixed buffers (`prefix[256]`) to be
  large enough.  Dereferencing NULL is a fault: `TrieInsert` then returns `none`,
  and the suggestion search ends in `Run.fault` with the box as filled so far.
* Loops over a string or an array carry the unread part as a list; the two
  recursive searches that are not structural carry fuel, which is shown to
  suffice (`splitLoop_eq`, `dfsSuggest_holds`).
-/

namespace SimpleTrie

/-- The value of a `NonLeafPtr`: NULL, a leaf (`kind == leaf`) holding the
remaining suffix `word`, or a non-leaf with its flag and parallel arrays. -/
inductive Node where
  | null
  | leaf (word : List Char)
  | nonLeaf (EndOfWord : Bool) (letters : List Char) (ptrs : List Node)
  deriving Repr, Inhabited

/-- The byte `s[i]` of a C string: the terminator when `i` is its length. -/
def charAt (s : List Char) (i : Nat) : Char := s.getD i '\x00'

/-- The scan of `Position` over the `letters` array: index of the first
occurrence of `ch`, or `none` for `notFound`. -/
def findLetter (ch : Char) : List Char → Option Nat
  | [] => none
  | l :: ls => if l = ch then some 0 else (findLetter ch ls).map (· + 1)

/-- `Position(p, ch)`: index of `ch` in `p->letters`, `none` for `notFound`. -/
def Position (p : Node) (ch : Char) : Option Nat :=
  match p with
  | .nonLeaf _ letters _ => findLetter ch letters
  | _ => none

/-- The child pointer `ptrs[pos]`. -/
def ptrAt (ptrs : List Node) (pos : Nat) : Node := ptrs.getD pos .null

/-- `AddCell(ch, p, stop)`: new arrays one slot longer; indices above `stop`
take the old entry one below, index `stop` takes `ch` (its pointer slot stays
zeroed by `calloc`), indices below `stop` are copied. -/
def AddCell (ch : Char) (p : Node) (stop : Nat) : Node :=
  match p with
  | .nonLeaf e old_letters old_ptrs =>
    let len := old_letters.length
    .nonLeaf e
      ((List.range (len + 1)).map fun i =>
        if i < stop then charAt old_letters i
        else if i = stop then ch
        else charAt old_letters (i - 1))
      ((List.range (len + 1)).map fun i =>
        if i < stop then ptrAt old_ptrs i
        else if i = stop then Node.null
        else ptrAt old_ptrs (i - 1))
  | other => other

/-- `CreateNonLeaf(ch)`: a non-leaf with `EndOfWord` false, the single letter
`ch`, and one zeroed (NULL) pointer slot. -/
def CreateNonLeaf (ch : Char) : Node := .nonLeaf false [ch] [.null]

/-- The assignment `p->ptrs[pos] = n`. -/
def setPtr (p : Node) (pos : Nat) (n : Node) : Node :=
  match p with
  | .nonLeaf e letters ptrs => .nonLeaf e letters (ptrs.set pos n)
  | other => other

/-- The assignment `p->EndOfWord = yes`. -/
def setEndOfWord (p : Node) : Node :=
  match p with
  | .nonLeaf _ letters ptrs => .nonLeaf true letters ptrs
  | other => other

/-- The loop `for (pos = 0; pos < len && p->letters[pos] < ch; ++pos);` of
`CreateLeaf`: the number of leading letters below `ch`. -/
def sortedPos (ch : Char) : List Char → Nat
  | [] => 0
  | l :: ls => if l < ch then sortedPos ch ls + 1 else 0

/-- `CreateLeaf(ch, suffix, p)`: put a leaf holding `suffix` in the slot of
letter `ch`, adding a cell at the sorted position when `ch` is not a letter of
`p` yet. -/
def CreateLeaf (ch : Char) (suffix : List Char) (p : Node) : Node :=
  match p with
  | .nonLeaf _ letters _ =>
    match Position p ch with
    | some pos => setPtr p pos (.leaf suffix)
    | none =>
      let pos := sortedPos ch letters
      setPtr (AddCell ch p pos) pos (.leaf suffix)
  | other => other

/-- `SearchTrie(root, word)`: `true` is `success`. -/
def SearchTrie : Node → List Char → Bool
  | .leaf lfword, word => decide (word = lfword)
  | .nonLeaf e _ _, [] => e
  | .nonLeaf e letters ptrs, ch :: rest =>
    match Position (.nonLeaf e letters ptrs) ch with
    | some pos =>
      match ptrAt ptrs pos with
      | .null => false
      | child => SearchTrie child rest
    | none => false
  | .null, _ => false

/-- The `do ... while` loop of `TrieInsert` that splits the leaf holding
`lfword` under the edge `word[0]` of `p`; the result is `p` after the loop and
the code following it.  `fuel` bounds the iterations; `none` also stands for a
write through `notFound`. -/
def splitLoop : Nat → Node → List Char → List Char → Nat → Option Node
  | 0, _, _, _, _ => none
  | fuel + 1, p, word, lfword, offset =>
    match Position p (charAt word offset) with
    | none => none
    | some pos =>
      if word.length = offset + 1 then
        -- CASE A
        some (setPtr p pos
          (CreateLeaf (charAt lfword offset) (lfword.drop (offset + 1))
            (setEndOfWord (CreateNonLeaf (charAt word offset)))))
      else if lfword.length = offset then
        -- CASE B
        some (setPtr p pos
          (CreateLeaf (charAt word (offset + 1)) (word.drop (offset + 2))
            (setEndOfWord (CreateNonLeaf (charAt word (offset + 1))))))
      else
        let n := CreateNonLeaf (charAt word (offset + 1))
        if charAt word (offset + 1) = charAt lfword offset then
          (splitLoop fuel n word lfword (offset + 1)).map (setPtr p pos)
        else
          some (setPtr p pos
            (CreateLeaf (charAt lfword offset) (lfword.drop (offset + 1))
              (CreateLeaf (charAt word (offset + 1)) (word.drop (offset + 2)) n)))

/-- `TrieInsert(word, root)`, returning the updated node; `none` when the
source dereferences a NULL child (or is handed something else than a
non-leaf). The split loop itself never fails, see `TrieInsert_split`. -/
def TrieInsert : List Char → Node → Option Node
  | [], p =>
    match p with
    | .nonLeaf _ letters ptrs => some (.nonLeaf true letters ptrs)
    | _ => none
  | ch :: rest, p =>
    match p with
    | .nonLeaf e letters ptrs =>
      match Position p ch with
      | none => some (CreateLeaf ch rest p)
      | some pos =>
        match ptrAt ptrs pos with
        | .null => none
        | .leaf lfword =>
          if lfword = rest then some p
          else splitLoop (ch :: rest).length p (ch :: rest) lfword 0
        | child => (TrieInsert rest child).map (fun c => .nonLeaf e letters (ptrs.set pos c))
    | _ => none

/-- The seeding of `main`: `root = CreateNonLeaf(*word); CreateLeaf(*word, word + 1, root)`. -/
def bootstrap (word : List Char) : Node :=
  CreateLeaf (charAt word 0) (word.drop 1) (CreateNonLeaf (charAt word 0))

/-- The loop of `main` inserting the remaining dictionary words in turn. -/
def insertAll : List (List Char) → Node → Option Node
  | [], root => some root
  | w :: ws, root =>
    match TrieInsert w root with
    | some root2 => insertAll ws root2
    | none => none

/-- The dictionary build of `main` on a list of words. -/
def buildTrie : List (List Char) → Option Node
  | [] => none
  | w :: ws => insertAll ws (bootstrap w)

/-! ## Suggestions -/

/-- The `SuggestBox`: `items[0 .. count-1]` and the capacity `cap`. -/
structure SuggestBox where
  items : List (List Char)
  cap : Nat
  deriving Repr

/-- The field `count` of a `SuggestBox`. -/
def SuggestBox.count (box : SuggestBox) : Nat := box.items.length

/-- `add_suggestion(box, w)`: skip a string already present, skip when full,
else append a copy. -/
def add_suggestion (box : SuggestBox) (w : List Char) : SuggestBox :=
  if w ∈ box.items then box
  else if box.count ≥ box.cap then box
  else { box with items := box.items ++ [w] }

/-- `emit_word_from_prefix_and_leaf(box, prefix, leaf_suffix)`. -/
def emit_word_from_prefix_and_leaf (box : SuggestBox) (pre leaf_suffix : List Char) :
    SuggestBox :=
  add_suggestion box (pre ++ leaf_suffix)

/-- The first loop of the equal-length branch of `tailWithinOneEdit`: count the
differing positions, leaving the loop once the count exceeds one. -/
def diffLoop : List Char → List Char → Nat → Nat
  | a :: as, b :: bs, diff =>
    if a ≠ b then
      if diff + 1 > 1 then diff + 1 else diffLoop as bs (diff + 1)
    else diffLoop as bs diff
  | _, _, diff => diff

/-- The second loop of the equal-length branch: at the first differing position
`i` with `i + 1 < la`, test for a swap of `i` and `i + 1` followed by equal
remainders. -/
def transLoop : List Char → List Char → Bool
  | a :: a2 :: as, b :: b2 :: bs =>
    if a ≠ b then
      decide (a = b2) && decide (a2 = b) && decide (as = bs)
    else transLoop (a2 :: as) (b2 :: bs)
  | _, _ => false

/-- The loop of the branch `lb == la + 1`: walk both tails, skipping one byte of
`tailB` at the first mismatch. -/
def skipInB : List Char → List Char → Bool → Bool
  | a :: as, b :: bs, skipped =>
    if a = b then skipInB as bs skipped
    else if !skipped then skipInB (a :: as) bs true
    else false
  | _, _, _ => true

/-- The loop of the branch `la == lb + 1`: walk both tails, skipping one byte of
`tailA` at the first mismatch. -/
def skipInA : List Char → List Char → Bool → Bool
  | a :: as, b :: bs, skipped =>
    if a = b then skipInA as bs skipped
    else if !skipped then skipInA as (b :: bs) true
    else false
  | _, _, _ => true

/-- `tailWithinOneEdit(tailA, tailB, edits_used)`; `true` is 1. -/
def tailWithinOneEdit (tailA tailB : List Char) (edits_used : Nat) : Bool :=
  if edits_used > 1 then false
  else if edits_used = 1 then decide (tailA = tailB)
  else if tailA = tailB then true
  else
    let la := tailA.length
    let lb := tailB.length
    if la = lb then
      if diffLoop tailA tailB 0 = 1 then true
      else transLoop tailA tailB
    else if lb = la + 1 then skipInB tailA tailB false
    else if la = lb + 1 then skipInA tailA tailB false
    else false

/-- How a run of the suggestion search ends: it returns (`done`), it
dereferences a NULL child pointer (`fault`, with the box as filled so far), or
the model runs out of fuel. -/
inductive Run where
  | done (box : SuggestBox)
  | fault (box : SuggestBox)
  | outOfFuel
  deriving Repr

/-- The box a run leaves behind. -/
def Run.box? : Run → Option SuggestBox
  | .done box => some box
  | .fault box => some box
  | .outOfFuel => none

/-- A block `if (cond) { body; if (box->count >= MAX_SUGG) return; }` followed
by the rest `k` of the function. -/
def guarded (cond : Bool) (MAX_SUGG : Nat) (body : SuggestBox → Run) (box : SuggestBox)
    (k : SuggestBox → Run) : Run :=
  if cond then
    match body box with
    | .done b => if b.count ≥ MAX_SUGG then .done b else k b
    | other => other
  else k box

/-- The step onto `child` shared by the moves of `dfsSuggest`: a leaf is
validated by the tail matcher, a non-leaf is searched recursively (`rec`), and
reading `child->kind` through NULL is a fault. `pre` is the prefix buffer up to
and including the edge letter. -/
def visitChild (rec : Node → List Char → List Char → Nat → SuggestBox → Run)
    (child : Node) (inp pre : List Char) (edits_used : Nat) (box : SuggestBox) : Run :=
  match child with
  | .null => .fault box
  | .leaf lfword =>
    if tailWithinOneEdit lfword inp edits_used then
      .done (emit_word_from_prefix_and_leaf box pre lfword)
    else .done box
  | c => rec c inp pre edits_used box

/-- The `for` loop of `dfsSuggest` over the edges, from index `i` on, `edges`
being the letters not yet visited. `inp` is the unread input `in + idx`. `k` is
the code after the loop: the loop falls through to it when the edges are
exhausted or when its condition `box->count < MAX_SUGG` fails, whereas a
`return` inside the body (the early exit of `guarded`) leaves `dfsSuggest`
without running it. -/
def dfsLoop (rec : Node → List Char → List Char → Nat → SuggestBox → Run)
    (ptrs : List Node) (inp pre : List Char) (edits_used MAX_SUGG : Nat)
    (k : SuggestBox → Run) : List Char → Nat → SuggestBox → Run
  | [], _, box => k box
  | edge :: edges, i, box =>
    if box.count ≥ MAX_SUGG then k box
    else
      let child := ptrAt ptrs i
      -- exact match
      guarded (decide (inp ≠ [] ∧ charAt inp 0 = edge)) MAX_SUGG
        (visitChild rec child (inp.drop 1) (pre ++ [edge]) edits_used) box fun box =>
      -- substitution
      guarded (decide (edits_used = 0 ∧ inp ≠ [] ∧ charAt inp 0 ≠ edge)) MAX_SUGG
        (visitChild rec child (inp.drop 1) (pre ++ [edge]) 1) box fun box =>
      -- deletion
      guarded (decide (edits_used = 0)) MAX_SUGG
        (visitChild rec child inp (pre ++ [edge]) 1) box fun box =>
      dfsLoop rec ptrs inp pre edits_used MAX_SUGG k edges (i + 1) box

/-- The adjacent-transposition block that ends `dfsSuggest`. -/
def transposeMove (rec : Node → List Char → List Char → Nat → SuggestBox → Run)
    (p : Node) (inp pre : List Char) (edits_used : Nat) (box : SuggestBox) : Run :=
  match p with
  | .nonLeaf _ _ ptrs =>
    if edits_used = 0 ∧ inp ≠ [] ∧ inp.drop 1 ≠ [] then
      match Position p (charAt inp 1) with
      | none => .done box
      | some pos1 =>
        match ptrAt ptrs pos1 with
        | .null => .done box
        | .leaf lf1word =>
          if charAt lf1word 0 = charAt inp 0 then
            if tailWithinOneEdit (lf1word.drop 1) (inp.drop 2) 1 then
              .done (emit_word_from_prefix_and_leaf box (pre ++ [charAt inp 1]) lf1word)
            else .done box
          else .done box
        | .nonLeaf e1 l1 ptrs1 =>
          match Position (.nonLeaf e1 l1 ptrs1) (charAt inp 0) with
          | none => .done box
          | some pos2 =>
            match ptrAt ptrs1 pos2 with
            | .null => .done box
            | .leaf lf2word =>
              if tailWithinOneEdit lf2word (inp.drop 2) 1 then
                .done (emit_word_from_prefix_and_leaf box
                  (pre ++ [charAt inp 1, charAt inp 0]) lf2word)
              else .done box
            | c2 => rec c2 (inp.drop 2) (pre ++ [charAt inp 1, charAt inp 0]) 1 box
    else .done box
  | _ => .fault box

/-- `dfsSuggest(p, in, idx, prefix, plen, edits_used, box, MAX_SUGG)`. The pair
`(in, idx)` is carried as the unread input `inp`, and the buffer `prefix` as
its first `plen` bytes `pre`. The first argument is fuel. -/
def dfsSuggest : Nat → Node → List Char → List Char → Nat → SuggestBox → Nat → Run
  | 0, _, _, _, _, _, _ => .outOfFuel
  | fuel + 1, p, inp, pre, edits_used, box, MAX_SUGG =>
    if box.count ≥ MAX_SUGG then .done box
    else
      match p with
      | .nonLeaf eow letters ptrs =>
        let rec_ := fun (c : Node) (i q : List Char) (e : Nat) (b : SuggestBox) =>
          dfsSuggest fuel c i q e b MAX_SUGG
        guarded (decide (inp = []) && eow) MAX_SUGG
          (fun b => .done (add_suggestion b pre)) box fun box =>
        -- insertion (extra input byte)
        guarded (decide (edits_used = 0 ∧ inp ≠ [])) MAX_SUGG
          (fun b => dfsSuggest fuel p (inp.drop 1) pre 1 b MAX_SUGG) box fun box =>
        dfsLoop rec_ ptrs inp pre edits_used MAX_SUGG
          (fun box => transposeMove rec_ p inp pre edits_used box) letters 0 box
      | _ => .fault box

/-- `SuggestCorrections(root, upper_word, maxSuggestions, outBox)`. -/
def SuggestCorrections (root : Node) (upper_word : List Char) (maxSuggestions : Nat) : Run :=
  dfsSuggest (upper_word.length + 2) root upper_word [] 0
    { items := [], cap := maxSuggestions } maxSuggestions


/-! ## Arrays with a cell inserted -/

/-- The list `l` with `x` put at index `k`. -/
def insertAt {α : Type} (k : Nat) (x : α) (l : List α) : List α := l.take k ++ x :: l.drop k

/-- The child reached from a non-leaf with arrays `letters`, `ptrs` along the
edge `ch`: `ptrs[Position(p, ch)]`, NULL when there is no such edge. -/
def edgeChild (letters : List Char) (ptrs : List Node) (ch : Char) : Node :=
  match findLetter ch letters with
  | some pos => ptrAt ptrs pos
  | none => .null

/-- Every non-leaf has parallel arrays of equal length and strictly ascending
letters. -/
inductive WellFormed : Node → Prop where
  | null : WellFormed .null
  | leaf (word : List Char) : WellFormed (.leaf word)
  | nonLeaf (e : Bool) (letters : List Char) (ptrs : List Node) :
      letters.length = ptrs.length → letters.Pairwise (· < ·) →
      (∀ c ∈ ptrs, WellFormed c) → WellFormed (.nonLeaf e letters ptrs)

/-- A dictionary word as `main` hands it over: non-empty, uppercase letters. -/
def IsWord (w : List Char) : Prop := w ≠ [] ∧ ∀ c ∈ w, c.isUpper = true

instance (w : List Char) : Decidable (IsWord w) := by unfold IsWord; infer_instance

/-- The trees `main` can build: the seed, then any sequence of inserts. -/
inductive Built : Node → Prop where
  | seed (w : List Char) : IsWord w → Built (bootstrap w)
  | insert (t t2 : Node) (w : List Char) : Built t → IsWord w → TrieInsert w t = some t2 → Built t2

/-- The subtree that replaces a split leaf, described on the unread remainders:
`ws` is what is left of the new word and `ts` what is left of the old leaf
suffix past the letters hoisted so far, `last` the letter hoisted last (the
edge letter when none was hoisted). Used to state what `splitLoop` builds. -/
def splitTree (last : Char) : List Char → List Char → Node
  | [], ts => CreateLeaf (charAt ts 0) (ts.drop 1) (setEndOfWord (CreateNonLeaf last))
  | w0 :: ws, [] => CreateLeaf w0 ws (setEndOfWord (CreateNonLeaf w0))
  | w0 :: ws, t0 :: ts =>
    if w0 = t0 then setPtr (CreateNonLeaf w0) 0 (splitTree w0 ws ts)
    else CreateLeaf t0 ts (CreateLeaf w0 ws (CreateNonLeaf w0))

/-- Spec, section 4.4, distance at most one: `s` is the query `q` itself, or
`q` with one letter substituted, one letter inserted, one letter deleted, or
two adjacent letters transposed. -/
inductive OneEdit : List Char → List Char → Prop where
  | same (q : List Char) : OneEdit q q
  | substitution (a b : List Char) (x y : Char) : OneEdit (a ++ x :: b) (a ++ y :: b)
  | insertion (a b : List Char) (x : Char) : OneEdit (a ++ b) (a ++ x :: b)
  | deletion (a b : List Char) (x : Char) : OneEdit (a ++ x :: b) (a ++ b)
  | transposition (a b : List Char) (x y : Char) :
      OneEdit (a ++ x :: y :: b) (a ++ y :: x :: b)

/-- What the edit budget still allows between the unread input and the rest of
a dictionary word: one edit when none is used, equality when one is used. -/
def Within : Nat → List Char → List Char → Prop
  | 0, inp, suf => OneEdit inp suf
  | 1, inp, suf => inp = suf
  | _, _, _ => False

/-- The words a search below `p` may emit: the prefix `pre` followed by a
suffix `suf` that the path predicate `S` accepts at `p` and that lies within
the budget of the unread input. -/
def Emit (S : Node → List Char → Prop) (p : Node) (inp pre : List Char) (edits : Nat)
    (s : List Char) : Prop :=
  ∃ suf, s = pre ++ suf ∧ S p suf ∧ Within edits inp suf

/-- The box `b` comes from `box0` by calls of `add_suggestion` on strings that
satisfy `Q`. -/
def Reach (Q : List Char → Prop) (box0 b : SuggestBox) : Prop :=
  ∃ added : List (List Char), (∀ s ∈ added, Q s) ∧ b = added.foldl add_suggestion box0

/-- The run did not exhaust its fuel, and the box it leaves satisfies `R`. -/
def Run.Holds (R : SuggestBox → Prop) : Run → Prop
  | .done b => R b
  | .fault b => R b
  | .outOfFuel => False

/-- The fuel a call of `dfsSuggest` needs. -/
def fuelNeeded (inp : List Char) (edits : Nat) : Nat := inp.length + (2 - edits)

/-- A predicate on (node, remaining word) that each step of the search keeps:
a leaf spells its suffix, a flagged non-leaf spells the empty word, and an
edge letter followed by what its child spells is spelled by the parent. -/
structure PathPred (S : Node → List Char → Prop) : Prop where
  leaf : ∀ w, S (.leaf w) w
  eow : ∀ ls ps, S (.nonLeaf true ls ps) []
  step : ∀ e ls ps i edge suf, ls[i]? = some edge → S (ptrAt ps i) suf →
    S (.nonLeaf e ls ps) (edge :: suf)

/-- The box `b` holds every entry of `box`, at least as many entries, and has
the same capacity. -/
def Grows (box b : SuggestBox) : Prop :=
  (∀ s ∈ box.items, s ∈ b.items) ∧ box.count ≤ b.count ∧ b.cap = box.cap

/-- The box `b` holds `pre ++ suf` for every dictionary suffix `suf` below `p`
that lies within the budget of the unread input. -/
def Cover (p : Node) (inp pre : List Char) (edits : Nat) (b : SuggestBox) : Prop :=
  ∀ suf, SearchTrie p suf = true → Within edits inp suf → pre ++ suf ∈ b.items

/-- What the three moves of the edge loop at the edge `edge` with child `child`
must have put in the box `b`. -/
def EdgeCover (child : Node) (edge : Char) (inp pre : List Char) (edits : Nat)
    (b : SuggestBox) : Prop :=
  (∀ inp2, inp = edge :: inp2 → Cover child inp2 (pre ++ [edge]) edits b) ∧
  (edits = 0 → ∀ x inp2, inp = x :: inp2 → x ≠ edge → Cover child inp2 (pre ++ [edge]) 1 b) ∧
  (edits = 0 → Cover child inp (pre ++ [edge]) 1 b)


/-! ## Nodes of a tree, paths, and the shape of a split -/

/-- `Subnode n t`: the node `n` occurs in the tree `t`: it is `t` itself, or it
occurs below one of the child slots of the non-leaf `t`. -/
inductive Subnode (n : Node) : Node → Prop where
  | here : Subnode n n
  | under (e : Bool) (letters : List Char) (ptrs : List Node) (c : Node) :
      c ∈ ptrs → Subnode n c → Subnode n (.nonLeaf e letters ptrs)

/-- The node reached from `p` by following the edges spelled by `path`, NULL
when an edge is missing or the walk meets a leaf before the path ends. -/
def nodeAt : List Char → Node → Node
  | [], p => p
  | ch :: path, .nonLeaf _ letters ptrs => nodeAt path (edgeChild letters ptrs ch)
  | _ :: _, _ => .null

/-- The tree `p` with the node at the end of `path` replaced by `n`: on the way
down only the child slot of the next edge is rewritten, the flag, the letters
and every other slot of each node on the path stay as they are. -/
def graft (n : Node) : List Char → Node → Node
  | [], _ => n
  | ch :: path, .nonLeaf e letters ptrs =>
    match findLetter ch letters with
    | some pos => .nonLeaf e letters (ptrs.set pos (graft n path (ptrAt ptrs pos)))
    | none => .nonLeaf e letters ptrs
  | _ :: _, p => p

/-- The minimality invariant. Every non-leaf has at least one letter and
children that satisfy the invariant below the root; a non-leaf below the root
(`root = false`) with exactly one letter and `EndOfWord` unset does not have a
leaf in its slot 0. -/
inductive Compact : Bool → Node → Prop where
  | null (root : Bool) : Compact root .null
  | leaf (root : Bool) (word : List Char) : Compact root (.leaf word)
  | nonLeaf (root : Bool) (e : Bool) (letters : List Char) (ptrs : List Node) :
      letters ≠ [] →
      (root = false → letters.length = 1 → e = false → ∀ w, ptrAt ptrs 0 ≠ .leaf w) →
      (∀ c ∈ ptrs, Compact false c) → Compact root (.nonLeaf e letters ptrs)

/-- The chain of non-leaves with one letter each and `EndOfWord` unset that
spells `cs`, ending in the node `final`: what the hoisting loop of a split
builds for the common letters `cs`. -/
def hoistChain : List Char → Node → Node
  | [], final => final
  | c :: cs, final => .nonLeaf false [c] [hoistChain cs final]

/-- The length of the longest common prefix of two strings. -/
def lcpLen : List Char → List Char → Nat
  | a :: as, b :: bs => if a = b then lcpLen as bs + 1 else 0
  | _, _ => 0

mutual
/-- The number of non-leaf nodes of a tree. -/
def branchCount : Node → Nat
  | .nonLeaf _ _ ptrs => branchCountList ptrs + 1
  | _ => 0
/-- The number of non-leaf nodes below a list of child slots. -/
def branchCountList : List Node → Nat
  | [] => 0
  | c :: cs => branchCount c + branchCountList cs
end

mutual
/-- The suffixes held by the leaves of a tree, from left to right. -/
def leafWords : Node → List (List Char)
  | .leaf word => [word]
  | .nonLeaf _ _ ptrs => leafWordsList ptrs
  | .null => []
/-- The suffixes held by the leaves below a list of child slots. -/
def leafWordsList : List Node → List (List Char)
  | [] => []
  | c :: cs => leafWords c ++ leafWordsList cs
end

/-- The fields of a node itself, without what hangs below it: the flag and the
letters of a non-leaf, the suffix of a leaf. -/
def ownFields : Node → Node
  | .nonLeaf e letters _ => .nonLeaf e letters []
  | n => n

/-! ## Two runs of the suggestion search with different limits -/

/-- The box `a` of the run with the limit `L` and the box `b` of the run with
the limit `L'` are in step: they hold the same entries, fewer than `L`. -/
def InStep (L L' : Nat) (a b : SuggestBox) : Prop :=
  a.items = b.items ∧ a.cap = L ∧ b.cap = L' ∧ a.count < L

/-- How a piece of the run with the limit `L` (left) and the same piece of the
run with the limit `L'` (right) may end: both return or both fault with boxes
in step, or the left run has returned with a full box that holds the first `L`
entries of the box the right run ends with. -/
def Truncates (L L' : Nat) : Run → Run → Prop
  | .done a, .done b => InStep L L' a b ∨ (L ≤ a.count ∧ a.items = b.items.take L)
  | .fault a, .fault b => InStep L L' a b
  | .done a, .fault b => L ≤ a.count ∧ a.items = b.items.take L
  | _, _ => False

/-- The piece `fA` of the run with the limit `L` and the piece `fB` of the run
with the limit `L'`: from boxes in step they end as `Truncates` says, and `fB`
from any box ends, with enough fuel, in a box that comes from it by calls of
`add_suggestion`. -/
def Tracks (L L' : Nat) (fA fB : SuggestBox → Run) : Prop :=
  (∀ a b, InStep L L' a b → Truncates L L' (fA a) (fB b)) ∧
  (∀ b0 b, Reach (fun _ => True) b0 b →
    Run.Holds (Reach (fun _ => True) b0) (fB b))

/-! ## Counting the marks of dictionary words -/

mutual
/-- The number of leaf nodes of a tree. -/
def leafCount : Node → Nat
  | .leaf _ => 1
  | .nonLeaf _ _ ptrs => leafCountList ptrs
  | .null => 0
/-- The number of leaf nodes below a list of child slots. -/
def leafCountList : List Node → Nat
  | [] => 0
  | c :: cs => leafCount c + leafCountList cs
end

mutual
/-- The number of non-leaf nodes of a tree with `EndOfWord` set. -/
def eowCount : Node → Nat
  | .nonLeaf e _ ptrs => (if e then 1 else 0) + eowCountList ptrs
  | _ => 0
/-- The number of non-leaf nodes with `EndOfWord` set below a list of child
slots. -/
def eowCountList : List Node → Nat
  | [] => 0
  | c :: cs => eowCount c + eowCountList cs
end

/-- The number of leaves plus the number of set `EndOfWord` flags of a tree. -/
def marks (n : Node) : Nat := leafCount n + eowCount n

/-! ## Lemmas on the arrays -/

theorem insertAt_zero {α : Type} (x : α) (l : List α) : insertAt 0 x l = x :: l := by
  simp [insertAt]

theorem insertAt_succ_cons {α : Type} (k : Nat) (x a : α) (l : List α) :
    insertAt (k + 1) x (a :: l) = a :: insertAt k x l := by
  simp [insertAt]

theorem insertAt_length {α : Type} (k : Nat) (x : α) (l : List α) :
    (insertAt k x l).length = l.length + 1 := by
  simp [insertAt]; omega

theorem mem_insertAt {α : Type} (k : Nat) (x y : α) (l : List α) :
    y ∈ insertAt k x l ↔ y = x ∨ y ∈ l := by
  unfold insertAt
  constructor
  · intro h
    rcases List.mem_append.mp h with h | h
    · exact Or.inr (List.mem_of_mem_take h)
    · rcases List.mem_cons.mp h with h | h
      · exact Or.inl h
      · exact Or.inr (List.mem_of_mem_drop h)
  · intro h
    rcases h with h | h
    · simp [h]
    · rw [← List.take_append_drop k l] at h
      rcases List.mem_append.mp h with h | h
      · exact List.mem_append.mpr (Or.inl h)
      · exact List.mem_append.mpr (Or.inr (List.mem_cons_of_mem _ h))

theorem map_range_insert {α : Type} (d x : α) (l : List α) (stop : Nat) (hstop : stop ≤ l.length) :
    ((List.range (l.length + 1)).map fun i =>
        if i < stop then l.getD i d else if i = stop then x else l.getD (i - 1) d)
      = insertAt stop x l := by
  unfold insertAt
  apply List.ext_getElem?
  intro i
  by_cases h1 : i < l.length + 1
  · rw [List.getElem?_map, List.getElem?_range h1]
    simp only [Option.map_some']
    by_cases hi : i < stop
    · have h5 : i < l.length := by omega
      rw [List.getElem?_append_left (by simp; omega), List.getElem?_take_of_lt hi]
      simp [hi, List.getD_eq_getElem?_getD, h5]
    · rw [List.getElem?_append_right (by simp; omega)]
      have h6 : (List.take stop l).length = stop := by simp; omega
      rw [h6]
      by_cases hi2 : i = stop
      · subst hi2; simp
      · have h3 : i - 1 < l.length := by omega
        obtain ⟨j, rfl⟩ : ∃ j, i = stop + 1 + j := ⟨i - stop - 1, by omega⟩
        have h7 : stop + 1 + j - stop = j + 1 := by omega
        have h8 : stop + 1 + j - 1 = stop + j := by omega
        have h9 : stop + j < l.length := by omega
        simp [hi, hi2, h7, h8, List.getD_eq_getElem?_getD, h9]
  · have h2 : (List.take stop l ++ x :: List.drop stop l).length ≤ i := by simp; omega
    rw [List.getElem?_eq_none h2, List.getElem?_eq_none (by simp; omega)]

theorem AddCell_eq (ch : Char) (e : Bool) (ls : List Char) (ps : List Node) (stop : Nat)
    (hlen : ls.length = ps.length) (hstop : stop ≤ ls.length) :
    AddCell ch (.nonLeaf e ls ps) stop
      = .nonLeaf e (insertAt stop ch ls) (insertAt stop .null ps) := by
  unfold AddCell charAt ptrAt
  simp only
  rw [map_range_insert _ _ ls stop hstop, hlen, map_range_insert _ _ ps stop (hlen ▸ hstop)]

theorem sortedPos_le (ch : Char) (ls : List Char) : sortedPos ch ls ≤ ls.length := by
  induction ls with
  | nil => simp [sortedPos]
  | cons l ls ih =>
    unfold sortedPos
    split
    · simp; omega
    · simp

theorem findLetter_eq_none_iff (ch : Char) (ls : List Char) :
    findLetter ch ls = none ↔ ch ∉ ls := by
  induction ls with
  | nil => simp [findLetter]
  | cons l ls ih =>
    unfold findLetter
    by_cases h : l = ch
    · simp [h]
    · simp [h, ih, Ne.symm h]

theorem findLetter_some_lt {ch : Char} {ls : List Char} {i : Nat}
    (h : findLetter ch ls = some i) : i < ls.length ∧ ls[i]? = some ch := by
  induction ls generalizing i with
  | nil => simp [findLetter] at h
  | cons l ls ih =>
    unfold findLetter at h
    by_cases hl : l = ch
    · simp [hl] at h; subst h; simp [hl]
    · simp [hl] at h
      obtain ⟨j, hj, rfl⟩ := h
      obtain ⟨h1, h2⟩ := ih hj
      exact ⟨by simpa using h1, by simpa using h2⟩

theorem findLetter_insertAt_self (ch : Char) (ls : List Char) (k : Nat)
    (h : ch ∉ ls) (hk : k ≤ ls.length) : findLetter ch (insertAt k ch ls) = some k := by
  induction ls generalizing k with
  | nil =>
    have : k = 0 := by simpa using hk
    subst this; simp [insertAt, findLetter]
  | cons l ls ih =>
    cases k with
    | zero => simp [insertAt_zero, findLetter]
    | succ k =>
      rw [insertAt_succ_cons]
      have hl : l ≠ ch := fun e => h (by simp [e])
      have h2 : ch ∉ ls := fun e => h (by simp [e])
      unfold findLetter
      simp [hl, ih k h2 (by simpa using hk)]

theorem findLetter_insertAt_ne (c ch : Char) (ls : List Char) (k : Nat) (h : c ≠ ch) :
    findLetter c (insertAt k ch ls)
      = (findLetter c ls).map (fun i => if i < k then i else i + 1) := by
  induction ls generalizing k with
  | nil => simp [insertAt, findLetter, Ne.symm h]
  | cons l ls ih =>
    cases k with
    | zero =>
      rw [insertAt_zero]
      conv => lhs; unfold findLetter
      simp [Ne.symm h]
    | succ k =>
      rw [insertAt_succ_cons]
      unfold findLetter
      by_cases hl : l = c
      · simp [hl]
      · simp [hl, ih k, Option.map_map, Function.comp_def]
        congr 1
        funext i
        by_cases hi : i < k <;> simp [hi]

theorem ptrAt_insertAt_lt (x : Node) (ps : List Node) (k i : Nat) (hi : i < k) (hk : k ≤ ps.length) :
    ptrAt (insertAt k x ps) i = ptrAt ps i := by
  unfold ptrAt insertAt
  rw [List.getD_eq_getElem?_getD, List.getD_eq_getElem?_getD,
    List.getElem?_append_left (by simp; omega), List.getElem?_take_of_lt hi]

theorem ptrAt_insertAt_self (x : Node) (ps : List Node) (k : Nat) (hk : k ≤ ps.length) :
    ptrAt (insertAt k x ps) k = x := by
  unfold ptrAt insertAt
  have h6 : (List.take k ps).length = k := by simp; omega
  rw [List.getD_eq_getElem?_getD, List.getElem?_append_right (by omega), h6]
  simp

theorem ptrAt_insertAt_ge (x : Node) (ps : List Node) (k i : Nat) (hi : k ≤ i) (hk : k ≤ ps.length) :
    ptrAt (insertAt k x ps) (i + 1) = ptrAt ps i := by
  unfold ptrAt insertAt
  have h6 : (List.take k ps).length = k := by simp; omega
  rw [List.getD_eq_getElem?_getD, List.getD_eq_getElem?_getD,
    List.getElem?_append_right (by omega), h6]
  obtain ⟨j, rfl⟩ : ∃ j, i = k + j := ⟨i - k, by omega⟩
  have h7 : k + j + 1 - k = j + 1 := by omega
  simp [h7]

theorem set_insertAt (x y : Node) (ps : List Node) (k : Nat) (hk : k ≤ ps.length) :
    (insertAt k x ps).set k y = insertAt k y ps := by
  unfold insertAt
  have h6 : (List.take k ps).length = k := by simp; omega
  rw [List.set_append_right _ _ (by omega), h6]
  simp

/-! ## The factories -/

theorem CreateLeaf_found (ch : Char) (s : List Char) (e : Bool) (ls : List Char) (ps : List Node)
    (pos : Nat) (h : findLetter ch ls = some pos) :
    CreateLeaf ch s (.nonLeaf e ls ps) = .nonLeaf e ls (ps.set pos (.leaf s)) := by
  simp [CreateLeaf, Position, h, setPtr]

theorem CreateLeaf_new (ch : Char) (s : List Char) (e : Bool) (ls : List Char) (ps : List Node)
    (h : findLetter ch ls = none) (hlen : ls.length = ps.length) :
    CreateLeaf ch s (.nonLeaf e ls ps)
      = .nonLeaf e (insertAt (sortedPos ch ls) ch ls) (insertAt (sortedPos ch ls) (.leaf s) ps) := by
  have hk := sortedPos_le ch ls
  simp only [CreateLeaf, Position, h]
  rw [AddCell_eq ch e ls ps _ hlen hk]
  simp only [setPtr]
  rw [set_insertAt _ _ _ _ (hlen ▸ hk)]

theorem ptrAt_set_self (ps : List Node) (pos : Nat) (n : Node) (h : pos < ps.length) :
    ptrAt (ps.set pos n) pos = n := by
  simp [ptrAt, List.getD_eq_getElem?_getD, h]

theorem ptrAt_set_ne (ps : List Node) (pos i : Nat) (n : Node) (h : pos ≠ i) :
    ptrAt (ps.set pos n) i = ptrAt ps i := by
  simp [ptrAt, List.getD_eq_getElem?_getD, List.getElem?_set_ne h]

theorem edgeChild_set (ls : List Char) (ps : List Node) (ch c : Char) (pos : Nat) (n : Node)
    (h : findLetter ch ls = some pos) (hlen : ls.length = ps.length) :
    edgeChild ls (ps.set pos n) c = if c = ch then n else edgeChild ls ps c := by
  have hpos := (findLetter_some_lt h).1
  by_cases hc : c = ch
  · subst hc
    simp [edgeChild, h, ptrAt_set_self _ _ _ (hlen ▸ hpos)]
  · simp only [edgeChild, hc, if_false]
    cases h2 : findLetter c ls with
    | none => rfl
    | some i =>
      have hne : pos ≠ i := by
        intro e
        subst e
        have h3 := (findLetter_some_lt h).2
        have h4 := (findLetter_some_lt h2).2
        rw [h3] at h4
        exact hc (Option.some.inj h4).symm
      simp [ptrAt_set_ne _ _ _ _ hne]

theorem edgeChild_insertAt (ls : List Char) (ps : List Node) (ch c : Char) (k : Nat) (n : Node)
    (h : findLetter ch ls = none) (hlen : ls.length = ps.length) (hk : k ≤ ls.length) :
    edgeChild (insertAt k ch ls) (insertAt k n ps) c = if c = ch then n else edgeChild ls ps c := by
  have hmem := (findLetter_eq_none_iff ch ls).mp h
  by_cases hc : c = ch
  · subst hc
    simp [edgeChild, findLetter_insertAt_self _ _ _ hmem hk, ptrAt_insertAt_self _ _ _ (hlen ▸ hk)]
  · simp only [edgeChild, hc, if_false, findLetter_insertAt_ne c ch ls k hc]
    cases h2 : findLetter c ls with
    | none => rfl
    | some i =>
      simp only [Option.map_some']
      by_cases hi : i < k
      · simp [hi, ptrAt_insertAt_lt _ _ _ _ hi (hlen ▸ hk)]
      · simp [hi, ptrAt_insertAt_ge _ _ _ _ (Nat.le_of_not_lt hi) (hlen ▸ hk)]

theorem edgeChild_CreateLeaf (ch : Char) (s : List Char) (e : Bool) (ls : List Char)
    (ps : List Node) (hlen : ls.length = ps.length) :
    ∃ ls2 ps2, CreateLeaf ch s (.nonLeaf e ls ps) = .nonLeaf e ls2 ps2 ∧
      ls2.length = ps2.length ∧
      ∀ c, edgeChild ls2 ps2 c = if c = ch then .leaf s else edgeChild ls ps c := by
  cases h : findLetter ch ls with
  | none =>
    refine ⟨_, _, CreateLeaf_new ch s e ls ps h hlen, ?_, ?_⟩
    · simp [insertAt_length, hlen]
    · intro c
      exact edgeChild_insertAt ls ps ch c _ _ h hlen (sortedPos_le ch ls)
  | some pos =>
    refine ⟨_, _, CreateLeaf_found ch s e ls ps pos h, ?_, ?_⟩
    · simp [hlen]
    · intro c
      exact edgeChild_set ls ps ch c pos _ h hlen

/-! ## Searching -/

theorem SearchTrie_null (v : List Char) : SearchTrie .null v = false := by
  cases v <;> rfl

theorem SearchTrie_leaf (w v : List Char) : SearchTrie (.leaf w) v = decide (v = w) := by
  cases v <;> rfl

theorem SearchTrie_nil (e : Bool) (ls : List Char) (ps : List Node) :
    SearchTrie (.nonLeaf e ls ps) [] = e := rfl

theorem SearchTrie_cons (e : Bool) (ls : List Char) (ps : List Node) (c : Char) (r : List Char) :
    SearchTrie (.nonLeaf e ls ps) (c :: r) = SearchTrie (edgeChild ls ps c) r := by
  unfold edgeChild
  conv => lhs; unfold SearchTrie
  simp only [Position]
  cases findLetter c ls with
  | none => simp [SearchTrie_null]
  | some pos =>
    simp only
    cases h : ptrAt ps pos with
    | null => simp [SearchTrie_null]
    | leaf w => simp
    | nonLeaf e2 l2 p2 => simp

theorem SearchTrie_CreateLeaf (ch : Char) (s : List Char) (e : Bool) (ls : List Char)
    (ps : List Node) (hlen : ls.length = ps.length) (v : List Char) :
    SearchTrie (CreateLeaf ch s (.nonLeaf e ls ps)) v =
      match v with
      | [] => e
      | c :: r => if c = ch then decide (r = s) else SearchTrie (.nonLeaf e ls ps) (c :: r) := by
  obtain ⟨ls2, ps2, h1, _, h3⟩ := edgeChild_CreateLeaf ch s e ls ps hlen
  rw [h1]
  cases v with
  | nil => rfl
  | cons c r =>
    simp only [SearchTrie_cons, h3]
    by_cases hc : c = ch
    · simp [hc, SearchTrie_leaf]
    · simp [hc]

theorem SearchTrie_CreateNonLeaf (ch : Char) (v : List Char) :
    SearchTrie (CreateNonLeaf ch) v = false := by
  cases v with
  | nil => rfl
  | cons c r =>
    unfold CreateNonLeaf
    rw [SearchTrie_cons]
    unfold edgeChild findLetter
    by_cases h : ch = c
    · simp [h, ptrAt, SearchTrie_null]
    · simp [h, findLetter, SearchTrie_null]

/-! ## The split loop builds `splitTree` -/

theorem drop_eq_cons {l : List Char} {k : Nat} {a : Char} {r : List Char}
    (h : l.drop k = a :: r) : charAt l k = a ∧ l.drop (k + 1) = r ∧ k < l.length := by
  have hk : k < l.length := by
    by_contra hc
    rw [List.drop_eq_nil_of_le (Nat.le_of_not_lt hc)] at h
    exact List.noConfusion h
  have h5 := List.drop_eq_getElem_cons hk
  rw [h] at h5
  simp only [List.cons.injEq] at h5
  refine ⟨?_, h5.2.symm, hk⟩
  simp [charAt, List.getD_eq_getElem?_getD, hk, h5.1]

theorem charAt_drop (l : List Char) (k : Nat) : charAt (l.drop k) 0 = charAt l k := by
  simp [charAt, List.getD_eq_getElem?_getD]

theorem splitLoop_eq (fuel : Nat) (p : Node) (word lfword : List Char) (offset pos : Nat)
    (hpos : Position p (charAt word offset) = some pos)
    (h1 : offset < word.length) (h2 : word.length ≤ offset + fuel)
    (h3 : offset ≤ lfword.length) :
    splitLoop fuel p word lfword offset
      = some (setPtr p pos
          (splitTree (charAt word offset) (word.drop (offset + 1)) (lfword.drop offset))) := by
  induction fuel generalizing p offset pos with
  | zero => omega
  | succ fuel ih =>
    unfold splitLoop
    simp only [hpos]
    by_cases hA : word.length = offset + 1
    · have hw : word.drop (offset + 1) = [] := List.drop_eq_nil_of_le (by omega)
      simp only [hA, if_true, hw, splitTree, charAt_drop, List.drop_drop]
    · simp only [hA, if_false]
      have hlt : offset + 1 < word.length := by omega
      obtain ⟨w0, ws, hw⟩ : ∃ w0 ws, word.drop (offset + 1) = w0 :: ws := by
        cases h : word.drop (offset + 1) with
        | nil => simp at h; omega
        | cons a r => exact ⟨a, r, rfl⟩
      obtain ⟨hw0, hws, -⟩ := drop_eq_cons hw
      by_cases hB : lfword.length = offset
      · have ht : lfword.drop offset = [] := List.drop_eq_nil_of_le (by omega)
        rw [if_pos hB, hw, ht, splitTree, hw0, hws]
      · simp only [hB, if_false]
        obtain ⟨t0, ts, ht⟩ : ∃ t0 ts, lfword.drop offset = t0 :: ts := by
          cases h : lfword.drop offset with
          | nil => simp at h; omega
          | cons a r => exact ⟨a, r, rfl⟩
        obtain ⟨ht0, hts, -⟩ := drop_eq_cons ht
        rw [hw, ht, hw0, ht0, hts, hws]
        by_cases heq : w0 = t0
        · have hp0 : Position (CreateNonLeaf w0) (charAt word (offset + 1)) = some 0 := by
            simp [CreateNonLeaf, Position, findLetter, hw0]
          simp only [heq, if_true, splitTree]
          rw [← heq, ih (CreateNonLeaf w0) (offset + 1) 0 hp0 hlt (by omega) (by omega)]
          rw [hw0, hws, hts]
          rfl
        · rw [if_neg heq, splitTree, if_neg heq]

/-! ## Well-formedness is kept -/

theorem pairwise_insertAt_sortedPos (ch : Char) (ls : List Char)
    (h : ls.Pairwise (· < ·)) (hn : ch ∉ ls) :
    (insertAt (sortedPos ch ls) ch ls).Pairwise (· < ·) := by
  induction ls with
  | nil => simp [sortedPos, insertAt]
  | cons l ls ih =>
    have hl2 : ch ≠ l := fun e => hn (by simp [e])
    have hn2 : ch ∉ ls := fun e => hn (by simp [e])
    rw [List.pairwise_cons] at h
    unfold sortedPos
    by_cases hl : l < ch
    · rw [if_pos hl, insertAt_succ_cons, List.pairwise_cons]
      refine ⟨?_, ih h.2 hn2⟩
      intro y hy
      rcases (mem_insertAt _ _ _ _).mp hy with hy | hy
      · rw [hy]; exact hl
      · exact h.1 y hy
    · rw [if_neg hl, insertAt_zero, List.pairwise_cons, List.pairwise_cons]
      have hlt : ch < l := lt_of_le_of_ne (not_lt.mp hl) hl2
      refine ⟨?_, h⟩
      intro y hy
      rcases List.mem_cons.mp hy with hy | hy
      · rw [hy]; exact hlt
      · exact lt_trans hlt (h.1 y hy)

theorem WellFormed.length_eq {e : Bool} {ls : List Char} {ps : List Node}
    (h : WellFormed (.nonLeaf e ls ps)) : ls.length = ps.length := by
  cases h with
  | nonLeaf _ _ _ h1 _ _ => exact h1

theorem WellFormed.sorted {e : Bool} {ls : List Char} {ps : List Node}
    (h : WellFormed (.nonLeaf e ls ps)) : ls.Pairwise (· < ·) := by
  cases h with
  | nonLeaf _ _ _ _ h2 _ => exact h2

theorem WellFormed.child {e : Bool} {ls : List Char} {ps : List Node}
    (h : WellFormed (.nonLeaf e ls ps)) : ∀ c ∈ ps, WellFormed c := by
  cases h with
  | nonLeaf _ _ _ _ _ h3 => exact h3

theorem WellFormed.ptrAt {e : Bool} {ls : List Char} {ps : List Node}
    (h : WellFormed (.nonLeaf e ls ps)) (i : Nat) : WellFormed (ptrAt ps i) := by
  unfold SimpleTrie.ptrAt
  rw [List.getD_eq_getElem?_getD]
  cases hi : ps[i]? with
  | none => exact WellFormed.null
  | some c => exact h.child c (List.getElem?_mem hi)

theorem WellFormed.setEow {e : Bool} {ls : List Char} {ps : List Node}
    (h : WellFormed (.nonLeaf e ls ps)) (e2 : Bool) : WellFormed (.nonLeaf e2 ls ps) :=
  WellFormed.nonLeaf e2 ls ps h.length_eq h.sorted h.child

theorem WellFormed.set {e : Bool} {ls : List Char} {ps : List Node}
    (h : WellFormed (.nonLeaf e ls ps)) (pos : Nat) (n : Node) (hn : WellFormed n) :
    WellFormed (.nonLeaf e ls (ps.set pos n)) := by
  refine WellFormed.nonLeaf e ls _ (by simp [h.length_eq]) h.sorted ?_
  intro c hc
  rcases List.mem_or_eq_of_mem_set hc with hc | hc
  · exact h.child c hc
  · rw [hc]; exact hn

theorem WellFormed_CreateNonLeaf (ch : Char) : WellFormed (CreateNonLeaf ch) := by
  refine WellFormed.nonLeaf false [ch] [.null] rfl (by simp) ?_
  intro c hc
  simp at hc
  rw [hc]; exact WellFormed.null

theorem WellFormed_CreateLeaf (ch : Char) (s : List Char) (e : Bool) (ls : List Char)
    (ps : List Node) (h : WellFormed (.nonLeaf e ls ps)) :
    WellFormed (CreateLeaf ch s (.nonLeaf e ls ps)) := by
  cases hf : findLetter ch ls with
  | none =>
    rw [CreateLeaf_new ch s e ls ps hf h.length_eq]
    refine WellFormed.nonLeaf e _ _ (by simp [insertAt_length, h.length_eq])
      (pairwise_insertAt_sortedPos ch ls h.sorted ((findLetter_eq_none_iff ch ls).mp hf)) ?_
    intro c hc
    rcases (mem_insertAt _ _ _ _).mp hc with hc | hc
    · rw [hc]; exact WellFormed.leaf s
    · exact h.child c hc
  | some pos =>
    rw [CreateLeaf_found ch s e ls ps pos hf]
    exact h.set pos _ (WellFormed.leaf s)

theorem CreateLeaf_shape (ch : Char) (s : List Char) (e : Bool) (ls : List Char)
    (ps : List Node) (hlen : ls.length = ps.length) :
    ∃ ls2 ps2, CreateLeaf ch s (.nonLeaf e ls ps) = .nonLeaf e ls2 ps2 := by
  obtain ⟨ls2, ps2, h, _⟩ := edgeChild_CreateLeaf ch s e ls ps hlen
  exact ⟨ls2, ps2, h⟩

theorem splitTree_shape (last : Char) (ws ts : List Char) :
    ∃ e ls ps, splitTree last ws ts = .nonLeaf e ls ps := by
  cases ws with
  | nil =>
    obtain ⟨ls2, ps2, h⟩ := CreateLeaf_shape (charAt ts 0) (ts.drop 1) true [last] [.null] rfl
    exact ⟨_, _, _, by simpa [splitTree, CreateNonLeaf, setEndOfWord] using h⟩
  | cons w0 ws =>
    cases ts with
    | nil =>
      obtain ⟨ls2, ps2, h⟩ := CreateLeaf_shape w0 ws true [w0] [.null] rfl
      exact ⟨_, _, _, by simpa [splitTree, CreateNonLeaf, setEndOfWord] using h⟩
    | cons t0 ts =>
      by_cases heq : w0 = t0
      · exact ⟨_, _, _, by rw [splitTree, if_pos heq]; rfl⟩
      · obtain ⟨l1, p1, h1, hl1, _⟩ := edgeChild_CreateLeaf w0 ws false [w0] [.null] rfl
        obtain ⟨l2, p2, h2⟩ := CreateLeaf_shape t0 ts false l1 p1 hl1
        refine ⟨false, l2, p2, ?_⟩
        rw [splitTree, if_neg heq]
        show CreateLeaf t0 ts (CreateLeaf w0 ws (.nonLeaf false [w0] [.null])) = _
        rw [h1]; exact h2

theorem WellFormed_splitTree (last : Char) (ws ts : List Char) :
    WellFormed (splitTree last ws ts) := by
  induction ws generalizing last ts with
  | nil =>
    exact WellFormed_CreateLeaf _ _ true [last] [.null] ((WellFormed_CreateNonLeaf last).setEow true)
  | cons w0 ws ih =>
    cases ts with
    | nil =>
      exact WellFormed_CreateLeaf _ _ true [w0] [.null] ((WellFormed_CreateNonLeaf w0).setEow true)
    | cons t0 ts =>
      by_cases heq : w0 = t0
      · rw [splitTree, if_pos heq]
        exact (WellFormed_CreateNonLeaf w0).set 0 _ (ih w0 ts)
      · rw [splitTree, if_neg heq]
        obtain ⟨l1, p1, h1⟩ := CreateLeaf_shape w0 ws false [w0] [.null] rfl
        have hw := WellFormed_CreateLeaf w0 ws false [w0] [.null] (WellFormed_CreateNonLeaf w0)
        show WellFormed (CreateLeaf t0 ts (CreateLeaf w0 ws (.nonLeaf false [w0] [.null])))
        rw [h1] at hw ⊢
        exact WellFormed_CreateLeaf t0 ts false l1 p1 hw

theorem SearchTrie_splitTree (last : Char) (ws ts : List Char) (hne : ws ≠ ts) (r : List Char) :
    SearchTrie (splitTree last ws ts) r = (decide (r = ts) || decide (r = ws)) := by
  induction ws generalizing last ts r with
  | nil =>
    cases ts with
    | nil => exact absurd rfl hne
    | cons t0 ts =>
      show SearchTrie (CreateLeaf t0 ts (.nonLeaf true [last] [.null])) r = _
      rw [SearchTrie_CreateLeaf _ _ _ _ _ rfl]
      cases r with
      | nil => simp
      | cons c rr =>
        by_cases hc : c = t0
        · simp [hc]
        · have := SearchTrie_CreateNonLeaf last (c :: rr)
          simp only [CreateNonLeaf, SearchTrie_cons] at this
          simp [hc, SearchTrie_cons, this]
  | cons w0 ws ih =>
    cases ts with
    | nil =>
      show SearchTrie (CreateLeaf w0 ws (.nonLeaf true [w0] [.null])) r = _
      rw [SearchTrie_CreateLeaf _ _ _ _ _ rfl]
      cases r with
      | nil => simp
      | cons c rr =>
        by_cases hc : c = w0
        · simp [hc]
        · have := SearchTrie_CreateNonLeaf w0 (c :: rr)
          simp only [CreateNonLeaf, SearchTrie_cons] at this
          simp [hc, SearchTrie_cons, this]
    | cons t0 ts =>
      by_cases heq : w0 = t0
      · rw [splitTree, if_pos heq]
        subst heq
        have hne2 : ws ≠ ts := fun e => hne (by rw [e])
        show SearchTrie (.nonLeaf false [w0] ([Node.null].set 0 (splitTree w0 ws ts))) r = _
        cases r with
        | nil => simp [SearchTrie_nil]
        | cons c rr =>
          rw [SearchTrie_cons]
          by_cases hc : c = w0
          · subst hc
            simp [edgeChild, findLetter, ptrAt, ih c ts hne2 rr]
          · simp [edgeChild, findLetter, hc, Ne.symm hc, SearchTrie_null]
      · rw [splitTree, if_neg heq]
        obtain ⟨l1, p1, h1, hl1, _⟩ := edgeChild_CreateLeaf w0 ws false [w0] [.null] rfl
        have hs1 := SearchTrie_CreateLeaf w0 ws false [w0] [.null] rfl
        show SearchTrie (CreateLeaf t0 ts (CreateLeaf w0 ws (.nonLeaf false [w0] [.null]))) r = _
        rw [h1] at hs1 ⊢
        rw [SearchTrie_CreateLeaf _ _ _ _ _ hl1]
        cases r with
        | nil => simp
        | cons c rr =>
          by_cases hc : c = t0
          · subst hc
            simp [Ne.symm heq]
          · simp only [if_neg hc, hs1]
            by_cases hc2 : c = w0
            · subst hc2
              simp [hc]
            · have := SearchTrie_CreateNonLeaf w0 (c :: rr)
              simp only [CreateNonLeaf] at this
              simp [hc, hc2, this]

/-! ## Insertion -/

theorem TrieInsert_split (ch : Char) (rest lfword : List Char) (e : Bool) (ls : List Char)
    (ps : List Node) (pos : Nat) (hf : findLetter ch ls = some pos)
    (hp : ptrAt ps pos = .leaf lfword) (hne : lfword ≠ rest) :
    TrieInsert (ch :: rest) (.nonLeaf e ls ps)
      = some (.nonLeaf e ls (ps.set pos (splitTree ch rest lfword))) := by
  simp only [TrieInsert, Position, hf, hp, if_neg hne]
  rw [splitLoop_eq _ _ _ _ 0 pos (by simpa [Position, charAt] using hf) (by simp) (by simp)
    (by simp)]
  simp [setPtr, charAt]

/-- What an insert does to the three observations `SearchTrie` makes of a
non-leaf: the flag, and the child along each edge. -/
theorem TrieInsert_cases (w : List Char) (e : Bool) (ls : List Char) (ps : List Node)
    (t2 : Node) (hwf : WellFormed (.nonLeaf e ls ps))
    (h : TrieInsert w (.nonLeaf e ls ps) = some t2) :
    (w = [] ∧ t2 = .nonLeaf true ls ps) ∨
    (∃ ch rest ls2 ps2 n, w = ch :: rest ∧ t2 = .nonLeaf e ls2 ps2 ∧ ls2.length = ps2.length ∧
      (∀ c, edgeChild ls2 ps2 c = if c = ch then n else edgeChild ls ps c) ∧
      ((edgeChild ls ps ch = .null ∧ findLetter ch ls = none ∧ n = .leaf rest) ∨
       (edgeChild ls ps ch = .leaf rest ∧ n = .leaf rest ∧ t2 = .nonLeaf e ls ps) ∨
       (∃ lfword, edgeChild ls ps ch = .leaf lfword ∧ lfword ≠ rest ∧
          n = splitTree ch rest lfword) ∨
       (∃ e1 l1 p1, edgeChild ls ps ch = .nonLeaf e1 l1 p1 ∧
          TrieInsert rest (.nonLeaf e1 l1 p1) = some n))) := by
  cases w with
  | nil =>
    left
    simp only [TrieInsert, Option.some.injEq] at h
    exact ⟨rfl, h.symm⟩
  | cons ch rest =>
    right
    have hlen := hwf.length_eq
    cases hf : findLetter ch ls with
    | none =>
      simp only [TrieInsert, Position, hf, Option.some.injEq] at h
      obtain ⟨ls2, ps2, h1, h2, h3⟩ := edgeChild_CreateLeaf ch rest e ls ps hlen
      refine ⟨ch, rest, ls2, ps2, .leaf rest, rfl, by rw [← h, h1], h2, h3, Or.inl ?_⟩
      simp [edgeChild, hf]
    | some pos =>
      have hec : edgeChild ls ps ch = ptrAt ps pos := by simp [edgeChild, hf]
      cases hp : ptrAt ps pos with
      | null => simp [TrieInsert, Position, hf, hp] at h
      | leaf lfword =>
        by_cases heq : lfword = rest
        · simp only [TrieInsert, Position, hf, hp, if_pos heq, Option.some.injEq] at h
          subst heq
          refine ⟨ch, lfword, ls, ps, .leaf lfword, rfl, h.symm, hlen, ?_, Or.inr (Or.inl ?_)⟩
          · intro c
            by_cases hc : c = ch
            · rw [if_pos hc, hc, hec, hp]
            · rw [if_neg hc]
          · exact ⟨by rw [hec, hp], rfl, h.symm⟩
        · rw [TrieInsert_split ch rest lfword e ls ps pos hf hp heq] at h
          simp only [Option.some.injEq] at h
          refine ⟨ch, rest, ls, _, splitTree ch rest lfword, rfl, h.symm, by simp [hlen], ?_,
            Or.inr (Or.inr (Or.inl ⟨lfword, by rw [hec, hp], heq, rfl⟩))⟩
          intro c
          exact edgeChild_set ls ps ch c pos _ hf hlen
      | nonLeaf e1 l1 p1 =>
        simp only [TrieInsert, Position, hf, hp, Option.map_eq_some'] at h
        obtain ⟨n, hn, hn2⟩ := h
        refine ⟨ch, rest, ls, _, n, rfl, hn2.symm, by simp [hlen], ?_,
          Or.inr (Or.inr (Or.inr ⟨e1, l1, p1, by rw [hec, hp], hn⟩))⟩
        intro c
        exact edgeChild_set ls ps ch c pos _ hf hlen

theorem WellFormed.edgeChild {e : Bool} {ls : List Char} {ps : List Node}
    (h : WellFormed (.nonLeaf e ls ps)) (c : Char) : WellFormed (edgeChild ls ps c) := by
  unfold SimpleTrie.edgeChild
  cases findLetter c ls with
  | none => exact WellFormed.null
  | some pos => exact h.ptrAt pos

theorem TrieInsert_shape (w : List Char) (p t2 : Node) (h : TrieInsert w p = some t2) :
    (∃ e ls ps, p = .nonLeaf e ls ps) ∧ ∃ e ls ps, t2 = .nonLeaf e ls ps := by
  cases p with
  | null => cases w <;> simp [TrieInsert] at h
  | leaf x => cases w <;> simp [TrieInsert] at h
  | nonLeaf e ls ps =>
    refine ⟨⟨e, ls, ps, rfl⟩, ?_⟩
    cases w with
    | nil =>
      simp only [TrieInsert, Option.some.injEq] at h
      exact ⟨_, _, _, h.symm⟩
    | cons ch rest =>
      cases hf : findLetter ch ls with
      | none =>
        simp only [TrieInsert, Position, hf, Option.some.injEq] at h
        simp only [CreateLeaf, Position, hf] at h
        cases hA : AddCell ch (.nonLeaf e ls ps) (sortedPos ch ls) with
        | null => simp [AddCell] at hA
        | leaf x => simp [AddCell] at hA
        | nonLeaf e2 l2 p2 =>
          rw [hA] at h
          exact ⟨_, _, _, h.symm⟩
      | some pos =>
        cases hp : ptrAt ps pos with
        | null => simp [TrieInsert, Position, hf, hp] at h
        | leaf lfword =>
          by_cases heq : lfword = rest
          · simp only [TrieInsert, Position, hf, hp, if_pos heq, Option.some.injEq] at h
            exact ⟨_, _, _, h.symm⟩
          · rw [TrieInsert_split ch rest lfword e ls ps pos hf hp heq] at h
            simp only [Option.some.injEq] at h
            exact ⟨_, _, _, h.symm⟩
        | nonLeaf e1 l1 p1 =>
          simp only [TrieInsert, Position, hf, hp, Option.map_eq_some'] at h
          obtain ⟨n, _, hn2⟩ := h
          exact ⟨_, _, _, hn2.symm⟩

theorem WellFormed_TrieInsert (w : List Char) (p t2 : Node) (hwf : WellFormed p)
    (h : TrieInsert w p = some t2) : WellFormed t2 := by
  induction w generalizing p t2 with
  | nil =>
    obtain ⟨⟨e, ls, ps, rfl⟩, _⟩ := TrieInsert_shape _ _ _ h
    simp only [TrieInsert, Option.some.injEq] at h
    rw [← h]; exact hwf.setEow true
  | cons ch rest ih =>
    obtain ⟨⟨e, ls, ps, rfl⟩, _⟩ := TrieInsert_shape _ _ _ h
    cases hf : findLetter ch ls with
    | none =>
      simp only [TrieInsert, Position, hf, Option.some.injEq] at h
      rw [← h]; exact WellFormed_CreateLeaf ch rest e ls ps hwf
    | some pos =>
      cases hp : ptrAt ps pos with
      | null => simp [TrieInsert, Position, hf, hp] at h
      | leaf lfword =>
        by_cases heq : lfword = rest
        · simp only [TrieInsert, Position, hf, hp, if_pos heq, Option.some.injEq] at h
          rw [← h]; exact hwf
        · rw [TrieInsert_split ch rest lfword e ls ps pos hf hp heq] at h
          simp only [Option.some.injEq] at h
          rw [← h]; exact hwf.set pos _ (WellFormed_splitTree _ _ _)
      | nonLeaf e1 l1 p1 =>
        simp only [TrieInsert, Position, hf, hp, Option.map_eq_some'] at h
        obtain ⟨n, hn, hn2⟩ := h
        rw [← hn2]
        exact hwf.set pos _ (ih _ _ (hp ▸ hwf.ptrAt pos) hn)

theorem WellFormed_bootstrap (w : List Char) : WellFormed (bootstrap w) :=
  WellFormed_CreateLeaf _ _ false [charAt w 0] [.null] (WellFormed_CreateNonLeaf _)

theorem Built.wellFormed {t : Node} (h : Built t) : WellFormed t := by
  induction h with
  | seed w _ => exact WellFormed_bootstrap w
  | insert t t2 w _ _ hins ih => exact WellFormed_TrieInsert w t t2 ih hins

theorem bootstrap_eq (c : Char) (r : List Char) :
    bootstrap (c :: r) = .nonLeaf false [c] [.leaf r] := by
  simp [bootstrap, charAt, CreateNonLeaf, CreateLeaf, Position, findLetter, setPtr]

theorem Built.shape {t : Node} (h : Built t) : ∃ e ls ps, t = .nonLeaf e ls ps := by
  cases h with
  | seed w hw =>
    obtain ⟨c, r, rfl⟩ := List.exists_cons_of_ne_nil hw.1
    exact ⟨_, _, _, bootstrap_eq c r⟩
  | insert t t2 w _ _ hins => exact (TrieInsert_shape w t _ hins).2

/-- After a completed insert of `w`, `SearchTrie` finds exactly what it found
before, and `w`. -/
theorem SearchTrie_TrieInsert (w : List Char) (p t2 : Node) (hwf : WellFormed p)
    (h : TrieInsert w p = some t2) (v : List Char) :
    SearchTrie t2 v = (SearchTrie p v || decide (v = w)) := by
  induction w generalizing p t2 v with
  | nil =>
    obtain ⟨⟨e, ls, ps, rfl⟩, _⟩ := TrieInsert_shape _ _ _ h
    simp only [TrieInsert, Option.some.injEq] at h
    rw [← h]
    cases v with
    | nil => simp [SearchTrie_nil]
    | cons c r => simp [SearchTrie_cons]
  | cons ch rest ih =>
    obtain ⟨⟨e, ls, ps, rfl⟩, _⟩ := TrieInsert_shape _ _ _ h
    rcases TrieInsert_cases _ e ls ps t2 hwf h with ⟨h0, _⟩ | ⟨ch2, rest2, ls2, ps2, n, hw, ht2, _, hec, hcase⟩
    · exact absurd h0 (by simp)
    · simp only [List.cons.injEq] at hw
      obtain ⟨rfl, rfl⟩ := hw
      rw [ht2]
      cases v with
      | nil => simp [SearchTrie_nil]
      | cons c r =>
        rw [SearchTrie_cons, SearchTrie_cons, hec]
        by_cases hc : c = ch
        · subst hc
          simp only [if_true, List.cons.injEq, true_and]
          rcases hcase with ⟨h1, _, h2⟩ | ⟨h1, h2, _⟩ | ⟨lfword, h1, h2, h3⟩ | ⟨e1, l1, p1, h1, h2⟩
          · rw [h1, h2, SearchTrie_null, SearchTrie_leaf]; simp
          · rw [h1, h2, SearchTrie_leaf]; simp
          · rw [h1, h3, SearchTrie_leaf, SearchTrie_splitTree _ _ _ (Ne.symm h2)]
          · rw [h1]
            exact ih _ _ (h1 ▸ hwf.edgeChild c) h2 r
        · simp [hc]

theorem set_ptrAt_self (ps : List Node) (pos : Nat) : ps.set pos (ptrAt ps pos) = ps := by
  unfold ptrAt
  rw [List.getD_eq_getElem?_getD]
  by_cases h : pos < ps.length
  · apply List.ext_getElem?
    intro i
    by_cases hi : pos = i
    · subst hi; simp [h]
    · simp [List.getElem?_set_ne hi]
  · simp [List.set_eq_of_length_le (Nat.le_of_not_lt h)]

theorem TrieInsert_of_found (w : List Char) (e : Bool) (ls : List Char) (ps : List Node)
    (h : SearchTrie (.nonLeaf e ls ps) w = true) :
    TrieInsert w (.nonLeaf e ls ps) = some (.nonLeaf e ls ps) := by
  induction w generalizing e ls ps with
  | nil =>
    rw [SearchTrie_nil] at h
    simp [TrieInsert, h]
  | cons ch rest ih =>
    rw [SearchTrie_cons] at h
    unfold edgeChild at h
    cases hf : findLetter ch ls with
    | none => simp [hf, SearchTrie_null] at h
    | some pos =>
      simp only [hf] at h
      cases hp : ptrAt ps pos with
      | null => simp [hp, SearchTrie_null] at h
      | leaf lfword =>
        rw [hp, SearchTrie_leaf] at h
        have : lfword = rest := (of_decide_eq_true h).symm
        simp [TrieInsert, Position, hf, hp, this]
      | nonLeaf e1 l1 p1 =>
        rw [hp] at h
        simp only [TrieInsert, Position, hf, hp, ih e1 l1 p1 h, Option.map_some']
        rw [← hp, set_ptrAt_self]

theorem insertAll_search (ws : List (List Char)) (t t2 : Node) (hwf : WellFormed t)
    (h : insertAll ws t = some t2) (v : List Char) :
    SearchTrie t2 v = (SearchTrie t v || decide (v ∈ ws)) := by
  induction ws generalizing t with
  | nil =>
    simp only [insertAll, Option.some.injEq] at h
    simp [h]
  | cons w ws ih =>
    unfold insertAll at h
    cases hi : TrieInsert w t with
    | none => simp [hi] at h
    | some t1 =>
      simp only [hi] at h
      rw [ih t1 (WellFormed_TrieInsert w t t1 hwf hi) h, SearchTrie_TrieInsert w t t1 hwf hi]
      by_cases hv : v = w <;> simp [hv, Bool.or_assoc]

/-- Whenever the build of `main` runs to its end, `SearchTrie` on the tree
agrees with membership in the word list. -/
theorem buildTrie_search (w : List Char) (ws : List (List Char)) (t : Node) (hw : w ≠ [])
    (h : buildTrie (w :: ws) = some t) (v : List Char) :
    SearchTrie t v = true ↔ v ∈ w :: ws := by
  obtain ⟨c, r, rfl⟩ := List.exists_cons_of_ne_nil hw
  unfold buildTrie at h
  rw [insertAll_search ws _ t (WellFormed_bootstrap _) h v, bootstrap_eq]
  cases v with
  | nil => simp [SearchTrie_nil]
  | cons a b =>
    rw [SearchTrie_cons]
    by_cases ha : a = c
    · subst ha
      simp [edgeChild, findLetter, ptrAt, SearchTrie_leaf]
    · simp [edgeChild, findLetter, ha, Ne.symm ha, SearchTrie_null]

/-! ## Insertion and exact search: the claims -/

/-- C1, at the dictionary AB, A, AAX: the build of `main` does not produce a
tree (inserting AAX follows the edge A of the node for the word A, whose slot
is NULL), while the same three words in the order AAX, AB, A build a tree on
which `SearchTrie` agrees with membership. -/
theorem buildTrie_faults_on_some_order :
    (∀ w ∈ ["AB".toList, "A".toList, "AAX".toList], IsWord w) ∧
    buildTrie ["AB".toList, "A".toList, "AAX".toList] = none ∧
    (buildTrie ["AAX".toList, "AB".toList, "A".toList]).isSome = true := by
  refine ⟨by decide, rfl, rfl⟩

/-- C2, at the tree built from AB then A and the word AAX: the tree is one
`main` builds, the word is a dictionary word, and `TrieInsert` faults on the
NULL slot left under the letter A by split case (A), so AAX is never added. -/
theorem TrieInsert_faults_after_caseA :
    Built (.nonLeaf false ['A'] [.nonLeaf true ['A', 'B'] [.null, .leaf []]]) ∧
    IsWord "AAX".toList ∧
    TrieInsert "AAX".toList
      (.nonLeaf false ['A'] [.nonLeaf true ['A', 'B'] [.null, .leaf []]]) = none := by
  refine ⟨?_, by decide, rfl⟩
  exact Built.insert (bootstrap "AB".toList) _ "A".toList
    (Built.seed "AB".toList (by decide)) (by decide) rfl

/-- An insert that completes never removes a word: a word `v` found by
`SearchTrie` is still found in the tree `TrieInsert` returns, whatever word `w`
was inserted (splits of a leaf in cases (A), (B), (C) included). -/
theorem TrieInsert_some_keeps_words (t t2 : Node) (w v : List Char) (hwf : WellFormed t)
    (hv : SearchTrie t v = true) (hins : TrieInsert w t = some t2) :
    SearchTrie t2 v = true := by
  rw [SearchTrie_TrieInsert w t t2 hwf hins v, hv]
  rfl

/-- C3, at the tree built from CATS then CAT, the word CATS and the inserted
word CATTLE: the tree is one `main` builds and CATS is found in it, but
`TrieInsert` of the dictionary word CATTLE faults on the NULL slot left under
the letter T by split case (A), so there is no tree after the insert in which
CATS could still be found. -/
theorem TrieInsert_faults_with_word_present :
    Built (.nonLeaf false ['C'] [.nonLeaf false ['A'] [.nonLeaf false ['T']
      [.nonLeaf true ['S', 'T'] [.leaf [], .null]]]]) ∧
    SearchTrie (.nonLeaf false ['C'] [.nonLeaf false ['A'] [.nonLeaf false ['T']
      [.nonLeaf true ['S', 'T'] [.leaf [], .null]]]]) "CATS".toList = true ∧
    IsWord "CATTLE".toList ∧
    TrieInsert "CATTLE".toList
      (.nonLeaf false ['C'] [.nonLeaf false ['A'] [.nonLeaf false ['T']
        [.nonLeaf true ['S', 'T'] [.leaf [], .null]]]]) = none := by
  refine ⟨?_, rfl, by decide, rfl⟩
  exact Built.insert (bootstrap "CATS".toList) _ "CAT".toList
    (Built.seed "CATS".toList (by decide)) (by decide) rfl

/-- C4: idempotence. When `SearchTrie` already finds `w` in a tree (with a
non-leaf root), `TrieInsert` of `w` returns the very same tree; hence on a
built tree a second insert of the same word returns the tree of the first. -/
theorem TrieInsert_idempotent (w : List Char) (e : Bool) (ls : List Char) (ps : List Node) :
    (SearchTrie (.nonLeaf e ls ps) w = true →
      TrieInsert w (.nonLeaf e ls ps) = some (.nonLeaf e ls ps)) ∧
    (∀ t2, Built (.nonLeaf e ls ps) → TrieInsert w (.nonLeaf e ls ps) = some t2 →
      TrieInsert w t2 = some t2) := by
  refine ⟨TrieInsert_of_found w e ls ps, ?_⟩
  intro t2 hb hins
  obtain ⟨_, e2, l2, p2, rfl⟩ := TrieInsert_shape _ _ _ hins
  apply TrieInsert_of_found
  rw [SearchTrie_TrieInsert w _ _ hb.wellFormed hins w]
  simp

/-- C4, witness: CAT is found in the tree of CAT, CATS, and inserting it
again returns that tree; inserting CATS twice into the tree of CAT gives the
tree of one insert. -/
theorem TrieInsert_idempotent_witness :
    TrieInsert "CAT".toList
        (.nonLeaf false ['C'] [.nonLeaf false ['A'] [.nonLeaf false ['T']
          [.nonLeaf true ['S'] [.leaf []]]]])
      = some (.nonLeaf false ['C'] [.nonLeaf false ['A'] [.nonLeaf false ['T']
          [.nonLeaf true ['S'] [.leaf []]]]]) ∧
    TrieInsert "CATS".toList
        (.nonLeaf false ['C'] [.nonLeaf false ['A'] [.nonLeaf false ['T']
          [.nonLeaf true ['S'] [.leaf []]]]])
      = some (.nonLeaf false ['C'] [.nonLeaf false ['A'] [.nonLeaf false ['T']
          [.nonLeaf true ['S'] [.leaf []]]]]) :=
  ⟨(TrieInsert_idempotent "CAT".toList false ['C'] _).1 rfl,
   (TrieInsert_idempotent "CATS".toList false ['C'] [.leaf "AT".toList]).2 _
     (Built.seed "CAT".toList (by decide)) rfl⟩

/-- C10: the tree seeded from a non-empty word `w` alone is a non-leaf with
`EndOfWord` false and exactly one edge, keyed `w[0]`, to a leaf holding `w`
without its first letter; `SearchTrie` succeeds on it for `v` exactly when
`v = w`. -/
theorem bootstrap_single_word (w : List Char) (hw : w ≠ []) :
    bootstrap w = .nonLeaf false [charAt w 0] [.leaf (w.drop 1)] ∧
    ∀ v, SearchTrie (bootstrap w) v = true ↔ v = w := by
  obtain ⟨c, r, rfl⟩ := List.exists_cons_of_ne_nil hw
  refine ⟨by simp [bootstrap_eq, charAt], ?_⟩
  intro v
  have h := buildTrie_search (c :: r) [] (bootstrap (c :: r)) hw rfl v
  simpa using h

/-- C10, witness: the tree seeded from CAT. -/
theorem bootstrap_single_word_witness :
    bootstrap "CAT".toList = .nonLeaf false ['C'] [.leaf "AT".toList] ∧
    ∀ v, SearchTrie (bootstrap "CAT".toList) v = true ↔ v = "CAT".toList :=
  bootstrap_single_word "CAT".toList (by decide)

/-! ## The tail matcher accepts only tails within one edit -/

theorem OneEdit_cons (c : Char) {q s : List Char} (h : OneEdit q s) :
    OneEdit (c :: q) (c :: s) := by
  cases h with
  | same => exact OneEdit.same _
  | substitution a b x y => exact OneEdit.substitution (c :: a) b x y
  | insertion a b x => exact OneEdit.insertion (c :: a) b x
  | deletion a b x => exact OneEdit.deletion (c :: a) b x
  | transposition a b x y => exact OneEdit.transposition (c :: a) b x y

theorem OneEdit.symm {q s : List Char} (h : OneEdit q s) : OneEdit s q := by
  cases h with
  | same => exact OneEdit.same _
  | substitution a b x y => exact OneEdit.substitution a b y x
  | insertion a b x => exact OneEdit.deletion a b x
  | deletion a b x => exact OneEdit.insertion a b x
  | transposition a b x y => exact OneEdit.transposition a b y x

theorem diffLoop_one (a b : List Char) (hlen : a.length = b.length) :
    (diffLoop a b 1 = 1 → a = b) ∧
    (diffLoop a b 0 = 1 → ∃ pre x y post, a = pre ++ x :: post ∧ b = pre ++ y :: post) := by
  induction a generalizing b with
  | nil =>
    cases b with
    | nil => simp [diffLoop]
    | cons y b => simp at hlen
  | cons x a ih =>
    cases b with
    | nil => simp at hlen
    | cons y b =>
      have hl : a.length = b.length := by simpa using hlen
      obtain ⟨ih1, ih0⟩ := ih b hl
      by_cases hxy : x = y
      · subst hxy
        constructor
        · intro h
          simp only [diffLoop, ne_eq, not_true_eq_false, if_false] at h
          rw [ih1 h]
        · intro h
          simp only [diffLoop, ne_eq, not_true_eq_false, if_false] at h
          obtain ⟨pre, u, v, post, h1, h2⟩ := ih0 h
          exact ⟨x :: pre, u, v, post, by simp [h1], by simp [h2]⟩
      · constructor
        · intro h
          simp [diffLoop, hxy] at h
        · intro h
          simp only [diffLoop, ne_eq, hxy, not_false_eq_true, if_true] at h
          simp only [Nat.zero_add, gt_iff_lt, Nat.lt_irrefl, if_false] at h
          exact ⟨[], x, y, b, by simp [ih1 h], by simp⟩

theorem transLoop_sound (a b : List Char) (h : transLoop a b = true) :
    ∃ pre x y post, a = pre ++ x :: y :: post ∧ b = pre ++ y :: x :: post := by
  induction a generalizing b with
  | nil => simp [transLoop] at h
  | cons x a ih =>
    cases a with
    | nil => simp [transLoop] at h
    | cons x2 a =>
      cases b with
      | nil => simp [transLoop] at h
      | cons y b =>
        cases b with
        | nil => simp [transLoop] at h
        | cons y2 b =>
          by_cases hxy : x = y
          · subst hxy
            simp only [transLoop, ne_eq, not_true_eq_false, if_false] at h
            obtain ⟨pre, u, v, post, h1, h2⟩ := ih (y2 :: b) h
            exact ⟨x :: pre, u, v, post, by simp [h1], by simp [h2]⟩
          · simp only [transLoop, ne_eq, hxy, not_false_eq_true, if_true, Bool.and_eq_true,
              decide_eq_true_eq] at h
            obtain ⟨⟨h1, h2⟩, h3⟩ := h
            exact ⟨[], x, x2, a, by simp, by simp [h1, h2, h3]⟩

theorem skipInB_sound (a b : List Char) :
    (a.length = b.length → skipInB a b true = true → a = b) ∧
    (b.length = a.length + 1 → skipInB a b false = true →
      ∃ pre x post, b = pre ++ x :: post ∧ a = pre ++ post) := by
  induction b generalizing a with
  | nil =>
    constructor
    · intro hl _
      cases a with
      | nil => rfl
      | cons x a => simp at hl
    · intro hl; simp at hl
  | cons y b ih =>
    cases a with
    | nil =>
      constructor
      · intro hl; simp at hl
      · intro hl _
        have : b = [] := by simpa using hl
        exact ⟨[], y, [], by simp [this], by simp⟩
    | cons x a =>
      by_cases hxy : x = y
      · subst hxy
        constructor
        · intro hl h
          simp only [skipInB, if_true] at h
          rw [(ih a).1 (by simpa using hl) h]
        · intro hl h
          simp only [skipInB, if_true] at h
          obtain ⟨pre, u, post, h1, h2⟩ := (ih a).2 (by simpa using hl) h
          exact ⟨x :: pre, u, post, by simp [h1], by simp [h2]⟩
      · constructor
        · intro _ h
          simp [skipInB, hxy] at h
        · intro hl h
          simp only [skipInB, hxy, if_false, Bool.not_false, if_true] at h
          have := (ih (x :: a)).1 (by simpa using hl.symm) h
          exact ⟨[], y, b, by simp, by simp [this]⟩

theorem skipInA_sound (a b : List Char) :
    (a.length = b.length → skipInA a b true = true → a = b) ∧
    (a.length = b.length + 1 → skipInA a b false = true →
      ∃ pre x post, a = pre ++ x :: post ∧ b = pre ++ post) := by
  induction a generalizing b with
  | nil =>
    constructor
    · intro hl _
      cases b with
      | nil => rfl
      | cons x a => simp at hl
    · intro hl; simp at hl
  | cons x a ih =>
    cases b with
    | nil =>
      constructor
      · intro hl; simp at hl
      · intro hl _
        have : a = [] := by simpa using hl
        exact ⟨[], x, [], by simp [this], by simp⟩
    | cons y b =>
      by_cases hxy : x = y
      · subst hxy
        constructor
        · intro hl h
          simp only [skipInA, if_true] at h
          rw [(ih b).1 (by simpa using hl) h]
        · intro hl h
          simp only [skipInA, if_true] at h
          obtain ⟨pre, u, post, h1, h2⟩ := (ih b).2 (by simpa using hl) h
          exact ⟨x :: pre, u, post, by simp [h1], by simp [h2]⟩
      · constructor
        · intro _ h
          simp [skipInA, hxy] at h
        · intro hl h
          simp only [skipInA, hxy, if_false, Bool.not_false, if_true] at h
          have := (ih (y :: b)).1 (by simpa using hl) h
          exact ⟨[], x, a, by simp, by simp [this]⟩

/-- A tail accepted by `tailWithinOneEdit` lies within the edit budget left. -/
theorem tailWithinOneEdit_sound (tailA tailB : List Char) (edits : Nat)
    (h : tailWithinOneEdit tailA tailB edits = true) : Within edits tailB tailA := by
  unfold tailWithinOneEdit at h
  by_cases h1 : edits > 1
  · simp [h1] at h
  · simp only [h1, if_false] at h
    by_cases h2 : edits = 1
    · subst h2
      simp only [if_true, decide_eq_true_eq] at h
      exact h.symm
    · have h0 : edits = 0 := by omega
      subst h0
      show OneEdit tailB tailA
      by_cases heq : tailA = tailB
      · rw [heq]; exact OneEdit.same _
      · simp only [heq, if_false] at h
        by_cases hl : tailA.length = tailB.length
        · simp only [hl, if_true] at h
          by_cases hd : diffLoop tailA tailB 0 = 1
          · obtain ⟨pre, x, y, post, ha, hb⟩ := (diffLoop_one tailA tailB hl).2 hd
            rw [ha, hb]; exact OneEdit.substitution pre post y x
          · simp only [hd, if_false] at h
            obtain ⟨pre, x, y, post, ha, hb⟩ := transLoop_sound tailA tailB h
            rw [ha, hb]; exact OneEdit.transposition pre post y x
        · simp only [hl, if_false] at h
          by_cases hl2 : tailB.length = tailA.length + 1
          · simp only [hl2, if_true] at h
            obtain ⟨pre, x, post, hb, ha⟩ := (skipInB_sound tailA tailB).2 hl2 h
            rw [ha, hb]; exact OneEdit.deletion pre post x
          · simp only [hl2, if_false] at h
            by_cases hl3 : tailA.length = tailB.length + 1
            · simp only [hl3, if_true] at h
              obtain ⟨pre, x, post, ha, hb⟩ := (skipInA_sound tailA tailB).2 hl3 h
              rw [ha, hb]; exact OneEdit.insertion pre post x
            · simp [hl3] at h

/-! ## What the suggestion search puts in the box -/

theorem Reach_refl (Q : List Char → Prop) (b : SuggestBox) : Reach Q b b :=
  ⟨[], by simp, rfl⟩

theorem Reach.add {Q : List Char → Prop} {box0 b : SuggestBox} (h : Reach Q box0 b)
    (w : List Char) (hw : Q w) : Reach Q box0 (add_suggestion b w) := by
  obtain ⟨added, h1, h2⟩ := h
  refine ⟨added ++ [w], ?_, ?_⟩
  · intro s hs
    rcases List.mem_append.mp hs with hs | hs
    · exact h1 s hs
    · simp at hs; rw [hs]; exact hw
  · simp [List.foldl_append, h2]

theorem guarded_holds {R : SuggestBox → Prop} (cond : Bool) (MAX : Nat)
    (body : SuggestBox → Run) (box : SuggestBox) (k : SuggestBox → Run) (hbox : R box)
    (hb : cond = true → Run.Holds R (body box)) (hk : ∀ b, R b → Run.Holds R (k b)) :
    Run.Holds R (guarded cond MAX body box k) := by
  unfold guarded
  cases cond with
  | false => simpa using hk box hbox
  | true =>
    have hb2 := hb rfl
    simp only [if_true]
    cases hr : body box with
    | done b =>
      rw [hr] at hb2
      simp only
      by_cases hc : b.count ≥ MAX
      · simpa [hc] using hb2
      · simpa [hc] using hk b hb2
    | fault b => rw [hr] at hb2; exact hb2
    | outOfFuel => rw [hr] at hb2; exact hb2

theorem Within_cons (c : Char) {edits : Nat} {inp suf : List Char} (h : Within edits inp suf) :
    Within edits (c :: inp) (c :: suf) := by
  match edits, h with
  | 0, h => exact OneEdit_cons c h
  | 1, h =>
    show c :: inp = c :: suf
    have h2 : inp = suf := h
    rw [h2]

theorem emit_exact {S : Node → List Char → Prop} (hS : PathPred S) (e : Bool) (ls : List Char)
    (ps : List Node) (i : Nat) (edge : Char) (inp pre : List Char) (edits : Nat) (s : List Char)
    (hi : ls[i]? = some edge) (h : Emit S (ptrAt ps i) inp (pre ++ [edge]) edits s) :
    Emit S (.nonLeaf e ls ps) (edge :: inp) pre edits s := by
  obtain ⟨suf, h1, h2, h3⟩ := h
  exact ⟨edge :: suf, by simp [h1], hS.step e ls ps i edge suf hi h2, Within_cons edge h3⟩

theorem emit_subst {S : Node → List Char → Prop} (hS : PathPred S) (e : Bool) (ls : List Char)
    (ps : List Node) (i : Nat) (edge x : Char) (inp pre : List Char) (s : List Char)
    (hi : ls[i]? = some edge) (h : Emit S (ptrAt ps i) inp (pre ++ [edge]) 1 s) :
    Emit S (.nonLeaf e ls ps) (x :: inp) pre 0 s := by
  obtain ⟨suf, h1, h2, h3⟩ := h
  have h4 : inp = suf := h3
  subst h4
  exact ⟨edge :: inp, by simp [h1], hS.step e ls ps i edge inp hi h2,
    OneEdit.substitution [] inp x edge⟩

theorem emit_delete {S : Node → List Char → Prop} (hS : PathPred S) (e : Bool) (ls : List Char)
    (ps : List Node) (i : Nat) (edge : Char) (inp pre : List Char) (s : List Char)
    (hi : ls[i]? = some edge) (h : Emit S (ptrAt ps i) inp (pre ++ [edge]) 1 s) :
    Emit S (.nonLeaf e ls ps) inp pre 0 s := by
  obtain ⟨suf, h1, h2, h3⟩ := h
  have h4 : inp = suf := h3
  subst h4
  exact ⟨edge :: inp, by simp [h1], hS.step e ls ps i edge inp hi h2,
    OneEdit.insertion [] inp edge⟩

theorem emit_insert {S : Node → List Char → Prop} (p : Node) (x : Char) (inp pre : List Char)
    (s : List Char) (h : Emit S p inp pre 1 s) : Emit S p (x :: inp) pre 0 s := by
  obtain ⟨suf, h1, h2, h3⟩ := h
  have h4 : inp = suf := h3
  subst h4
  exact ⟨inp, h1, h2, OneEdit.deletion [] inp x⟩

theorem emit_leaf {S : Node → List Char → Prop} (hS : PathPred S) (lfword inp pre : List Char)
    (edits : Nat) (h : tailWithinOneEdit lfword inp edits = true) :
    Emit S (.leaf lfword) inp pre edits (pre ++ lfword) :=
  ⟨lfword, rfl, hS.leaf lfword, tailWithinOneEdit_sound lfword inp edits h⟩

theorem emit_eow {S : Node → List Char → Prop} (hS : PathPred S) (ls : List Char)
    (ps : List Node) (pre : List Char) (edits : Nat) (he : edits ≤ 1) :
    Emit S (.nonLeaf true ls ps) [] pre edits pre := by
  refine ⟨[], by simp, hS.eow ls ps, ?_⟩
  match edits, he with
  | 0, _ => exact OneEdit.same []
  | 1, _ => rfl

theorem visitChild_holds {S : Node → List Char → Prop} (hS : PathPred S)
    {Q : List Char → Prop} {box0 : SuggestBox}
    (rec : Node → List Char → List Char → Nat → SuggestBox → Run)
    (child : Node) (inp pre : List Char) (edits : Nat) (box : SuggestBox)
    (hbox : Reach Q box0 box) (hQ : ∀ s, Emit S child inp pre edits s → Q s)
    (hrec : Run.Holds (Reach Q box0) (rec child inp pre edits box)) :
    Run.Holds (Reach Q box0) (visitChild rec child inp pre edits box) := by
  cases child with
  | null => exact hbox
  | leaf lfword =>
    unfold visitChild
    by_cases ht : tailWithinOneEdit lfword inp edits = true
    · simp only [ht, if_true]
      exact hbox.add _ (hQ _ (emit_leaf hS lfword inp pre edits ht))
    · simp only [ht]
      exact hbox
  | nonLeaf e ls ps => exact hrec

theorem fuelNeeded_cons_lt (x : Char) (inp : List Char) (e1 e2 : Nat) (h1 : e1 ≤ 1)
    (h2 : e2 ≤ e1) : fuelNeeded inp e1 < fuelNeeded (x :: inp) e2 := by
  simp only [fuelNeeded, List.length_cons]; omega

theorem dfsLoop_holds {S : Node → List Char → Prop} (hS : PathPred S)
    {Q : List Char → Prop} {box0 : SuggestBox}
    (rec : Node → List Char → List Char → Nat → SuggestBox → Run)
    (e : Bool) (ls : List Char) (ps : List Node) (inp pre : List Char) (edits MAX : Nat)
    (hedits : edits ≤ 1)
    (hQ : ∀ s, Emit S (.nonLeaf e ls ps) inp pre edits s → Q s)
    (hrec : ∀ c i q e2 b, fuelNeeded i e2 < fuelNeeded inp edits → e2 ≤ 1 →
      Reach Q box0 b → (∀ s, Emit S c i q e2 s → Q s) →
      Run.Holds (Reach Q box0) (rec c i q e2 b))
    (k : SuggestBox → Run)
    (hk : ∀ b, Reach Q box0 b → Run.Holds (Reach Q box0) (k b))
    (edges : List Char) (i : Nat) (box : SuggestBox)
    (hidx : ∀ j edge, edges[j]? = some edge → ls[i + j]? = some edge)
    (hbox : Reach Q box0 box) :
    Run.Holds (Reach Q box0) (dfsLoop rec ps inp pre edits MAX k edges i box) := by
  induction edges generalizing i box with
  | nil => exact hk box hbox
  | cons edge edges ih =>
    have hi : ls[i]? = some edge := by simpa using hidx 0 edge (by simp)
    unfold dfsLoop
    by_cases hc : box.count ≥ MAX
    · simpa [hc] using hk box hbox
    · simp only [hc, if_false]
      apply guarded_holds _ _ _ _ _ hbox
      · intro hcond
        simp only [decide_eq_true_eq] at hcond
        obtain ⟨x, inp2, rfl⟩ := List.exists_cons_of_ne_nil hcond.1
        have hx : x = edge := by simpa [charAt] using hcond.2
        subst hx
        apply visitChild_holds hS _ _ _ _ _ _ hbox
        · intro s hs
          exact hQ s (emit_exact hS e ls ps i x _ pre edits s hi (by simpa using hs))
        · apply hrec _ _ _ _ _ _ hedits hbox
          · intro s hs
            exact hQ s (emit_exact hS e ls ps i x _ pre edits s hi (by simpa using hs))
          · simpa using fuelNeeded_cons_lt x inp2 edits edits hedits (Nat.le_refl _)
      · intro b1 hb1
        apply guarded_holds _ _ _ _ _ hb1
        · intro hcond
          simp only [decide_eq_true_eq] at hcond
          obtain ⟨he0, hne, _⟩ := hcond
          subst he0
          obtain ⟨x, inp2, rfl⟩ := List.exists_cons_of_ne_nil hne
          apply visitChild_holds hS _ _ _ _ _ _ hb1
          · intro s hs
            exact hQ s (emit_subst hS e ls ps i edge x _ pre s hi (by simpa using hs))
          · apply hrec _ _ _ _ _ _ (Nat.le_refl _) hb1
            · intro s hs
              exact hQ s (emit_subst hS e ls ps i edge x _ pre s hi (by simpa using hs))
            · simpa using fuelNeeded_cons_lt x inp2 1 0 (Nat.le_refl _) (by omega)
        · intro b2 hb2
          apply guarded_holds _ _ _ _ _ hb2
          · intro hcond
            simp only [decide_eq_true_eq] at hcond
            subst hcond
            apply visitChild_holds hS _ _ _ _ _ _ hb2
            · intro s hs
              exact hQ s (emit_delete hS e ls ps i edge inp pre s hi hs)
            · apply hrec _ _ _ _ _ _ (Nat.le_refl _) hb2
              · intro s hs
                exact hQ s (emit_delete hS e ls ps i edge inp pre s hi hs)
              · simp [fuelNeeded]
          · intro b3 hb3
            apply ih (i + 1) b3 _ hb3
            intro j edge2 hj
            have := hidx (j + 1) edge2 (by simpa using hj)
            rw [← this]
            congr 1
            omega

theorem transposeMove_holds {S : Node → List Char → Prop} (hS : PathPred S)
    {Q : List Char → Prop} {box0 : SuggestBox}
    (rec : Node → List Char → List Char → Nat → SuggestBox → Run)
    (e : Bool) (ls : List Char) (ps : List Node) (inp pre : List Char) (edits : Nat)
    (box : SuggestBox)
    (hQ : ∀ s, Emit S (.nonLeaf e ls ps) inp pre edits s → Q s)
    (hrec : ∀ c i q e2 b, fuelNeeded i e2 < fuelNeeded inp edits → e2 ≤ 1 →
      Reach Q box0 b → (∀ s, Emit S c i q e2 s → Q s) →
      Run.Holds (Reach Q box0) (rec c i q e2 b))
    (hbox : Reach Q box0 box) :
    Run.Holds (Reach Q box0) (transposeMove rec (.nonLeaf e ls ps) inp pre edits box) := by
  unfold transposeMove
  by_cases hcond : edits = 0 ∧ inp ≠ [] ∧ inp.drop 1 ≠ []
  · simp only [hcond, not_false_eq_true, and_self, if_true, ne_eq]
    obtain ⟨he0, hne, hne2⟩ := hcond
    subst he0
    obtain ⟨a, inp1, rfl⟩ := List.exists_cons_of_ne_nil hne
    obtain ⟨b, rest, hrest⟩ := List.exists_cons_of_ne_nil hne2
    simp only [List.drop_succ_cons, List.drop_zero] at hrest
    subst hrest
    have hc0 : charAt (a :: b :: rest) 0 = a := rfl
    have hc1 : charAt (a :: b :: rest) 1 = b := rfl
    have hd2 : (a :: b :: rest).drop 2 = rest := rfl
    rw [hc0, hc1, hd2]
    simp only [Position]
    cases hf1 : findLetter b ls with
    | none => exact hbox
    | some pos1 =>
      have hi1 := (findLetter_some_lt hf1).2
      simp only
      cases hp1 : ptrAt ps pos1 with
      | null => exact hbox
      | leaf lf1word =>
        simp only
        by_cases h0 : charAt lf1word 0 = a
        · simp only [h0, if_true]
          by_cases ht : tailWithinOneEdit (lf1word.drop 1) rest 1 = true
          · simp only [ht, if_true]
            apply hbox.add
            apply hQ
            have ht2 : rest = lf1word.drop 1 := tailWithinOneEdit_sound _ _ 1 ht
            refine ⟨b :: lf1word, by simp, ?_, ?_⟩
            · exact hS.step e ls ps pos1 b lf1word hi1 (by rw [hp1]; exact hS.leaf lf1word)
            · show OneEdit (a :: b :: rest) (b :: lf1word)
              cases lf1word with
              | nil =>
                simp only [List.drop_nil] at ht2
                rw [ht2]; exact OneEdit.deletion [] [b] a
              | cons x l =>
                have hx : x = a := by simpa [charAt] using h0
                simp only [List.drop_succ_cons, List.drop_zero] at ht2
                rw [hx, ht2]; exact OneEdit.transposition [] l a b
          · simp only [ht]
            exact hbox
        · simp only [h0, if_false]
          exact hbox
      | nonLeaf e1 l1 ptrs1 =>
        simp only
        cases hf2 : findLetter a l1 with
        | none => exact hbox
        | some pos2 =>
          have hi2 := (findLetter_some_lt hf2).2
          have hmove : ∀ s, Emit S (ptrAt ptrs1 pos2) rest (pre ++ [b, a]) 1 s →
              Emit S (.nonLeaf e ls ps) (a :: b :: rest) pre 0 s := by
            intro s hs
            obtain ⟨suf, h1, h2, h3⟩ := hs
            have h4 : rest = suf := h3
            subst h4
            refine ⟨b :: a :: rest, by simp [h1], ?_, OneEdit.transposition [] rest a b⟩
            apply hS.step e ls ps pos1 b _ hi1
            rw [hp1]
            exact hS.step e1 l1 ptrs1 pos2 a _ hi2 h2
          simp only
          cases hp2 : ptrAt ptrs1 pos2 with
          | null => exact hbox
          | leaf lf2word =>
            simp only
            by_cases ht : tailWithinOneEdit lf2word rest 1 = true
            · simp only [ht, if_true]
              apply hbox.add
              apply hQ
              apply hmove
              rw [hp2]
              exact emit_leaf hS lf2word rest _ 1 ht
            · simp only [ht]
              exact hbox
          | nonLeaf e2 l2 ptrs2 =>
            simp only
            apply hrec _ _ _ _ _ _ (Nat.le_refl _) hbox
            · intro s hs
              exact hQ s (hmove s (by rw [hp2]; exact hs))
            · simp only [fuelNeeded, List.length_cons]; omega
  · simp only [hcond, if_false]
    exact hbox

/-- The invariant of the search: with enough fuel a call of `dfsSuggest` does
not run out of it, and the box it leaves (returning or faulting) comes from
the box it was given by adding words `pre ++ suf` only, where `suf` is accepted
by the path predicate at `p` and lies within the budget of the unread input. -/
theorem dfsSuggest_holds {S : Node → List Char → Prop} (hS : PathPred S)
    {Q : List Char → Prop} {box0 : SuggestBox} (fuel : Nat) (p : Node)
    (inp pre : List Char) (edits : Nat) (box : SuggestBox) (MAX : Nat)
    (hedits : edits ≤ 1) (hfuel : fuelNeeded inp edits ≤ fuel)
    (hbox : Reach Q box0 box) (hQ : ∀ s, Emit S p inp pre edits s → Q s) :
    Run.Holds (Reach Q box0) (dfsSuggest fuel p inp pre edits box MAX) := by
  induction fuel generalizing p inp pre edits box with
  | zero => simp only [fuelNeeded] at hfuel; omega
  | succ fuel ih =>
    unfold dfsSuggest
    by_cases hc : box.count ≥ MAX
    · simpa [hc] using hbox
    · simp only [hc, if_false]
      cases p with
      | null => exact hbox
      | leaf w => exact hbox
      | nonLeaf eow letters ptrs =>
        have hrec : ∀ c i q e2 b, fuelNeeded i e2 < fuelNeeded inp edits → e2 ≤ 1 →
            Reach Q box0 b → (∀ s, Emit S c i q e2 s → Q s) →
            Run.Holds (Reach Q box0) (dfsSuggest fuel c i q e2 b MAX) := by
          intro c i q e2 b h1 h2 h3 h4
          exact ih c i q e2 b h2 (by omega) h3 h4
        simp only
        apply guarded_holds _ _ _ _ _ hbox
        · intro hcond
          simp only [Bool.and_eq_true, decide_eq_true_eq] at hcond
          obtain ⟨h1, h2⟩ := hcond
          subst h1 h2
          exact hbox.add _ (hQ _ (emit_eow hS letters ptrs pre edits hedits))
        · intro b1 hb1
          apply guarded_holds _ _ _ _ _ hb1
          · intro hcond
            simp only [decide_eq_true_eq] at hcond
            obtain ⟨he0, hne⟩ := hcond
            subst he0
            obtain ⟨x, inp2, rfl⟩ := List.exists_cons_of_ne_nil hne
            apply ih _ _ _ _ _ (Nat.le_refl _) _ hb1
            · intro s hs
              exact hQ s (emit_insert _ x _ pre s (by simpa using hs))
            · simp only [fuelNeeded, List.length_cons, List.drop_succ_cons, List.drop_zero]
                at hfuel ⊢
              omega
          · intro b2 hb2
            exact dfsLoop_holds hS
              (fun c i q e b => dfsSuggest fuel c i q e b MAX)
              eow letters ptrs inp pre edits MAX hedits hQ hrec _
              (fun b3 hb3 =>
                transposeMove_holds hS _ eow letters ptrs inp pre edits b3 hQ hrec hb3)
              letters 0 b2 (by intro j edge hj; simpa using hj) hb2

/-! ## What a chain of `add_suggestion` calls keeps -/

theorem add_suggestion_cap (b : SuggestBox) (w : List Char) : (add_suggestion b w).cap = b.cap := by
  unfold add_suggestion
  split
  · rfl
  · split <;> rfl

theorem add_suggestion_mem (b : SuggestBox) (w s : List Char)
    (h : s ∈ (add_suggestion b w).items) : s ∈ b.items ∨ s = w := by
  unfold add_suggestion at h
  split at h
  · exact Or.inl h
  · split at h
    · exact Or.inl h
    · simpa using h

theorem add_suggestion_nodup (b : SuggestBox) (w : List Char) (h : b.items.Nodup) :
    (add_suggestion b w).items.Nodup := by
  unfold add_suggestion
  split
  · exact h
  · rename_i hw
    split
    · exact h
    · simp only
      rw [List.nodup_append]
      refine ⟨h, by simp, ?_⟩
      intro a ha hb
      simp only [List.mem_singleton] at hb
      subst hb
      exact hw ha

theorem add_suggestion_count (b : SuggestBox) (w : List Char) (h : b.count ≤ b.cap) :
    (add_suggestion b w).count ≤ (add_suggestion b w).cap := by
  unfold add_suggestion
  split
  · exact h
  · split
    · exact h
    · rename_i hc
      simp only [SuggestBox.count, List.length_append, List.length_singleton] at hc ⊢
      omega

theorem Reach.facts {Q : List Char → Prop} {box0 b : SuggestBox} (h : Reach Q box0 b) :
    b.cap = box0.cap ∧ (∀ s ∈ b.items, s ∈ box0.items ∨ Q s) ∧
    (box0.items.Nodup → b.items.Nodup) ∧ (box0.count ≤ box0.cap → b.count ≤ b.cap) := by
  obtain ⟨added, h1, h2⟩ := h
  subst h2
  induction added using List.reverseRecOn with
  | nil => exact ⟨rfl, fun s hs => Or.inl hs, id, id⟩
  | append_singleton added w ih =>
    obtain ⟨i1, i2, i3, i4⟩ := ih (fun s hs => h1 s (List.mem_append.mpr (Or.inl hs)))
    rw [List.foldl_append]
    simp only [List.foldl_cons, List.foldl_nil]
    refine ⟨by rw [add_suggestion_cap, i1], ?_, ?_, ?_⟩
    · intro s hs
      rcases add_suggestion_mem _ _ _ hs with hs | hs
      · exact i2 s hs
      · exact Or.inr (hs ▸ h1 w (by simp))
    · intro hn
      exact add_suggestion_nodup _ _ (i3 hn)
    · intro hc
      exact add_suggestion_count _ _ (i4 hc)

/-! ## The two path predicates -/

theorem pathPred_true : PathPred (fun _ _ => True) :=
  ⟨fun _ => trivial, fun _ _ => trivial, fun _ _ _ _ _ _ _ _ => trivial⟩

theorem findLetter_of_getElem (ls : List Char) (i : Nat) (c : Char)
    (hs : ls.Pairwise (· < ·)) (h : ls[i]? = some c) : findLetter c ls = some i := by
  induction ls generalizing i with
  | nil => simp at h
  | cons l ls ih =>
    rw [List.pairwise_cons] at hs
    cases i with
    | zero =>
      simp only [List.getElem?_cons_zero, Option.some.injEq] at h
      simp [findLetter, h]
    | succ j =>
      simp only [List.getElem?_cons_succ] at h
      have hlt := hs.1 c (List.getElem?_mem h)
      have hne : l ≠ c := ne_of_lt hlt
      simp [findLetter, hne, ih j hs.2 h]

theorem pathPred_search : PathPred (fun p suf => WellFormed p → SearchTrie p suf = true) := by
  refine ⟨?_, ?_, ?_⟩
  · intro w _
    simp [SearchTrie_leaf]
  · intro ls ps _
    rfl
  · intro e ls ps i edge suf hi hchild hwf
    rw [SearchTrie_cons]
    have hf := findLetter_of_getElem ls i edge hwf.sorted hi
    simp only [edgeChild, hf]
    exact hchild (hwf.ptrAt i)

theorem SuggestCorrections_holds {S : Node → List Char → Prop} (hS : PathPred S)
    (root : Node) (q : List Char) (limit : Nat) :
    Run.Holds (Reach (Emit S root q [] 0) { items := [], cap := limit })
      (SuggestCorrections root q limit) := by
  unfold SuggestCorrections
  exact dfsSuggest_holds hS _ root q [] 0 _ limit (by omega) (by simp [fuelNeeded])
    (Reach_refl _ _) (fun s hs => hs)

theorem Run.Holds.box {R : SuggestBox → Prop} {r : Run} (h : Run.Holds R r) :
    ∃ box, r.box? = some box ∧ R box := by
  cases r with
  | done b => exact ⟨b, rfl, h⟩
  | fault b => exact ⟨b, rfl, h⟩
  | outOfFuel => exact absurd h id

/-! ## Suggestions: the claims -/

/-- C5: on every tree built by the seed and inserts, for every query and
limit, the search ends (returning, or faulting on a NULL child) with a box in
which every string is a dictionary word: `SearchTrie` succeeds on it. -/
theorem SuggestCorrections_members (t : Node) (q : List Char) (limit : Nat) (hb : Built t) :
    ∃ box, (SuggestCorrections t q limit).box? = some box ∧
      ∀ s ∈ box.items, SearchTrie t s = true := by
  obtain ⟨box, h1, h2⟩ := (SuggestCorrections_holds pathPred_search t q limit).box
  refine ⟨box, h1, ?_⟩
  intro s hs
  rcases h2.facts.2.1 s hs with h | ⟨suf, h3, h4, _⟩
  · simp at h
  · simp only [List.nil_append] at h3
    rw [h3]
    exact h4 hb.wellFormed

/-- C5, witness: the tree seeded from CAT and the query CT. -/
theorem SuggestCorrections_members_witness :
    ∃ box, (SuggestCorrections (bootstrap "CAT".toList) "CT".toList 10).box? = some box ∧
      ∀ s ∈ box.items, SearchTrie (bootstrap "CAT".toList) s = true :=
  SuggestCorrections_members (bootstrap "CAT".toList) "CT".toList 10
    (Built.seed "CAT".toList (by decide))

/-- C6: for every tree, query and limit, every string in the box the search
leaves is the query itself or the query with one substitution, one insertion,
one deletion or one transposition of adjacent letters; and for the dictionary
CAT and the query DOG the search returns the empty box, whatever the limit. -/
theorem SuggestCorrections_within_one_edit :
    (∀ (root : Node) (q : List Char) (limit : Nat),
      ∃ box, (SuggestCorrections root q limit).box? = some box ∧
        ∀ s ∈ box.items, OneEdit q s) ∧
    (∀ limit : Nat, SuggestCorrections (bootstrap "CAT".toList) "DOG".toList limit
      = .done { items := [], cap := limit }) := by
  constructor
  · intro root q limit
    obtain ⟨box, h1, h2⟩ := (SuggestCorrections_holds pathPred_true root q limit).box
    refine ⟨box, h1, ?_⟩
    intro s hs
    rcases h2.facts.2.1 s hs with h | ⟨suf, h3, _, h4⟩
    · simp at h
    · simp only [List.nil_append] at h3
      rw [h3]
      exact h4
  · intro limit
    cases limit with
    | zero => rfl
    | succ n => rfl

/-- C8: for every tree, query and limit, the box the search leaves holds at
most `limit` entries. -/
theorem SuggestCorrections_count_le (root : Node) (q : List Char) (limit : Nat) :
    ∃ box, (SuggestCorrections root q limit).box? = some box ∧ box.count ≤ limit := by
  obtain ⟨box, h1, h2⟩ := (SuggestCorrections_holds pathPred_true root q limit).box
  refine ⟨box, h1, ?_⟩
  have h3 := h2.facts
  have h4 := h3.2.2.2 (by simp [SuggestBox.count])
  rw [h3.1] at h4
  exact h4

/-- C9: for every tree, query and limit, the entries of the box the search
leaves are pairwise distinct. -/
theorem SuggestCorrections_nodup (root : Node) (q : List Char) (limit : Nat) :
    ∃ box, (SuggestCorrections root q limit).box? = some box ∧ box.items.Nodup := by
  obtain ⟨box, h1, h2⟩ := (SuggestCorrections_holds pathPred_true root q limit).box
  exact ⟨box, h1, h2.facts.2.2.1 (by simp)⟩

/-- The search can fault: on the tree built from AB then A, with the query AC
(not a dictionary word) and the limit 10, it reads the NULL slot under the
letter A after one entry. -/
theorem SuggestCorrections_fault_after_caseA :
    Built (.nonLeaf false ['A'] [.nonLeaf true ['A', 'B'] [.null, .leaf []]]) ∧
    SearchTrie (.nonLeaf false ['A'] [.nonLeaf true ['A', 'B'] [.null, .leaf []]])
      "AC".toList = false ∧
    SuggestCorrections (.nonLeaf false ['A'] [.nonLeaf true ['A', 'B'] [.null, .leaf []]])
      "AC".toList 10 = .fault { items := ["A".toList], cap := 10 } := by
  refine ⟨?_, rfl, rfl⟩
  exact Built.insert (bootstrap "AB".toList) _ "A".toList
    (Built.seed "AB".toList (by decide)) (by decide) rfl

/-! ## The tail matcher accepts every tail within one edit -/

theorem diffLoop_self (l : List Char) (d : Nat) : diffLoop l l d = d := by
  induction l generalizing d with
  | nil => rfl
  | cons x l ih => simp [diffLoop, ih]

theorem diffLoop_substitution (a b : List Char) (x y : Char) (hxy : x ≠ y) :
    diffLoop (a ++ x :: b) (a ++ y :: b) 0 = 1 := by
  induction a with
  | nil => simp [diffLoop, hxy, diffLoop_self]
  | cons c a ih => simpa [diffLoop] using ih

theorem transLoop_transposition (a b : List Char) (x y : Char) (hxy : x ≠ y) :
    transLoop (a ++ x :: y :: b) (a ++ y :: x :: b) = true := by
  induction a with
  | nil => simp [transLoop, hxy]
  | cons c a ih =>
    cases a with
    | nil => simpa [transLoop] using ih
    | cons c2 a => simpa [transLoop] using ih

theorem skipInB_self (l : List Char) (s : Bool) : skipInB l l s = true := by
  induction l with
  | nil => rfl
  | cons x l ih => simp [skipInB, ih]

theorem skipInB_cons_self (l : List Char) (z : Char) : skipInB l (z :: l) false = true := by
  induction l generalizing z with
  | nil => rfl
  | cons x l ih =>
    by_cases hx : x = z
    · subst hx
      simp [skipInB, ih]
    · simp [skipInB, hx, skipInB_self]

theorem skipInB_deletion (a b : List Char) (x : Char) :
    skipInB (a ++ b) (a ++ x :: b) false = true := by
  induction a with
  | nil => simpa using skipInB_cons_self b x
  | cons c a ih => simpa [skipInB] using ih

theorem skipInA_self (l : List Char) (s : Bool) : skipInA l l s = true := by
  induction l with
  | nil => rfl
  | cons x l ih => simp [skipInA, ih]

theorem skipInA_cons_self (l : List Char) (z : Char) : skipInA (z :: l) l false = true := by
  induction l generalizing z with
  | nil => rfl
  | cons x l ih =>
    by_cases hx : z = x
    · subst hx
      simp [skipInA, ih]
    · simp [skipInA, hx, skipInA_self]

theorem skipInA_insertion (a b : List Char) (x : Char) :
    skipInA (a ++ x :: b) (a ++ b) false = true := by
  induction a with
  | nil => simpa using skipInA_cons_self b x
  | cons c a ih => simpa [skipInA] using ih

/-- Every tail within the edit budget left is accepted by `tailWithinOneEdit`. -/
theorem tailWithinOneEdit_complete (tailA tailB : List Char) (edits : Nat)
    (h : Within edits tailB tailA) : tailWithinOneEdit tailA tailB edits = true := by
  match edits, h with
  | 1, h =>
    have h2 : tailB = tailA := h
    simp [tailWithinOneEdit, h2]
  | 0, h =>
    have h2 : OneEdit tailB tailA := h
    unfold tailWithinOneEdit
    simp only [gt_iff_lt, Nat.not_lt_zero, if_false, OfNat.zero_ne_ofNat]
    by_cases heq : tailA = tailB
    · simp [heq]
    · simp only [heq, if_false]
      cases h2 with
      | same => exact absurd rfl heq
      | substitution a b x y =>
        have hxy : y ≠ x := fun e => heq (by rw [e])
        simp [diffLoop_substitution a b y x hxy]
      | insertion a b x =>
        have h1 : ¬ (a.length + (b.length + 1) = a.length + b.length) := by omega
        have h3 : ¬ (a.length + b.length = a.length + (b.length + 1) + 1) := by omega
        simp [h1, h3, skipInA_insertion]
        omega
      | deletion a b x =>
        have h1 : ¬ (a.length + b.length = a.length + (b.length + 1)) := by omega
        simp [h1, skipInB_deletion]
        left; omega
      | transposition a b x y =>
        have hxy : y ≠ x := fun e => heq (by rw [e])
        simp [transLoop_transposition a b y x hxy]

/-! ## Completeness of the suggestion search below the cap -/

theorem Grows_refl (b : SuggestBox) : Grows b b := ⟨fun _ h => h, Nat.le_refl _, rfl⟩

theorem Grows.trans {a b c : SuggestBox} (h1 : Grows a b) (h2 : Grows b c) : Grows a c :=
  ⟨fun s hs => h2.1 s (h1.1 s hs), Nat.le_trans h1.2.1 h2.2.1, h2.2.2.trans h1.2.2⟩

theorem add_suggestion_grows (b : SuggestBox) (w : List Char) : Grows b (add_suggestion b w) := by
  unfold add_suggestion
  split
  · exact Grows_refl b
  · split
    · exact Grows_refl b
    · exact ⟨fun s hs => by simp [hs], by simp [SuggestBox.count], rfl⟩

theorem add_suggestion_mem_of_lt (b : SuggestBox) (w : List Char)
    (h : (add_suggestion b w).count < b.cap) : w ∈ (add_suggestion b w).items := by
  unfold add_suggestion at h ⊢
  split
  · assumption
  · split
    · rename_i h1 h2
      simp only [h1, h2, if_false, if_true] at h
      omega
    · simp

theorem Cover_mono {p : Node} {inp pre : List Char} {edits : Nat} {b b2 : SuggestBox}
    (h : Cover p inp pre edits b) (hg : Grows b b2) : Cover p inp pre edits b2 :=
  fun suf h1 h2 => hg.1 _ (h suf h1 h2)

theorem EdgeCover_mono {child : Node} {edge : Char} {inp pre : List Char} {edits : Nat}
    {b b2 : SuggestBox} (h : EdgeCover child edge inp pre edits b) (hg : Grows b b2) :
    EdgeCover child edge inp pre edits b2 :=
  ⟨fun i hi => Cover_mono (h.1 i hi) hg, fun he x i hi hx => Cover_mono (h.2.1 he x i hi hx) hg,
    fun he => Cover_mono (h.2.2 he) hg⟩

/-- A guarded block followed by the rest `k`: when the whole returns below the
cap, the block ran to its end if its condition held, and so did `k`. -/
theorem guarded_complete {C D : SuggestBox → Prop} (cond : Bool) (MAX : Nat)
    (body : SuggestBox → Run) (box : SuggestBox) (k : SuggestBox → Run) (b : SuggestBox)
    (hmono : ∀ x y, C x → Grows x y → C y)
    (hbody : cond = true → ∀ b1, body box = .done b1 →
      Grows box b1 ∧ (b1.count < MAX → C b1))
    (hk : ∀ bx, Grows box bx → k bx = .done b → Grows bx b ∧ (b.count < MAX → D b))
    (h : guarded cond MAX body box k = .done b) :
    Grows box b ∧ (b.count < MAX → (cond = true → C b) ∧ D b) := by
  unfold guarded at h
  cases cond with
  | false =>
    simp only [Bool.false_eq_true, if_false] at h
    obtain ⟨g, c⟩ := hk box (Grows_refl box) h
    exact ⟨g, fun hlt => ⟨fun hc => absurd hc (by simp), c hlt⟩⟩
  | true =>
    simp only [if_true] at h
    cases hr : body box with
    | done b1 =>
      rw [hr] at h
      simp only at h
      obtain ⟨g1, c1⟩ := hbody rfl b1 hr
      by_cases hc : b1.count ≥ MAX
      · simp only [hc, if_true, Run.done.injEq] at h
        subst h
        exact ⟨g1, fun hlt => absurd hc (by omega)⟩
      · simp only [hc, if_false] at h
        obtain ⟨g2, c2⟩ := hk b1 g1 h
        refine ⟨g1.trans g2, fun hlt => ⟨fun _ => ?_, c2 hlt⟩⟩
        have : b1.count < MAX := by have := g2.2.1; omega
        exact hmono _ _ (c1 this) g2
    | fault b1 => rw [hr] at h; simp at h
    | outOfFuel => rw [hr] at h; simp at h

theorem visitChild_complete
    (rec : Node → List Char → List Char → Nat → SuggestBox → Run)
    (child : Node) (inp pre : List Char) (edits MAX : Nat) (box b1 : SuggestBox)
    (hcap : box.cap = MAX)
    (hrec : rec child inp pre edits box = .done b1 →
      Grows box b1 ∧ (b1.count < MAX → Cover child inp pre edits b1))
    (h : visitChild rec child inp pre edits box = .done b1) :
    Grows box b1 ∧ (b1.count < MAX → Cover child inp pre edits b1) := by
  cases child with
  | null => simp [visitChild] at h
  | leaf lfword =>
    unfold visitChild at h
    by_cases ht : tailWithinOneEdit lfword inp edits = true
    · simp only [ht, if_true, Run.done.injEq] at h
      subst h
      refine ⟨add_suggestion_grows _ _, fun hlt suf hs hw => ?_⟩
      rw [SearchTrie_leaf] at hs
      have : suf = lfword := of_decide_eq_true hs
      subst this
      exact add_suggestion_mem_of_lt box (pre ++ suf) (by rw [hcap]; exact hlt)
    · simp only [ht, Bool.false_eq_true, if_false, Run.done.injEq] at h
      subst h
      refine ⟨Grows_refl _, fun _ suf hs hw => ?_⟩
      rw [SearchTrie_leaf] at hs
      have : suf = lfword := of_decide_eq_true hs
      subst this
      exact absurd (tailWithinOneEdit_complete suf inp edits hw) ht
  | nonLeaf e ls ps => exact hrec h

theorem OneEdit_nil_cases (inp suf : List Char) (h : OneEdit inp suf) (hs : suf = []) :
    inp = [] ∨ ∃ x, inp = [x] := by
  cases h with
  | same => exact Or.inl hs
  | substitution a b x y => simp at hs
  | insertion a b x => simp at hs
  | deletion a b x =>
    simp only [List.append_eq_nil] at hs
    obtain ⟨rfl, rfl⟩ := hs
    exact Or.inr ⟨x, rfl⟩
  | transposition a b x y => simp at hs

theorem OneEdit_cons_cases (inp suf : List Char) (h : OneEdit inp suf) (c : Char)
    (s2 : List Char) (hs : suf = c :: s2) :
    (∃ i2, inp = c :: i2 ∧ OneEdit i2 s2) ∨ (∃ x, inp = x :: s2 ∧ x ≠ c) ∨ inp = s2 ∨
    (∃ x, inp = x :: c :: s2) ∨ (∃ x r, inp = x :: c :: r ∧ s2 = x :: r) := by
  cases h with
  | same => exact Or.inl ⟨s2, hs, OneEdit.same _⟩
  | substitution a b x y =>
    cases a with
    | nil =>
      simp only [List.nil_append, List.cons.injEq] at hs
      obtain ⟨rfl, rfl⟩ := hs
      by_cases hx : x = y
      · subst hx; exact Or.inl ⟨b, rfl, OneEdit.same _⟩
      · exact Or.inr (Or.inl ⟨x, rfl, hx⟩)
    | cons a0 a =>
      simp only [List.cons_append, List.cons.injEq] at hs
      obtain ⟨rfl, rfl⟩ := hs
      exact Or.inl ⟨_, rfl, OneEdit.substitution a b x y⟩
  | insertion a b x =>
    cases a with
    | nil =>
      simp only [List.nil_append, List.cons.injEq] at hs
      obtain ⟨rfl, rfl⟩ := hs
      exact Or.inr (Or.inr (Or.inl rfl))
    | cons a0 a =>
      simp only [List.cons_append, List.cons.injEq] at hs
      obtain ⟨rfl, rfl⟩ := hs
      exact Or.inl ⟨_, rfl, OneEdit.insertion a b x⟩
  | deletion a b x =>
    cases a with
    | nil =>
      simp only [List.nil_append] at hs
      subst hs
      exact Or.inr (Or.inr (Or.inr (Or.inl ⟨x, rfl⟩)))
    | cons a0 a =>
      simp only [List.cons_append, List.cons.injEq] at hs
      obtain ⟨rfl, rfl⟩ := hs
      exact Or.inl ⟨_, rfl, OneEdit.deletion a b x⟩
  | transposition a b x y =>
    cases a with
    | nil =>
      simp only [List.nil_append, List.cons.injEq] at hs
      obtain ⟨rfl, rfl⟩ := hs
      exact Or.inr (Or.inr (Or.inr (Or.inr ⟨x, b, rfl, rfl⟩)))
    | cons a0 a =>
      simp only [List.cons_append, List.cons.injEq] at hs
      obtain ⟨rfl, rfl⟩ := hs
      exact Or.inl ⟨_, rfl, OneEdit.transposition a b x y⟩

/-- The moves of `dfsSuggest` at a non-leaf together reach every dictionary
word below it that lies within the budget. -/
theorem cover_of_moves (e : Bool) (ls : List Char) (ps : List Node) (inp pre : List Char)
    (edits : Nat) (b : SuggestBox) (hedits : edits ≤ 1)
    (hA : inp = [] → e = true → pre ∈ b.items)
    (hB : edits = 0 → ∀ x inp2, inp = x :: inp2 → Cover (.nonLeaf e ls ps) inp2 pre 1 b)
    (hC : ∀ j edge, ls[j]? = some edge → EdgeCover (ptrAt ps j) edge inp pre edits b)
    (hD : edits = 0 → ∀ x y rest, inp = x :: y :: rest →
      SearchTrie (.nonLeaf e ls ps) (y :: x :: rest) = true → pre ++ y :: x :: rest ∈ b.items) :
    Cover (.nonLeaf e ls ps) inp pre edits b := by
  intro suf hs hw
  cases suf with
  | nil =>
    rw [SearchTrie_nil] at hs
    match edits, hedits, hw with
    | 1, _, hw =>
      have h1 : inp = [] := hw
      simpa using hA h1 hs
    | 0, _, hw =>
      rcases OneEdit_nil_cases inp [] hw rfl with h1 | ⟨x, h1⟩
      · simpa using hA h1 hs
      · exact hB rfl x [] h1 [] (by rw [SearchTrie_nil]; exact hs) rfl
  | cons c s2 =>
    have hs2 := hs
    rw [SearchTrie_cons] at hs2
    unfold edgeChild at hs2
    cases hf : findLetter c ls with
    | none => simp [hf, SearchTrie_null] at hs2
    | some k =>
      simp only [hf] at hs2
      have hk := (findLetter_some_lt hf).2
      obtain ⟨c1, c2, c3⟩ := hC k c hk
      have happ : ∀ t : List Char, (pre ++ [c]) ++ t = pre ++ c :: t := by intro t; simp
      match edits, hedits, hw with
      | 1, _, hw =>
        have h1 : inp = c :: s2 := hw
        have := c1 s2 h1 s2 hs2 rfl
        rwa [happ] at this
      | 0, _, hw =>
        rcases OneEdit_cons_cases inp (c :: s2) hw c s2 rfl with
          ⟨i2, h1, h2⟩ | ⟨x, h1, h2⟩ | h1 | ⟨x, h1⟩ | ⟨x, r, h1, h2⟩
        · have := c1 i2 h1 s2 hs2 h2
          rwa [happ] at this
        · have := c2 rfl x s2 h1 h2 s2 hs2 rfl
          rwa [happ] at this
        · have := c3 rfl s2 hs2 h1
          rwa [happ] at this
        · exact hB rfl x (c :: s2) h1 (c :: s2) hs rfl
        · subst h2
          exact hD rfl x c r h1 hs

theorem dfsLoop_complete
    (rec : Node → List Char → List Char → Nat → SuggestBox → Run)
    (e : Bool) (ls : List Char) (ps : List Node) (inp pre : List Char) (edits MAX : Nat)
    (hwf : WellFormed (.nonLeaf e ls ps)) (hedits : edits ≤ 1)
    (hrec : ∀ c i q e2 bx b1, e2 ≤ 1 → WellFormed c → bx.cap = MAX →
      rec c i q e2 bx = .done b1 → Grows bx b1 ∧ (b1.count < MAX → Cover c i q e2 b1))
    (k : SuggestBox → Run) (b : SuggestBox) {D : SuggestBox → Prop}
    (hk : ∀ bx, bx.cap = MAX → k bx = .done b → Grows bx b ∧ (b.count < MAX → D b))
    (edges : List Char) (i : Nat) (box : SuggestBox) (hcap : box.cap = MAX)
    (h : dfsLoop rec ps inp pre edits MAX k edges i box = .done b) :
    Grows box b ∧ (b.count < MAX → (∀ j edge, edges[j]? = some edge →
      EdgeCover (ptrAt ps (i + j)) edge inp pre edits b) ∧ D b) := by
  induction edges generalizing i box with
  | nil =>
    simp only [dfsLoop] at h
    obtain ⟨g, d⟩ := hk box hcap h
    exact ⟨g, fun hlt => ⟨fun j edge hj => by simp at hj, d hlt⟩⟩
  | cons edge edges ih =>
    unfold dfsLoop at h
    by_cases hc : box.count ≥ MAX
    · simp only [hc, if_true] at h
      obtain ⟨g, d⟩ := hk box hcap h
      exact ⟨g, fun hlt => absurd hc (by have := g.2.1; omega)⟩
    · simp only [hc, if_false] at h
      have hchild : WellFormed (ptrAt ps i) := hwf.ptrAt i
      have hvisit : ∀ (i2 : List Char) (e2 : Nat) (bx b1 : SuggestBox), e2 ≤ 1 →
          Grows box bx →
          visitChild rec (ptrAt ps i) i2 (pre ++ [edge]) e2 bx = .done b1 →
          Grows bx b1 ∧ (b1.count < MAX → Cover (ptrAt ps i) i2 (pre ++ [edge]) e2 b1) := by
        intro i2 e2 bx b1 he2 hg hv
        have hbc : bx.cap = MAX := hg.2.2.trans hcap
        exact visitChild_complete rec _ i2 _ e2 MAX bx b1 hbc
          (hrec _ i2 _ e2 bx b1 he2 hchild hbc) hv
      have key := guarded_complete
        (C := fun b => Cover (ptrAt ps i) (inp.drop 1) (pre ++ [edge]) edits b)
        (D := fun b =>
          (decide (edits = 0 ∧ inp ≠ [] ∧ charAt inp 0 ≠ edge) = true →
            Cover (ptrAt ps i) (inp.drop 1) (pre ++ [edge]) 1 b) ∧
          (decide (edits = 0) = true → Cover (ptrAt ps i) inp (pre ++ [edge]) 1 b) ∧
          (∀ j edge2, edges[j]? = some edge2 →
            EdgeCover (ptrAt ps (i + 1 + j)) edge2 inp pre edits b) ∧ D b)
        _ MAX _ box _ b (fun x y hx hg => Cover_mono hx hg)
        (fun _ b1 hb1 => hvisit _ _ box b1 hedits (Grows_refl _) hb1)
        (fun bx hgx hkx => guarded_complete
          (C := fun b => Cover (ptrAt ps i) (inp.drop 1) (pre ++ [edge]) 1 b)
          (D := fun b =>
            (decide (edits = 0) = true → Cover (ptrAt ps i) inp (pre ++ [edge]) 1 b) ∧
            (∀ j edge2, edges[j]? = some edge2 →
              EdgeCover (ptrAt ps (i + 1 + j)) edge2 inp pre edits b) ∧ D b)
          _ MAX _ bx _ b (fun x y hx hg => Cover_mono hx hg)
          (fun _ b1 hb1 => hvisit _ _ bx b1 (Nat.le_refl _) hgx hb1)
          (fun by_ hgy hky => guarded_complete
            (C := fun b => Cover (ptrAt ps i) inp (pre ++ [edge]) 1 b)
            (D := fun b => (∀ j edge2, edges[j]? = some edge2 →
              EdgeCover (ptrAt ps (i + 1 + j)) edge2 inp pre edits b) ∧ D b)
            _ MAX _ by_ _ b (fun x y hx hg => Cover_mono hx hg)
            (fun _ b1 hb1 => hvisit _ _ by_ b1 (Nat.le_refl _) (hgx.trans hgy) hb1)
            (fun bz hgz hkz =>
              ih (i + 1) bz (((hgx.trans hgy).trans hgz).2.2.trans hcap) hkz)
            hky)
          hkx)
        h
      refine ⟨key.1, fun hlt => ⟨fun j edge2 hj => ?_, (key.2 hlt).2.2.2.2⟩⟩
      obtain ⟨k1, k2, k3, k4, _⟩ := key.2 hlt
      cases j with
      | zero =>
        simp only [List.getElem?_cons_zero, Option.some.injEq] at hj
        subst hj
        refine ⟨?_, ?_, ?_⟩
        · intro inp2 hi
          subst hi
          exact k1 (by simp [charAt])
        · intro he0 x inp2 hi hx
          subst hi
          exact k2 (by simp [charAt, he0, hx])
        · intro he0
          exact k3 (by simp [he0])
      | succ j =>
        simp only [List.getElem?_cons_succ] at hj
        have := k4 j edge2 hj
        have hidx : i + 1 + j = i + (j + 1) := by omega
        rwa [hidx] at this

theorem transposeMove_complete
    (rec : Node → List Char → List Char → Nat → SuggestBox → Run)
    (e : Bool) (ls : List Char) (ps : List Node) (inp pre : List Char) (edits MAX : Nat)
    (hwf : WellFormed (.nonLeaf e ls ps))
    (hrec : ∀ c i q e2 bx b1, e2 ≤ 1 → WellFormed c → bx.cap = MAX →
      rec c i q e2 bx = .done b1 → Grows bx b1 ∧ (b1.count < MAX → Cover c i q e2 b1))
    (box b : SuggestBox) (hcap : box.cap = MAX)
    (h : transposeMove rec (.nonLeaf e ls ps) inp pre edits box = .done b) :
    Grows box b ∧ (b.count < MAX → edits = 0 → ∀ x y rest, inp = x :: y :: rest →
      SearchTrie (.nonLeaf e ls ps) (y :: x :: rest) = true →
      pre ++ y :: x :: rest ∈ b.items) := by
  unfold transposeMove at h
  by_cases hcond : edits = 0 ∧ inp ≠ [] ∧ inp.drop 1 ≠ []
  · simp only [hcond, not_false_eq_true, and_self, if_true, ne_eq] at h
    obtain ⟨he0, hne, hne2⟩ := hcond
    obtain ⟨a, inp1, rfl⟩ := List.exists_cons_of_ne_nil hne
    obtain ⟨b2, rest, hrest⟩ := List.exists_cons_of_ne_nil hne2
    simp only [List.drop_succ_cons, List.drop_zero] at hrest
    subst hrest
    have hc0 : charAt (a :: b2 :: rest) 0 = a := rfl
    have hc1 : charAt (a :: b2 :: rest) 1 = b2 := rfl
    have hd2 : (a :: b2 :: rest).drop 2 = rest := rfl
    rw [hc0, hc1, hd2] at h
    simp only [Position] at h
    have hgoal : ∀ (bb : SuggestBox),
        (SearchTrie (.nonLeaf e ls ps) (b2 :: a :: rest) = true →
          pre ++ b2 :: a :: rest ∈ bb.items) →
        (edits = 0 → ∀ x y rest2, a :: b2 :: rest = x :: y :: rest2 →
          SearchTrie (.nonLeaf e ls ps) (y :: x :: rest2) = true →
          pre ++ y :: x :: rest2 ∈ bb.items) := by
      intro bb hP _ x y rest2 hxy hs
      simp only [List.cons.injEq] at hxy
      obtain ⟨rfl, rfl, rfl⟩ := hxy
      exact hP hs
    cases hf1 : findLetter b2 ls with
    | none =>
      simp only [hf1, Run.done.injEq] at h
      subst h
      refine ⟨Grows_refl _, fun _ => hgoal _ (fun hs => ?_)⟩
      simp [SearchTrie_cons, edgeChild, hf1, SearchTrie_null] at hs
    | some pos1 =>
      simp only [hf1] at h
      cases hp1 : ptrAt ps pos1 with
      | null =>
        simp only [hp1, Run.done.injEq] at h
        subst h
        refine ⟨Grows_refl _, fun _ => hgoal _ (fun hs => ?_)⟩
        simp [SearchTrie_cons, edgeChild, hf1, hp1, SearchTrie_null] at hs
      | leaf lf1word =>
        simp only [hp1] at h
        have hsearch : SearchTrie (.nonLeaf e ls ps) (b2 :: a :: rest) = true →
            a :: rest = lf1word := by
          intro hs
          simpa [SearchTrie_cons, edgeChild, hf1, hp1, SearchTrie_leaf] using hs
        by_cases h0 : charAt lf1word 0 = a
        · simp only [h0, if_true] at h
          by_cases ht : tailWithinOneEdit (lf1word.drop 1) rest 1 = true
          · simp only [ht, if_true, Run.done.injEq] at h
            subst h
            refine ⟨add_suggestion_grows _ _, fun hlt => hgoal _ (fun hs => ?_)⟩
            have hl := hsearch hs
            have := add_suggestion_mem_of_lt box ((pre ++ [b2]) ++ lf1word)
              (by rw [hcap]; exact hlt)
            rw [← hl] at this ⊢
            simpa [emit_word_from_prefix_and_leaf] using this
          · simp only [ht, Bool.false_eq_true, if_false, Run.done.injEq] at h
            subst h
            refine ⟨Grows_refl _, fun _ => hgoal _ (fun hs => ?_)⟩
            have hl := hsearch hs
            subst hl
            exact absurd (tailWithinOneEdit_complete rest rest 1 rfl) (by simpa using ht)
        · simp only [h0, if_false, Run.done.injEq] at h
          subst h
          refine ⟨Grows_refl _, fun _ => hgoal _ (fun hs => ?_)⟩
          have hl := hsearch hs
          subst hl
          exact absurd rfl h0
      | nonLeaf e1 l1 ptrs1 =>
        simp only [hp1] at h
        have hwf1 : WellFormed (.nonLeaf e1 l1 ptrs1) := hp1 ▸ hwf.ptrAt pos1
        cases hf2 : findLetter a l1 with
        | none =>
          simp only [hf2, Run.done.injEq] at h
          subst h
          refine ⟨Grows_refl _, fun _ => hgoal _ (fun hs => ?_)⟩
          simp [SearchTrie_cons, edgeChild, hf1, hp1, hf2, SearchTrie_null] at hs
        | some pos2 =>
          simp only [hf2] at h
          cases hp2 : ptrAt ptrs1 pos2 with
          | null =>
            simp only [hp2, Run.done.injEq] at h
            subst h
            refine ⟨Grows_refl _, fun _ => hgoal _ (fun hs => ?_)⟩
            simp [SearchTrie_cons, edgeChild, hf1, hp1, hf2, hp2, SearchTrie_null] at hs
          | leaf lf2word =>
            simp only [hp2] at h
            have hsearch : SearchTrie (.nonLeaf e ls ps) (b2 :: a :: rest) = true →
                rest = lf2word := by
              intro hs
              simpa [SearchTrie_cons, edgeChild, hf1, hp1, hf2, hp2, SearchTrie_leaf] using hs
            by_cases ht : tailWithinOneEdit lf2word rest 1 = true
            · simp only [ht, if_true, Run.done.injEq] at h
              subst h
              refine ⟨add_suggestion_grows _ _, fun hlt => hgoal _ (fun hs => ?_)⟩
              have hl := hsearch hs
              have := add_suggestion_mem_of_lt box ((pre ++ [b2, a]) ++ lf2word)
                (by rw [hcap]; exact hlt)
              rw [← hl] at this ⊢
              simpa [emit_word_from_prefix_and_leaf] using this
            · simp only [ht, Bool.false_eq_true, if_false, Run.done.injEq] at h
              subst h
              refine ⟨Grows_refl _, fun _ => hgoal _ (fun hs => ?_)⟩
              have hl := hsearch hs
              subst hl
              exact absurd (tailWithinOneEdit_complete rest rest 1 rfl) (by simpa using ht)
          | nonLeaf e2 l2 ptrs2 =>
            simp only [hp2] at h
            have hwf2 : WellFormed (.nonLeaf e2 l2 ptrs2) := hp2 ▸ hwf1.ptrAt pos2
            obtain ⟨g, c⟩ := hrec _ _ _ _ _ _ (Nat.le_refl 1) hwf2 hcap h
            refine ⟨g, fun hlt => hgoal _ (fun hs => ?_)⟩
            have hs2 : SearchTrie (.nonLeaf e2 l2 ptrs2) rest = true := by
              simpa [SearchTrie_cons, edgeChild, hf1, hp1, hf2, hp2] using hs
            have := c hlt rest hs2 rfl
            simpa using this
  · simp only [hcond, if_false, Run.done.injEq] at h
    subst h
    refine ⟨Grows_refl _, fun _ he0 x y rest hi _ => ?_⟩
    exact absurd ⟨he0, by simp [hi], by simp [hi]⟩ hcond

/-- A call of `dfsSuggest` that returns below the cap has put in the box every
dictionary word below `p` within the budget of the unread input. -/
theorem dfsSuggest_complete (fuel : Nat) (p : Node) (inp pre : List Char) (edits : Nat)
    (box : SuggestBox) (MAX : Nat) (b : SuggestBox) (hedits : edits ≤ 1)
    (hwf : WellFormed p) (hcap : box.cap = MAX)
    (h : dfsSuggest fuel p inp pre edits box MAX = .done b) :
    Grows box b ∧ (b.count < MAX → Cover p inp pre edits b) := by
  induction fuel generalizing p inp pre edits box b with
  | zero => simp [dfsSuggest] at h
  | succ fuel ih =>
    unfold dfsSuggest at h
    by_cases hc : box.count ≥ MAX
    · simp only [hc, if_true, Run.done.injEq] at h
      subst h
      exact ⟨Grows_refl _, fun hlt => absurd hc (by omega)⟩
    · simp only [hc, if_false] at h
      cases p with
      | null => simp at h
      | leaf w => simp at h
      | nonLeaf eow letters ptrs =>
        simp only at h
        have hrec : ∀ c i q e2 bx b1, e2 ≤ 1 → WellFormed c → bx.cap = MAX →
            dfsSuggest fuel c i q e2 bx MAX = .done b1 →
            Grows bx b1 ∧ (b1.count < MAX → Cover c i q e2 b1) := by
          intro c i q e2 bx b1 h1 h2 h3 h4
          exact ih c i q e2 bx b1 h1 h2 h3 h4
        have key := guarded_complete
          (C := fun b => pre ∈ b.items)
          (D := fun b =>
            (decide (edits = 0 ∧ inp ≠ []) = true →
              Cover (.nonLeaf eow letters ptrs) (inp.drop 1) pre 1 b) ∧
            (∀ j edge, letters[j]? = some edge →
              EdgeCover (ptrAt ptrs j) edge inp pre edits b) ∧
            (edits = 0 → ∀ x y rest, inp = x :: y :: rest →
              SearchTrie (.nonLeaf eow letters ptrs) (y :: x :: rest) = true →
              pre ++ y :: x :: rest ∈ b.items))
          _ MAX _ box _ b (fun x y hx hg => hg.1 _ hx)
          (fun _ b1 hb1 => by
            simp only [Run.done.injEq] at hb1
            subst hb1
            exact ⟨add_suggestion_grows _ _, fun hlt =>
              add_suggestion_mem_of_lt box pre (by rw [hcap]; exact hlt)⟩)
          (fun bx hgx hkx => guarded_complete
            (C := fun b => Cover (.nonLeaf eow letters ptrs) (inp.drop 1) pre 1 b)
            (D := fun b =>
              (∀ j edge, letters[j]? = some edge →
                EdgeCover (ptrAt ptrs j) edge inp pre edits b) ∧
              (edits = 0 → ∀ x y rest, inp = x :: y :: rest →
                SearchTrie (.nonLeaf eow letters ptrs) (y :: x :: rest) = true →
                pre ++ y :: x :: rest ∈ b.items))
            _ MAX _ bx _ b (fun x y hx hg => Cover_mono hx hg)
            (fun _ b1 hb1 => hrec _ _ _ _ bx b1 (Nat.le_refl 1) hwf (hgx.2.2.trans hcap) hb1)
            (fun by_ hgy hky => by
              have hbc : by_.cap = MAX := (hgx.trans hgy).2.2.trans hcap
              obtain ⟨g3, c3⟩ := dfsLoop_complete _ eow letters ptrs inp pre edits MAX hwf
                hedits hrec _ b
                (D := fun b => edits = 0 → ∀ x y rest, inp = x :: y :: rest →
                  SearchTrie (.nonLeaf eow letters ptrs) (y :: x :: rest) = true →
                  pre ++ y :: x :: rest ∈ b.items)
                (fun b3 hb3 hk3 =>
                  transposeMove_complete _ eow letters ptrs inp pre edits MAX
                    hwf hrec b3 b hb3 hk3)
                letters 0 by_ hbc hky
              refine ⟨g3, fun hlt => ⟨fun j edge hj => ?_, (c3 hlt).2⟩⟩
              have := (c3 hlt).1 j edge hj
              rwa [Nat.zero_add] at this)
            hkx)
          h
        refine ⟨key.1, fun hlt => ?_⟩
        obtain ⟨k1, k2, k3, k4⟩ := key.2 hlt
        apply cover_of_moves eow letters ptrs inp pre edits b hedits _ _ k3 k4
        · intro hi he
          exact k1 (by simp [hi, he])
        · intro he0 x inp2 hi
          subst hi
          exact k2 (by simp [he0])

theorem insertAll_built (ws : List (List Char)) (t t2 : Node) (hb : Built t)
    (hws : ∀ w ∈ ws, IsWord w) (h : insertAll ws t = some t2) : Built t2 := by
  induction ws generalizing t with
  | nil =>
    simp only [insertAll, Option.some.injEq] at h
    rw [← h]; exact hb
  | cons w ws ih =>
    unfold insertAll at h
    cases hi : TrieInsert w t with
    | none => simp [hi] at h
    | some t1 =>
      simp only [hi] at h
      exact ih t1 (Built.insert t t1 w hb (hws w (by simp)) hi)
        (fun x hx => hws x (by simp [hx])) h

theorem buildTrie_built (ws : List (List Char)) (t : Node) (hws : ∀ w ∈ ws, IsWord w)
    (h : buildTrie ws = some t) : Built t := by
  cases ws with
  | nil => simp [buildTrie] at h
  | cons w ws =>
    exact insertAll_built ws _ t (Built.seed w (hws w (by simp)))
      (fun x hx => hws x (by simp [hx])) h

/-- C7: completeness below the cap. On every tree built by the seed and
inserts, for every query and limit, when the search returns fewer than `limit`
entries, every dictionary word that is the query or one substitution, one
insertion, one deletion or one adjacent transposition away from it is among the
returned entries. -/
theorem SuggestCorrections_complete (t : Node) (q : List Char) (limit : Nat)
    (box : SuggestBox) (hb : Built t) (h : SuggestCorrections t q limit = .done box)
    (hlt : box.count < limit) (w : List Char) (hw : SearchTrie t w = true)
    (hd : OneEdit q w) : w ∈ box.items := by
  unfold SuggestCorrections at h
  have := (dfsSuggest_complete _ t q [] 0 _ limit box (by omega) hb.wellFormed rfl h).2 hlt
    w hw hd
  simpa using this

/-- C7, witness: with the limit 10, the dictionary CAT, BAT, CART, COAT and
the query CAAT give CAT; the dictionary CAT gives CAT for the queries ACT and
CT; the dictionary CAT, COT and the query CUT give CAT and COT. -/
theorem SuggestCorrections_complete_witness :
    (∃ t box, buildTrie ["CAT".toList, "BAT".toList, "CART".toList, "COAT".toList] = some t ∧
      SuggestCorrections t "CAAT".toList 10 = .done box ∧ "CAT".toList ∈ box.items) ∧
    (∃ box, SuggestCorrections (bootstrap "CAT".toList) "ACT".toList 10 = .done box ∧
      "CAT".toList ∈ box.items) ∧
    (∃ box, SuggestCorrections (bootstrap "CAT".toList) "CT".toList 10 = .done box ∧
      "CAT".toList ∈ box.items) ∧
    (∃ t box, buildTrie ["CAT".toList, "COT".toList] = some t ∧
      SuggestCorrections t "CUT".toList 10 = .done box ∧
      "CAT".toList ∈ box.items ∧ "COT".toList ∈ box.items) :=
  ⟨⟨.nonLeaf false ['B', 'C'] [.leaf "AT".toList,
        .nonLeaf false ['A', 'O'] [.nonLeaf false ['R', 'T'] [.leaf ['T'], .leaf []],
          .leaf "AT".toList]],
      { items := ["CAT".toList, "CART".toList, "COAT".toList], cap := 10 }, rfl, rfl,
      SuggestCorrections_complete _ "CAAT".toList 10 _
        (buildTrie_built ["CAT".toList, "BAT".toList, "CART".toList, "COAT".toList] _
          (by decide) rfl)
        rfl (by decide) "CAT".toList rfl (OneEdit.deletion "CA".toList "T".toList 'A')⟩,
   ⟨{ items := ["CAT".toList], cap := 10 }, rfl,
      SuggestCorrections_complete (bootstrap "CAT".toList) "ACT".toList 10 _
        (Built.seed "CAT".toList (by decide))
        rfl (by decide) "CAT".toList rfl (OneEdit.transposition [] "T".toList 'A' 'C')⟩,
   ⟨{ items := ["CAT".toList], cap := 10 }, rfl,
      SuggestCorrections_complete (bootstrap "CAT".toList) "CT".toList 10 _
        (Built.seed "CAT".toList (by decide))
        rfl (by decide) "CAT".toList rfl (OneEdit.insertion "C".toList "T".toList 'A')⟩,
   ⟨.nonLeaf false ['C'] [.nonLeaf false ['A', 'O'] [.leaf ['T'], .leaf ['T']]],
      { items := ["CAT".toList, "COT".toList], cap := 10 }, rfl, rfl,
      SuggestCorrections_complete _ "CUT".toList 10 _
        (buildTrie_built ["CAT".toList, "COT".toList] _ (by decide) rfl)
        rfl (by decide) "CAT".toList rfl
        (OneEdit.substitution "C".toList "T".toList 'U' 'A'),
      SuggestCorrections_complete _ "CUT".toList 10 _
        (buildTrie_built ["CAT".toList, "COT".toList] _ (by decide) rfl)
        rfl (by decide) "COT".toList rfl
        (OneEdit.substitution "C".toList "T".toList 'U' 'O')⟩⟩

/-! ## The tail matcher, both directions -/

/-- C16: with the budget spent (`edits_used = 1`) `tailWithinOneEdit(a, b, 1)`
returns 1 exactly when `a = b`, and for every `edits_used` above 1 (written
`e + 2`) it returns 0, whatever the two strings are. -/
theorem tailWithinOneEdit_spent_budget (a b : List Char) :
    (tailWithinOneEdit a b 1 = true ↔ a = b) ∧
    (∀ e : Nat, tailWithinOneEdit a b (e + 2) = false) := by
  constructor
  · simp [tailWithinOneEdit]
  · intro e
    simp [tailWithinOneEdit]

/-- C15: with a free budget `tailWithinOneEdit(a, b, 0)` returns 1 exactly when
`a = b`, or `a` and `b` differ in exactly one position (same letters before and
after it), or `b` is `a` with two adjacent letters swapped, or one of the two
is the other with exactly one letter removed; and this is the same as `b` and
`a` lying within one edit (`OneEdit`, Damerau-Levenshtein distance at most 1). -/
theorem tailWithinOneEdit_free_budget (a b : List Char) :
    (tailWithinOneEdit a b 0 = true ↔
      (a = b ∨
       (∃ pre x y post, x ≠ y ∧ a = pre ++ x :: post ∧ b = pre ++ y :: post) ∨
       (∃ pre x y post, a = pre ++ x :: y :: post ∧ b = pre ++ y :: x :: post) ∨
       (∃ pre x post, a = pre ++ x :: post ∧ b = pre ++ post) ∨
       (∃ pre x post, b = pre ++ x :: post ∧ a = pre ++ post))) ∧
    (tailWithinOneEdit a b 0 = true ↔ OneEdit b a) := by
  have hiff : tailWithinOneEdit a b 0 = true ↔ OneEdit b a :=
    ⟨fun h => tailWithinOneEdit_sound a b 0 h, fun h => tailWithinOneEdit_complete a b 0 h⟩
  refine ⟨?_, hiff⟩
  rw [hiff]
  constructor
  · intro h
    cases h with
    | same => exact Or.inl rfl
    | substitution p q x y =>
      by_cases hxy : x = y
      · subst hxy; exact Or.inl rfl
      · exact Or.inr (Or.inl ⟨p, y, x, q, fun e => hxy e.symm, rfl, rfl⟩)
    | insertion p q x => exact Or.inr (Or.inr (Or.inr (Or.inl ⟨p, x, q, rfl, rfl⟩)))
    | deletion p q x => exact Or.inr (Or.inr (Or.inr (Or.inr ⟨p, x, q, rfl, rfl⟩)))
    | transposition p q x y => exact Or.inr (Or.inr (Or.inl ⟨p, y, x, q, rfl, rfl⟩))
  · rintro (h | ⟨p, x, y, q, _, rfl, rfl⟩ | ⟨p, x, y, q, rfl, rfl⟩ | ⟨p, x, q, rfl, rfl⟩ |
      ⟨p, x, q, rfl, rfl⟩)
    · subst h; exact OneEdit.same _
    · exact OneEdit.substitution p q y x
    · exact OneEdit.transposition p q y x
    · exact OneEdit.insertion p q x
    · exact OneEdit.deletion p q x

/-! ## Invariants of the trees `main` builds -/

theorem WellFormed_subnode {n t : Node} (hwf : WellFormed t) (h : Subnode n t) :
    WellFormed n := by
  induction h with
  | here => exact hwf
  | under e ls ps c hc _ ih => exact hwf.child c hc |> ih

/-- Every completed sequence of inserts keeps the parallel arrays well formed. -/
theorem WellFormed_insertAll (ws : List (List Char)) (t t2 : Node) (hwf : WellFormed t)
    (h : insertAll ws t = some t2) : WellFormed t2 := by
  induction ws generalizing t with
  | nil =>
    simp only [insertAll, Option.some.injEq] at h
    rw [← h]; exact hwf
  | cons w ws ih =>
    unfold insertAll at h
    cases hi : TrieInsert w t with
    | none => simp [hi] at h
    | some t1 =>
      simp only [hi] at h
      exact ih t1 (WellFormed_TrieInsert w t t1 hwf hi) h

theorem WellFormed_buildTrie (ws : List (List Char)) (t : Node)
    (h : buildTrie ws = some t) : WellFormed t := by
  cases ws with
  | nil => simp [buildTrie] at h
  | cons w ws => exact WellFormed_insertAll ws _ t (WellFormed_bootstrap w) h

/-- C11: in every tree built by the bootstrap on a first word followed by
`TrieInsert` of any sequence of words (`buildTrie` on any list for which the
build completes), every non-leaf node of the tree has strictly ascending edge
letters, so sorted and with no letter twice. -/
theorem buildTrie_letters_ascending (ws : List (List Char)) (t : Node)
    (hb : buildTrie ws = some t) (e : Bool) (ls : List Char)
    (ps : List Node) (hn : Subnode (.nonLeaf e ls ps) t) :
    ls.Pairwise (· < ·) ∧ ls.Nodup := by
  have hwf := (WellFormed_subnode (WellFormed_buildTrie ws t hb) hn).sorted
  refine ⟨hwf, hwf.imp ?_⟩
  intro a b hab heq
  subst heq
  exact absurd hab (lt_irrefl a)

/-- C11, witness: the tree built from CARE then CART, at the node below C, A, R
that carries the two letters E and T. -/
theorem buildTrie_letters_ascending_witness :
    ['E', 'T'].Pairwise (· < ·) ∧ ['E', 'T'].Nodup :=
  buildTrie_letters_ascending ["CARE".toList, "CART".toList]
    (.nonLeaf false ['C'] [.nonLeaf false ['A'] [.nonLeaf false ['R']
      [.nonLeaf false ['E', 'T'] [.leaf [], .leaf []]]]])
    rfl false ['E', 'T'] [.leaf [], .leaf []]
    (Subnode.under _ _ _ _ (List.mem_singleton_self _)
      (Subnode.under _ _ _ _ (List.mem_singleton_self _)
        (Subnode.under _ _ _ _ (List.mem_singleton_self _) Subnode.here)))

/-- C13, at the dictionary DOGS, DOG: the tree `main` builds from it has a
non-leaf (the node of DOG) whose edge letter G has NULL in its parallel slot;
`TrieInsert` of the word DOGGY follows that edge and faults, and so does the
suggestion search for DOGE, a word `SearchTrie` does not find. -/
theorem Built_tree_has_empty_slot :
    Built (.nonLeaf false ['D'] [.nonLeaf false ['O'] [.nonLeaf false ['G']
      [.nonLeaf true ['G', 'S'] [.null, .leaf []]]]]) ∧
    Subnode (.nonLeaf true ['G', 'S'] [.null, .leaf []])
      (.nonLeaf false ['D'] [.nonLeaf false ['O'] [.nonLeaf false ['G']
        [.nonLeaf true ['G', 'S'] [.null, .leaf []]]]]) ∧
    edgeChild ['G', 'S'] [.null, .leaf []] 'G' = .null ∧
    IsWord "DOGGY".toList ∧
    TrieInsert "DOGGY".toList
      (.nonLeaf false ['D'] [.nonLeaf false ['O'] [.nonLeaf false ['G']
        [.nonLeaf true ['G', 'S'] [.null, .leaf []]]]]) = none ∧
    SearchTrie
      (.nonLeaf false ['D'] [.nonLeaf false ['O'] [.nonLeaf false ['G']
        [.nonLeaf true ['G', 'S'] [.null, .leaf []]]]]) "DOGE".toList = false ∧
    SuggestCorrections
      (.nonLeaf false ['D'] [.nonLeaf false ['O'] [.nonLeaf false ['G']
        [.nonLeaf true ['G', 'S'] [.null, .leaf []]]]]) "DOGE".toList 10
      = .fault { items := ["DOG".toList], cap := 10 } := by
  refine ⟨?_, ?_, rfl, by decide, rfl, rfl, rfl⟩
  · exact Built.insert (bootstrap "DOGS".toList) _ "DOG".toList
      (Built.seed "DOGS".toList (by decide)) (by decide) rfl
  · exact Subnode.under _ _ _ _ (List.mem_singleton_self _)
      (Subnode.under _ _ _ _ (List.mem_singleton_self _)
        (Subnode.under _ _ _ _ (List.mem_singleton_self _) Subnode.here))

/-- C14, at the tree seeded from AB and the word A: the leaf under the edge A
holds the tail B, the remaining input is empty, a proper prefix of it (split
case (A)). The non-leaf the new word A reaches afterwards has `EndOfWord` set
but two edge letters, A and B, not one: B leads to the leaf with the rest of
the old tail, and A, the last letter of the new word, has a NULL slot. The same
happens for CATS then CAT. -/
theorem TrieInsert_caseA_leaves_two_edges :
    bootstrap "AB".toList = .nonLeaf false ['A'] [.leaf ['B']] ∧
    TrieInsert "A".toList (bootstrap "AB".toList)
      = some (.nonLeaf false ['A'] [.nonLeaf true ['A', 'B'] [.null, .leaf []]]) ∧
    nodeAt "A".toList (.nonLeaf false ['A'] [.nonLeaf true ['A', 'B'] [.null, .leaf []]])
      = .nonLeaf true ['A', 'B'] [.null, .leaf []] ∧
    ['A', 'B'].length = 2 ∧
    edgeChild ['A', 'B'] [.null, .leaf []] 'A' = .null ∧
    (∃ t, TrieInsert "CAT".toList (bootstrap "CATS".toList) = some t ∧
      nodeAt "CAT".toList t = .nonLeaf true ['S', 'T'] [.leaf [], .null]) :=
  ⟨rfl, rfl, rfl, rfl, rfl, _, rfl, rfl⟩

/-! ## The subtree that replaces a split leaf -/

theorem lcpLen_prefix_left (W r : List Char) : lcpLen W (W ++ r) = W.length := by
  induction W with
  | nil => cases r <;> simp [lcpLen]
  | cons a W ih => simp [lcpLen, ih]

theorem lcpLen_prefix_right (T r : List Char) : lcpLen (T ++ r) T = T.length := by
  induction T with
  | nil => cases r <;> simp [lcpLen]
  | cons a T ih => simp [lcpLen, ih]

theorem lcpLen_diverge (c : List Char) (w t : Char) (ws ts : List Char) (h : w ≠ t) :
    lcpLen (c ++ w :: ws) (c ++ t :: ts) = c.length := by
  induction c with
  | nil => simp [lcpLen, h]
  | cons a c ih => simp [lcpLen, ih]

/-- Two different strings: one is a proper prefix of the other, or they part
at a position where both have a letter. -/
theorem strings_trichotomy (W T : List Char) (hne : T ≠ W) :
    (∃ t ts, T = W ++ t :: ts) ∨ (∃ w ws, W = T ++ w :: ws) ∨
    (∃ c w ws t ts, W = c ++ w :: ws ∧ T = c ++ t :: ts ∧ w ≠ t) := by
  induction W generalizing T with
  | nil =>
    cases T with
    | nil => exact absurd rfl hne
    | cons t ts => exact Or.inl ⟨t, ts, rfl⟩
  | cons w0 ws ih =>
    cases T with
    | nil => exact Or.inr (Or.inl ⟨w0, ws, rfl⟩)
    | cons t0 ts =>
      by_cases h0 : w0 = t0
      · subst h0
        have hne2 : ts ≠ ws := fun e => hne (by rw [e])
        rcases ih ts hne2 with ⟨t, ts2, h⟩ | ⟨w, ws2, h⟩ | ⟨c, w, ws2, t, ts2, h1, h2, h3⟩
        · exact Or.inl ⟨t, ts2, by rw [h]; rfl⟩
        · exact Or.inr (Or.inl ⟨w, ws2, by rw [h]; rfl⟩)
        · exact Or.inr (Or.inr ⟨w0 :: c, w, ws2, t, ts2, by rw [h1]; rfl, by rw [h2]; rfl, h3⟩)
      · exact Or.inr (Or.inr ⟨[], w0, ws, t0, ts, rfl, rfl, h0⟩)

/-- Case (C) of the split: after the common letters `c` the two strings go on
with different letters `w` and `t`. -/
theorem splitTree_caseC (last : Char) (c : List Char) (w t : Char) (ws ts : List Char)
    (h : w ≠ t) :
    splitTree last (c ++ w :: ws) (c ++ t :: ts)
      = hoistChain c (.nonLeaf false
          (if w < t then [w, t] else [t, w])
          (if w < t then [.leaf ws, .leaf ts] else [.leaf ts, .leaf ws])) := by
  induction c generalizing last with
  | nil =>
    simp only [List.nil_append, splitTree, if_neg h, hoistChain, CreateNonLeaf]
    rw [CreateLeaf_found w ws false [w] [.null] 0 (by simp [findLetter])]
    rw [List.set_cons_zero,
      CreateLeaf_new t ts false [w] [.leaf ws] (by simp [findLetter, h]) rfl]
    by_cases hlt : w < t
    · simp [sortedPos, hlt, insertAt]
    · simp [sortedPos, hlt, insertAt]
  | cons a c ih =>
    simp only [List.cons_append, splitTree, if_true, hoistChain, CreateNonLeaf, setPtr,
      List.set_cons_zero]
    exact congrArg (fun x => Node.nonLeaf false [a] [x]) (ih a)

/-- Case (B) of the split: the old leaf suffix `T` is used up and the new word
goes on with the letter `w`. -/
theorem splitTree_caseB (last : Char) (T : List Char) (w : Char) (ws : List Char) :
    splitTree last (T ++ w :: ws) T = hoistChain T (.nonLeaf true [w] [.leaf ws]) := by
  induction T generalizing last with
  | nil =>
    simp only [List.nil_append, splitTree, hoistChain, CreateNonLeaf, setEndOfWord]
    rw [CreateLeaf_found w ws true [w] [.null] 0 (by simp [findLetter])]
    rfl
  | cons a T ih =>
    simp only [List.cons_append, splitTree, if_true, hoistChain, CreateNonLeaf, setPtr,
      List.set_cons_zero]
    exact congrArg (fun x => Node.nonLeaf false [a] [x]) (ih a)

/-- Case (A) of the split: the new word is used up and the old leaf suffix goes
on with the letter `t`. The last node is seeded with the last letter `l` of the
new word, so it carries the single edge `t` only when `t = l`. -/
theorem splitTree_caseA (last : Char) (W : List Char) (t : Char) (ts : List Char) :
    splitTree last W (W ++ t :: ts)
      = hoistChain W
          (if t = W.getLastD last then .nonLeaf true [t] [.leaf ts]
           else if W.getLastD last < t then
             .nonLeaf true [W.getLastD last, t] [.null, .leaf ts]
           else .nonLeaf true [t, W.getLastD last] [.leaf ts, .null]) := by
  induction W generalizing last with
  | nil =>
    simp only [List.nil_append, splitTree, hoistChain, CreateNonLeaf, setEndOfWord, charAt,
      List.getLastD, List.getD_cons_zero, List.drop_succ_cons, List.drop_zero]
    by_cases heq : t = last
    · subst heq
      rw [CreateLeaf_found t ts true [t] [.null] 0 (by simp [findLetter])]
      simp
    · have hne : ¬ last = t := fun e => heq e.symm
      rw [CreateLeaf_new t ts true [last] [.null] (by simp [findLetter, hne]) rfl]
      by_cases hlt : last < t
      · simp [sortedPos, hlt, insertAt, heq]
      · simp [sortedPos, hlt, insertAt, heq]
  | cons a W ih =>
    have hl : (a :: W).getLastD last = W.getLastD a := by
      cases W <;> simp [List.getLastD]
    simp only [List.cons_append, splitTree, if_true, hoistChain, CreateNonLeaf, setPtr,
      List.set_cons_zero, hl]
    exact congrArg (fun x => Node.nonLeaf false [a] [x]) (ih a)

theorem branchCount_hoistChain (cs : List Char) (final : Node) :
    branchCount (hoistChain cs final) = cs.length + branchCount final := by
  induction cs with
  | nil => simp [hoistChain]
  | cons c cs ih => simp [hoistChain, branchCount, branchCountList, ih]; omega

theorem leafWords_hoistChain (cs : List Char) (final : Node) :
    leafWords (hoistChain cs final) = leafWords final := by
  induction cs with
  | nil => simp [hoistChain]
  | cons c cs ih => simp [hoistChain, leafWords, leafWordsList, ih]

theorem nodeAt_hoistChain (cs : List Char) (final : Node) :
    nodeAt cs (hoistChain cs final) = final := by
  induction cs with
  | nil => simp [hoistChain, nodeAt]
  | cons c cs ih => simp [hoistChain, nodeAt, edgeChild, findLetter, ptrAt, ih]

theorem ptrAt_lt_of_ne_null (ps : List Node) (pos : Nat) (h : ptrAt ps pos ≠ .null) :
    pos < ps.length := by
  by_contra hlt
  apply h
  simp [ptrAt, List.getD_eq_getElem?_getD, List.getElem?_eq_none (Nat.le_of_not_lt hlt)]

/-- The node a split leaves at the end of the path `ch :: cs`. -/
theorem nodeAt_split (ch : Char) (cs : List Char) (e : Bool) (ls : List Char)
    (ps : List Node) (pos : Nat) (final : Node) (hf : findLetter ch ls = some pos)
    (hpos : pos < ps.length) :
    nodeAt (ch :: cs) (.nonLeaf e ls (ps.set pos (hoistChain cs final))) = final := by
  simp only [nodeAt, edgeChild, hf]
  rw [ptrAt_set_self ps pos _ hpos, nodeAt_hoistChain]

/-- Split case (C) at the node that holds the leaf: `TrieInsert` of
`ch :: c ++ w :: ws` at a non-leaf whose edge `ch` leads to the leaf holding
`c ++ t :: ts`, with `w ≠ t`. -/
theorem splitNode_caseC (ch : Char) (c : List Char) (w t : Char) (ws ts : List Char)
    (e : Bool) (ls : List Char) (ps : List Node) (pos : Nat)
    (hf : findLetter ch ls = some pos) (hp : ptrAt ps pos = .leaf (c ++ t :: ts))
    (hwt : w ≠ t) :
    ∃ lsF psF,
      TrieInsert (ch :: (c ++ w :: ws)) (.nonLeaf e ls ps)
        = some (.nonLeaf e ls (ps.set pos (hoistChain c (.nonLeaf false lsF psF)))) ∧
      nodeAt (ch :: c) (.nonLeaf e ls (ps.set pos (hoistChain c (.nonLeaf false lsF psF))))
        = .nonLeaf false lsF psF ∧
      lsF.length = 2 ∧ psF.length = 2 ∧ (lsF = [w, t] ∨ lsF = [t, w]) ∧
      edgeChild lsF psF w = .leaf ws ∧ edgeChild lsF psF t = .leaf ts := by
  have hne : c ++ t :: ts ≠ c ++ w :: ws := by
    intro h
    have h2 : t = w ∧ ts = ws := by simpa using h
    exact hwt h2.1.symm
  have hpos : pos < ps.length := ptrAt_lt_of_ne_null ps pos (by rw [hp]; simp)
  have hne2 : ¬ t = w := fun h => hwt h.symm
  refine ⟨if w < t then [w, t] else [t, w],
    if w < t then [.leaf ws, .leaf ts] else [.leaf ts, .leaf ws], ?_, ?_, ?_, ?_, ?_, ?_, ?_⟩
  · rw [TrieInsert_split ch _ _ e ls ps pos hf hp hne, splitTree_caseC ch c w t ws ts hwt]
  · exact nodeAt_split ch c e ls ps pos _ hf hpos
  · by_cases hlt : w < t <;> simp [hlt]
  · by_cases hlt : w < t <;> simp [hlt]
  · by_cases hlt : w < t <;> simp [hlt]
  · by_cases hlt : w < t <;> simp [hlt, edgeChild, findLetter, ptrAt, hne2]
  · by_cases hlt : w < t <;> simp [hlt, edgeChild, findLetter, ptrAt, hwt]

/-- A split at the node that holds the leaf: `TrieInsert` of `ch :: W` at a
non-leaf whose edge `ch` leads to a leaf holding `T`, `T ≠ W`. -/
theorem splitNode_chain (ch : Char) (W T : List Char) (e : Bool) (ls : List Char)
    (ps : List Node) (pos : Nat) (hf : findLetter ch ls = some pos)
    (hp : ptrAt ps pos = .leaf T) (hne : T ≠ W) :
    ∃ eF lsF psF,
      TrieInsert (ch :: W) (.nonLeaf e ls ps)
        = some (.nonLeaf e ls (ps.set pos
            (hoistChain (W.take (lcpLen W T)) (.nonLeaf eF lsF psF)))) ∧
      branchCount (hoistChain (W.take (lcpLen W T)) (.nonLeaf eF lsF psF))
        = lcpLen W T + 1 ∧
      (eF = true ↔ (W.length = lcpLen W T ∨ T.length = lcpLen W T)) ∧
      (W.length = lcpLen W T →
        leafWords (hoistChain (W.take (lcpLen W T)) (.nonLeaf eF lsF psF))
          = [T.drop (lcpLen W T + 1)]) ∧
      (T.length = lcpLen W T →
        leafWords (hoistChain (W.take (lcpLen W T)) (.nonLeaf eF lsF psF))
          = [W.drop (lcpLen W T + 1)]) ∧
      (lcpLen W T < W.length → lcpLen W T < T.length →
        leafWords (hoistChain (W.take (lcpLen W T)) (.nonLeaf eF lsF psF))
            = [W.drop (lcpLen W T + 1), T.drop (lcpLen W T + 1)] ∨
        leafWords (hoistChain (W.take (lcpLen W T)) (.nonLeaf eF lsF psF))
            = [T.drop (lcpLen W T + 1), W.drop (lcpLen W T + 1)]) := by
  rw [TrieInsert_split ch W T e ls ps pos hf hp hne]
  rcases strings_trichotomy W T hne with ⟨t, ts, rfl⟩ | ⟨w, ws, rfl⟩ |
    ⟨c, w, ws, t, ts, rfl, rfl, hwt⟩
  · rw [lcpLen_prefix_left, List.take_length, splitTree_caseA]
    by_cases h1 : t = W.getLastD ch
    · rw [if_pos h1]
      refine ⟨true, [t], [.leaf ts], rfl, ?_, ?_, ?_, ?_, ?_⟩
      · simp [branchCount_hoistChain, branchCount, branchCountList]
      · simp
      · intro _; simp [leafWords_hoistChain, leafWords, leafWordsList]
      · intro h; simp at h
      · intro h; simp at h
    · rw [if_neg h1]
      by_cases h2 : W.getLastD ch < t
      · rw [if_pos h2]
        refine ⟨true, [W.getLastD ch, t], [.null, .leaf ts], rfl, ?_, ?_, ?_, ?_, ?_⟩
        · simp [branchCount_hoistChain, branchCount, branchCountList]
        · simp
        · intro _; simp [leafWords_hoistChain, leafWords, leafWordsList]
        · intro h; simp at h
        · intro h; simp at h
      · rw [if_neg h2]
        refine ⟨true, [t, W.getLastD ch], [.leaf ts, .null], rfl, ?_, ?_, ?_, ?_, ?_⟩
        · simp [branchCount_hoistChain, branchCount, branchCountList]
        · simp
        · intro _; simp [leafWords_hoistChain, leafWords, leafWordsList]
        · intro h; simp at h
        · intro h; simp at h
  · rw [lcpLen_prefix_right, List.take_left, splitTree_caseB]
    refine ⟨true, [w], [.leaf ws], rfl, ?_, ?_, ?_, ?_, ?_⟩
    · simp [branchCount_hoistChain, branchCount, branchCountList]
    · simp
    · intro h; simp at h
    · intro _; simp [leafWords_hoistChain, leafWords, leafWordsList]
    · intro _ h; exact absurd h (Nat.lt_irrefl _)
  · rw [lcpLen_diverge c w t ws ts hwt, List.take_left, splitTree_caseC ch c w t ws ts hwt]
    refine ⟨false, _, _, rfl, ?_, ?_, ?_, ?_, ?_⟩
    · by_cases hlt : w < t <;>
        simp [hlt, branchCount_hoistChain, branchCount, branchCountList]
    · simp
    · intro h; simp at h
    · intro h; simp at h
    · intro _ _
      by_cases hlt : w < t <;> simp [hlt, leafWords_hoistChain, leafWords, leafWordsList]

/-! ## Inserting along an absent edge -/

theorem nodeAt_null (q : List Char) : nodeAt q .null = .null := by
  cases q <;> simp [nodeAt]

theorem nodeAt_leaf_cons (c : Char) (q w : List Char) : nodeAt (c :: q) (.leaf w) = .null := by
  simp [nodeAt]

theorem edgeChild_set_of_lt (ls : List Char) (ps : List Node) (ch c : Char) (pos : Nat)
    (n : Node) (h : findLetter ch ls = some pos) (hpos : pos < ps.length) :
    edgeChild ls (ps.set pos n) c = if c = ch then n else edgeChild ls ps c := by
  by_cases hc : c = ch
  · subst hc
    simp [edgeChild, h, ptrAt_set_self _ _ _ hpos]
  · simp only [edgeChild, hc, if_false]
    cases h2 : findLetter c ls with
    | none => rfl
    | some i =>
      have hne : pos ≠ i := by
        intro e
        subst e
        have h3 := (findLetter_some_lt h).2
        have h4 := (findLetter_some_lt h2).2
        rw [h3] at h4
        exact hc (Option.some.inj h4).symm
      simp only [ptrAt_set_ne _ _ _ _ hne]

/-- The descent to a non-leaf at the end of `path`: the first step. -/
theorem nodeAt_cons_nonLeaf (p0 : Char) (path : List Char) (root : Node) (e : Bool)
    (ls : List Char) (ps : List Node) (h : nodeAt (p0 :: path) root = .nonLeaf e ls ps) :
    ∃ e0 l0 ps0 pos, root = .nonLeaf e0 l0 ps0 ∧ findLetter p0 l0 = some pos ∧
      pos < ps0.length ∧ nodeAt path (ptrAt ps0 pos) = .nonLeaf e ls ps ∧
      ∃ e1 l1 p1, ptrAt ps0 pos = .nonLeaf e1 l1 p1 := by
  cases root with
  | null => simp [nodeAt] at h
  | leaf w => simp [nodeAt] at h
  | nonLeaf e0 l0 ps0 =>
    simp only [nodeAt, edgeChild] at h
    cases hf : findLetter p0 l0 with
    | none => simp [hf, nodeAt_null] at h
    | some pos =>
      simp only [hf] at h
      have hnn : ptrAt ps0 pos ≠ .null := by
        intro hn
        rw [hn, nodeAt_null] at h
        cases h
      refine ⟨e0, l0, ps0, pos, rfl, hf, ptrAt_lt_of_ne_null ps0 pos hnn, h, ?_⟩
      cases hc : ptrAt ps0 pos with
      | null => exact absurd hc hnn
      | leaf w =>
        rw [hc] at h
        cases path with
        | nil => simp [nodeAt] at h
        | cons c q => simp [nodeAt] at h
      | nonLeaf e1 l1 p1 => exact ⟨e1, l1, p1, rfl⟩

/-- An insert whose descent ends at a non-leaf without an edge for the next
letter replaces that non-leaf by itself with one more cell, and rewrites
nothing but the child slots along the path. -/
theorem TrieInsert_graft (path : List Char) (root : Node) (ch : Char) (rest : List Char)
    (e : Bool) (ls : List Char) (ps : List Node)
    (hnode : nodeAt path root = .nonLeaf e ls ps) (hf : findLetter ch ls = none)
    (hlen : ls.length = ps.length) :
    TrieInsert (path ++ ch :: rest) root
      = some (graft (.nonLeaf e (insertAt (sortedPos ch ls) ch ls)
          (insertAt (sortedPos ch ls) (.leaf rest) ps)) path root) := by
  induction path generalizing root with
  | nil =>
    simp only [nodeAt] at hnode
    subst hnode
    simp only [List.nil_append, TrieInsert, Position, hf, graft]
    rw [CreateLeaf_new ch rest e ls ps hf hlen]
  | cons p0 path ih =>
    obtain ⟨e0, l0, ps0, pos, rfl, hf0, hpos, hn, e1, l1, p1, hc⟩ :=
      nodeAt_cons_nonLeaf p0 path root e ls ps hnode
    simp only [List.cons_append, TrieInsert, Position, hf0, hc, graft]
    rw [← hc, show path.append (ch :: rest) = path ++ ch :: rest from rfl,
      ih (ptrAt ps0 pos) hn]
    rfl

/-- Away from the end of the path and from the new edge, every node of the
grafted tree has the fields it had. -/
theorem nodeAt_graft_frame (path : List Char) (root : Node) (ch : Char) (rest : List Char)
    (e : Bool) (ls : List Char) (ps : List Node)
    (hnode : nodeAt path root = .nonLeaf e ls ps) (hf : findLetter ch ls = none)
    (hlen : ls.length = ps.length) (q : List Char) (h1 : q ≠ path) (h2 : q ≠ path ++ [ch]) :
    ownFields (nodeAt q (graft (.nonLeaf e (insertAt (sortedPos ch ls) ch ls)
        (insertAt (sortedPos ch ls) (.leaf rest) ps)) path root))
      = ownFields (nodeAt q root) := by
  induction path generalizing root q with
  | nil =>
    simp only [nodeAt] at hnode
    subst hnode
    cases q with
    | nil => exact absurd rfl h1
    | cons c q =>
      simp only [graft, nodeAt]
      rw [edgeChild_insertAt ls ps ch c _ _ hf hlen (sortedPos_le ch ls)]
      by_cases hc : c = ch
      · subst hc
        have hq : q ≠ [] := fun hq => h2 (by simp [hq])
        obtain ⟨c2, q2, rfl⟩ := List.exists_cons_of_ne_nil hq
        simp [edgeChild, hf, nodeAt, nodeAt_null]
      · simp [hc]
  | cons p0 path ih =>
    obtain ⟨e0, l0, ps0, pos, rfl, hf0, hpos, hn, e1, l1, p1, hc⟩ :=
      nodeAt_cons_nonLeaf p0 path root e ls ps hnode
    cases q with
    | nil => simp [graft, hf0, nodeAt, ownFields]
    | cons c q =>
      simp only [graft, hf0, nodeAt]
      rw [edgeChild_set_of_lt l0 ps0 p0 c pos _ hf0 hpos]
      by_cases hcp : c = p0
      · subst hcp
        simp only [if_true]
        have := ih (ptrAt ps0 pos) hn q (fun h => h1 (by rw [h]))
          (fun h => h2 (by rw [h]; rfl))
        simpa [edgeChild, hf0] using this
      · simp [hcp]

/-- The grafted node sits at the end of the path. -/
theorem nodeAt_graft_self (path : List Char) (root n : Node) (e : Bool) (ls : List Char)
    (ps : List Node) (hnode : nodeAt path root = .nonLeaf e ls ps) :
    nodeAt path (graft n path root) = n := by
  induction path generalizing root with
  | nil => simp [graft, nodeAt]
  | cons p0 path ih =>
    obtain ⟨e0, l0, ps0, pos, rfl, hf0, hpos, hn, _⟩ :=
      nodeAt_cons_nonLeaf p0 path root e ls ps hnode
    simp only [graft, hf0, nodeAt, edgeChild]
    rw [ptrAt_set_self ps0 pos _ hpos]
    exact ih (ptrAt ps0 pos) hn

/-- C19: when the descent of `TrieInsert` along `path` reaches a non-leaf that
has no edge for the next input letter `ch`, the insert returns the tree in
which that non-leaf has one more cell, the letter `ch` at its sorted position
with a leaf holding the whole input after `ch`; every other edge of that
non-leaf leads to the child it led to, the edge count grows by one, the flag
stays, only the child slots along the path are rewritten, and every node
reached by a path other than `path` and `path ++ [ch]` keeps its own fields
(flag and letters, or leaf suffix). -/
theorem TrieInsert_absent_edge (path : List Char) (root : Node) (ch : Char)
    (rest : List Char) (e : Bool) (ls : List Char) (ps : List Node)
    (hnode : nodeAt path root = .nonLeaf e ls ps) (hf : findLetter ch ls = none)
    (hlen : ls.length = ps.length) :
    ∃ ls2 ps2,
      TrieInsert (path ++ ch :: rest) root = some (graft (.nonLeaf e ls2 ps2) path root) ∧
      nodeAt path (graft (.nonLeaf e ls2 ps2) path root) = .nonLeaf e ls2 ps2 ∧
      ls2 = insertAt (sortedPos ch ls) ch ls ∧
      ps2 = insertAt (sortedPos ch ls) (.leaf rest) ps ∧
      ls2.length = ls.length + 1 ∧ ps2.length = ps.length + 1 ∧
      edgeChild ls2 ps2 ch = .leaf rest ∧
      (∀ c, c ≠ ch → edgeChild ls2 ps2 c = edgeChild ls ps c) ∧
      (∀ q, q ≠ path → q ≠ path ++ [ch] →
        ownFields (nodeAt q (graft (.nonLeaf e ls2 ps2) path root))
          = ownFields (nodeAt q root)) := by
  refine ⟨_, _, TrieInsert_graft path root ch rest e ls ps hnode hf hlen, ?_, rfl, rfl,
    by simp [insertAt_length], by simp [insertAt_length], ?_, ?_,
    fun q h1 h2 => nodeAt_graft_frame path root ch rest e ls ps hnode hf hlen q h1 h2⟩
  · exact nodeAt_graft_self path root _ e ls ps hnode
  · rw [edgeChild_insertAt ls ps ch ch _ _ hf hlen (sortedPos_le ch ls)]
    simp
  · intro c hc
    rw [edgeChild_insertAt ls ps ch c _ _ hf hlen (sortedPos_le ch ls)]
    simp [hc]

/-- C19, witness: CUT inserted into the tree of CAT and COT; the descent along
C reaches the non-leaf with the letters A and O, which has no edge U. -/
theorem TrieInsert_absent_edge_witness :
    ∃ ls2 ps2,
      TrieInsert (['C'] ++ 'U' :: ['T'])
          (.nonLeaf false ['C'] [.nonLeaf false ['A', 'O'] [.leaf ['T'], .leaf ['T']]])
        = some (graft (.nonLeaf false ls2 ps2) ['C']
            (.nonLeaf false ['C'] [.nonLeaf false ['A', 'O'] [.leaf ['T'], .leaf ['T']]])) ∧
      nodeAt ['C'] (graft (.nonLeaf false ls2 ps2) ['C']
          (.nonLeaf false ['C'] [.nonLeaf false ['A', 'O'] [.leaf ['T'], .leaf ['T']]]))
        = .nonLeaf false ls2 ps2 ∧
      ls2 = insertAt (sortedPos 'U' ['A', 'O']) 'U' ['A', 'O'] ∧
      ps2 = insertAt (sortedPos 'U' ['A', 'O']) (.leaf ['T']) [.leaf ['T'], .leaf ['T']] ∧
      ls2.length = ['A', 'O'].length + 1 ∧
      ps2.length = [Node.leaf ['T'], Node.leaf ['T']].length + 1 ∧
      edgeChild ls2 ps2 'U' = .leaf ['T'] ∧
      (∀ c, c ≠ 'U' → edgeChild ls2 ps2 c
        = edgeChild ['A', 'O'] [.leaf ['T'], .leaf ['T']] c) ∧
      (∀ q, q ≠ ['C'] → q ≠ ['C'] ++ ['U'] →
        ownFields (nodeAt q (graft (.nonLeaf false ls2 ps2) ['C']
          (.nonLeaf false ['C'] [.nonLeaf false ['A', 'O'] [.leaf ['T'], .leaf ['T']]])))
          = ownFields (nodeAt q
              (.nonLeaf false ['C'] [.nonLeaf false ['A', 'O'] [.leaf ['T'], .leaf ['T']]]))) :=
  TrieInsert_absent_edge ['C']
    (.nonLeaf false ['C'] [.nonLeaf false ['A', 'O'] [.leaf ['T'], .leaf ['T']]])
    'U' ['T'] false ['A', 'O'] [.leaf ['T'], .leaf ['T']] rfl rfl rfl

/-! ## Minimality -/

theorem Compact_letters_ne {r e : Bool} {ls : List Char} {ps : List Node}
    (h : Compact r (.nonLeaf e ls ps)) : ls ≠ [] := by
  cases h with
  | nonLeaf _ _ _ _ h1 _ _ => exact h1

theorem Compact_child {r e : Bool} {ls : List Char} {ps : List Node}
    (h : Compact r (.nonLeaf e ls ps)) : ∀ c ∈ ps, Compact false c := by
  cases h with
  | nonLeaf _ _ _ _ _ _ h3 => exact h3

theorem Compact_single {e : Bool} {ls : List Char} {ps : List Node}
    (h : Compact false (.nonLeaf e ls ps)) (h1 : ls.length = 1) (h2 : e = false) :
    ∀ w, ptrAt ps 0 ≠ .leaf w := by
  cases h with
  | nonLeaf _ _ _ _ _ hc _ => exact hc rfl h1 h2

theorem mem_of_ptrAt (ps : List Node) (i : Nat) (h : ptrAt ps i ≠ .null) : ptrAt ps i ∈ ps := by
  have hi := ptrAt_lt_of_ne_null ps i h
  simp only [ptrAt, List.getD_eq_getElem?_getD, List.getElem?_eq_getElem hi, Option.getD_some]
  exact List.getElem_mem hi

/-- Putting a non-leaf in the slot of a letter keeps the invariant. -/
theorem Compact_set (r e : Bool) (ls : List Char) (ps : List Node) (ch : Char) (pos : Nat)
    (n : Node) (e1 : Bool) (l1 : List Char) (p1 : List Node)
    (h : Compact r (.nonLeaf e ls ps)) (hf : findLetter ch ls = some pos)
    (hpos : pos < ps.length) (hn : Compact false n) (hshape : n = .nonLeaf e1 l1 p1) :
    Compact r (.nonLeaf e ls (ps.set pos n)) := by
  refine Compact.nonLeaf r e ls _ (Compact_letters_ne h) ?_ ?_
  · intro _ hl _ w hw
    have hp0 : pos = 0 := by have := (findLetter_some_lt hf).1; omega
    subst hp0
    rw [ptrAt_set_self ps 0 n hpos, hshape] at hw
    cases hw
  · intro c hc
    rcases List.mem_or_eq_of_mem_set hc with hc | hc
    · exact Compact_child h c hc
    · rw [hc]; exact hn

theorem hoistChain_shape (cs : List Char) (e : Bool) (ls : List Char) (ps : List Node) :
    ∃ e1 l1 p1, hoistChain cs (.nonLeaf e ls ps) = .nonLeaf e1 l1 p1 := by
  cases cs with
  | nil => exact ⟨e, ls, ps, rfl⟩
  | cons c cs => exact ⟨false, [c], _, rfl⟩

theorem Compact_hoistChain (cs : List Char) (e : Bool) (ls : List Char) (ps : List Node)
    (h : Compact false (.nonLeaf e ls ps)) :
    Compact false (hoistChain cs (.nonLeaf e ls ps)) := by
  induction cs with
  | nil => exact h
  | cons c cs ih =>
    obtain ⟨e1, l1, p1, hs⟩ := hoistChain_shape cs e ls ps
    refine Compact.nonLeaf false false [c] _ (by simp) ?_ ?_
    · intro _ _ _ w hw
      simp only [ptrAt, List.getD_cons_zero] at hw
      rw [hs] at hw
      cases hw
    · intro x hx
      simp only [List.mem_singleton] at hx
      rw [hx]; exact ih

/-- The subtree that replaces a split leaf satisfies the invariant. -/
theorem Compact_splitTree (last : Char) (W T : List Char) (hne : T ≠ W) :
    Compact false (splitTree last W T) := by
  have hleaf : ∀ s : List Char, Compact false (.leaf s) := fun s => Compact.leaf false s
  have hnull : Compact false .null := Compact.null false
  rcases strings_trichotomy W T hne with ⟨t, ts, rfl⟩ | ⟨w, ws, rfl⟩ |
    ⟨c, w, ws, t, ts, rfl, rfl, hwt⟩
  · rw [splitTree_caseA]
    by_cases h1 : t = W.getLastD last
    · rw [if_pos h1]
      apply Compact_hoistChain
      refine Compact.nonLeaf false true _ _ (by simp) (fun _ _ h => by cases h) ?_
      intro x hx
      simp only [List.mem_singleton] at hx
      rw [hx]; exact hleaf ts
    · rw [if_neg h1]
      by_cases h2 : W.getLastD last < t
      · rw [if_pos h2]
        apply Compact_hoistChain
        refine Compact.nonLeaf false true _ _ (by simp) (fun _ _ h => by cases h) ?_
        intro x hx
        simp only [List.mem_cons, List.mem_singleton, List.not_mem_nil, or_false] at hx
        rcases hx with hx | hx
        · rw [hx]; exact hnull
        · rw [hx]; exact hleaf ts
      · rw [if_neg h2]
        apply Compact_hoistChain
        refine Compact.nonLeaf false true _ _ (by simp) (fun _ _ h => by cases h) ?_
        intro x hx
        simp only [List.mem_cons, List.mem_singleton, List.not_mem_nil, or_false] at hx
        rcases hx with hx | hx
        · rw [hx]; exact hleaf ts
        · rw [hx]; exact hnull
  · rw [splitTree_caseB]
    apply Compact_hoistChain
    refine Compact.nonLeaf false true _ _ (by simp) (fun _ _ h => by cases h) ?_
    intro x hx
    simp only [List.mem_singleton] at hx
    rw [hx]; exact hleaf ws
  · rw [splitTree_caseC last c w t ws ts hwt]
    apply Compact_hoistChain
    refine Compact.nonLeaf false false _ _ ?_ ?_ ?_
    · by_cases hlt : w < t <;> simp [hlt]
    · intro _ hl
      by_cases hlt : w < t <;> simp [hlt] at hl
    · intro x hx
      by_cases hlt : w < t
      · simp only [hlt, if_true, List.mem_cons, List.mem_singleton, List.not_mem_nil,
          or_false] at hx
        rcases hx with hx | hx
        · rw [hx]; exact hleaf ws
        · rw [hx]; exact hleaf ts
      · simp only [hlt, if_false, List.mem_cons, List.mem_singleton, List.not_mem_nil,
          or_false] at hx
        rcases hx with hx | hx
        · rw [hx]; exact hleaf ts
        · rw [hx]; exact hleaf ws

/-- A completed insert keeps the minimality invariant, at the root and below. -/
theorem Compact_TrieInsert (w : List Char) (r : Bool) (p t2 : Node) (hwf : WellFormed p)
    (hc : Compact r p) (h : TrieInsert w p = some t2) : Compact r t2 := by
  induction w generalizing r p t2 with
  | nil =>
    obtain ⟨⟨e, ls, ps, rfl⟩, _⟩ := TrieInsert_shape _ _ _ h
    simp only [TrieInsert, Option.some.injEq] at h
    rw [← h]
    exact Compact.nonLeaf r true ls ps (Compact_letters_ne hc) (fun _ _ h => by cases h) (Compact_child hc)
  | cons ch rest ih =>
    obtain ⟨⟨e, ls, ps, rfl⟩, _⟩ := TrieInsert_shape _ _ _ h
    cases hf : findLetter ch ls with
    | none =>
      simp only [TrieInsert, Position, hf, Option.some.injEq] at h
      rw [← h, CreateLeaf_new ch rest e ls ps hf hwf.length_eq]
      have hl : 0 < ls.length := List.length_pos.mpr (Compact_letters_ne hc)
      refine Compact.nonLeaf r e _ _ ?_ ?_ ?_
      · intro hnil
        have := congrArg List.length hnil
        simp [insertAt_length] at this
      · intro _ h1
        simp only [insertAt_length] at h1
        omega
      · intro c hcm
        rcases (mem_insertAt _ _ _ _).mp hcm with hcm | hcm
        · rw [hcm]; exact Compact.leaf false rest
        · exact Compact_child hc c hcm
    | some pos =>
      cases hp : ptrAt ps pos with
      | null => simp [TrieInsert, Position, hf, hp] at h
      | leaf lfword =>
        have hpos : pos < ps.length := ptrAt_lt_of_ne_null ps pos (by rw [hp]; simp)
        by_cases heq : lfword = rest
        · simp only [TrieInsert, Position, hf, hp, if_pos heq, Option.some.injEq] at h
          rw [← h]; exact hc
        · rw [TrieInsert_split ch rest lfword e ls ps pos hf hp heq] at h
          simp only [Option.some.injEq] at h
          rw [← h]
          obtain ⟨e1, l1, p1, hs⟩ := splitTree_shape ch rest lfword
          exact Compact_set r e ls ps ch pos _ e1 l1 p1 hc hf hpos
            (Compact_splitTree ch rest lfword heq) hs
      | nonLeaf e1 l1 p1 =>
        have hpos : pos < ps.length := ptrAt_lt_of_ne_null ps pos (by rw [hp]; simp)
        have hmem : Node.nonLeaf e1 l1 p1 ∈ ps := by
          rw [← hp]; exact mem_of_ptrAt ps pos (by rw [hp]; simp)
        simp only [TrieInsert, Position, hf, hp, Option.map_eq_some'] at h
        obtain ⟨n, hn, hn2⟩ := h
        rw [← hn2]
        obtain ⟨e2, l2, p2, hs⟩ := (TrieInsert_shape rest _ n hn).2
        exact Compact_set r e ls ps ch pos n e2 l2 p2 hc hf hpos
          (ih false _ n (hwf.child _ hmem) (Compact_child hc _ hmem) hn) hs

theorem bootstrap_shape (w : List Char) :
    bootstrap w = .nonLeaf false [charAt w 0] [.leaf (w.drop 1)] := by
  simp [bootstrap, CreateNonLeaf, CreateLeaf, Position, findLetter, setPtr]

theorem Compact_bootstrap (w : List Char) : Compact true (bootstrap w) := by
  rw [bootstrap_shape]
  refine Compact.nonLeaf true false _ _ (by simp) (fun h => by cases h) ?_
  intro x hx
  simp only [List.mem_singleton] at hx
  rw [hx]; exact Compact.leaf false _

theorem Compact_insertAll (ws : List (List Char)) (t t2 : Node) (hwf : WellFormed t)
    (hc : Compact true t) (h : insertAll ws t = some t2) : Compact true t2 := by
  induction ws generalizing t with
  | nil =>
    simp only [insertAll, Option.some.injEq] at h
    rw [← h]; exact hc
  | cons w ws ih =>
    unfold insertAll at h
    cases hi : TrieInsert w t with
    | none => simp [hi] at h
    | some t1 =>
      simp only [hi] at h
      exact ih t1 (WellFormed_TrieInsert w t t1 hwf hi)
        (Compact_TrieInsert w true t t1 hwf hc hi) h

theorem Compact_buildTrie (ws : List (List Char)) (t : Node)
    (h : buildTrie ws = some t) : Compact true t := by
  cases ws with
  | nil => simp [buildTrie] at h
  | cons w ws =>
    exact Compact_insertAll ws _ t (WellFormed_bootstrap w) (Compact_bootstrap w) h

theorem Compact_subnode {n c : Node} (hc : Compact false c) (h : Subnode n c) :
    Compact false n := by
  induction h with
  | here => exact hc
  | under e ls ps x hx _ ih => exact ih (Compact_child hc x hx)

/-- C12: in every tree built by the bootstrap on a first word followed by
`TrieInsert` of any sequence of words (`buildTrie` on any list for which the
build completes), no non-leaf below the root (a node in or below one of the
child slots of the root) has exactly one edge letter, `EndOfWord` unset, and a
leaf as the child in the slot of that single letter. -/
theorem buildTrie_minimal (ws : List (List Char)) (t : Node) (hb : buildTrie ws = some t)
    (e0 : Bool) (l0 : List Char) (p0 : List Node)
    (ht : t = .nonLeaf e0 l0 p0) (c : Node) (hc : c ∈ p0) (e : Bool) (ls : List Char)
    (ps : List Node) (hn : Subnode (.nonLeaf e ls ps) c) :
    ¬ (ls.length = 1 ∧ e = false ∧ ∃ w, ptrAt ps 0 = .leaf w) := by
  rintro ⟨h1, h2, w, hw⟩
  subst ht
  exact Compact_single (Compact_subnode (Compact_child (Compact_buildTrie ws _ hb) c hc) hn)
    h1 h2 w hw

/-- C12, witness: the tree built from CARE then CART, at the hoisted non-leaf
with the single letter R below the root's child: its only child is a non-leaf,
not a leaf. -/
theorem buildTrie_minimal_witness :
    ¬ (['R'].length = 1 ∧ false = false ∧
      ∃ w, ptrAt [Node.nonLeaf false ['E', 'T'] [.leaf [], .leaf []]] 0 = .leaf w) :=
  buildTrie_minimal ["CARE".toList, "CART".toList]
    (.nonLeaf false ['C'] [.nonLeaf false ['A'] [.nonLeaf false ['R']
      [.nonLeaf false ['E', 'T'] [.leaf [], .leaf []]]]])
    rfl false ['C'] _ rfl
    (.nonLeaf false ['A'] [.nonLeaf false ['R'] [.nonLeaf false ['E', 'T'] [.leaf [], .leaf []]]])
    (List.mem_singleton_self _)
    false ['R'] [.nonLeaf false ['E', 'T'] [.leaf [], .leaf []]]
    (Subnode.under _ _ _ _ (List.mem_singleton_self _) Subnode.here)

/-! ## A smaller limit only truncates -/

theorem add_suggestion_extends (b : SuggestBox) (w : List Char) :
    b.items <+: (add_suggestion b w).items := by
  unfold add_suggestion
  split
  · exact List.prefix_refl _
  · split
    · exact List.prefix_refl _
    · exact List.prefix_append _ _

theorem Reach_extends {Q : List Char → Prop} {b0 b : SuggestBox} (h : Reach Q b0 b) :
    b0.items <+: b.items := by
  obtain ⟨added, -, h2⟩ := h
  subst h2
  induction added using List.reverseRecOn with
  | nil => exact List.prefix_refl _
  | append_singleton added w ih =>
    rw [List.foldl_append]
    simp only [List.foldl_cons, List.foldl_nil]
    exact ih.trans (add_suggestion_extends _ w)

/-- Once the run with the smaller limit has returned with a full box, whatever
the other run still adds leaves its first `L` entries as they are. -/
theorem Truncates_full (L L2 : Nat) (a b0 : SuggestBox) (r : Run) (hfull : L ≤ a.count)
    (hitems : a.items = b0.items.take L)
    (hr : Run.Holds (Reach (fun _ => True) b0) r) : Truncates L L2 (.done a) r := by
  have hlen : L ≤ b0.items.length := by
    have h1 : a.count = (b0.items.take L).length := by rw [SuggestBox.count, hitems]
    rw [List.length_take] at h1
    omega
  have key : ∀ b, Reach (fun _ => True) b0 b → a.items = b.items.take L := by
    intro b hb
    obtain ⟨t, ht⟩ := Reach_extends hb
    rw [hitems, ← ht, List.take_append_of_le_length hlen]
  cases r with
  | done b => exact Or.inr ⟨hfull, key b hr⟩
  | fault b => exact ⟨hfull, key b hr⟩
  | outOfFuel => exact hr

theorem InStep_count {L L2 : Nat} {a b : SuggestBox} (h : InStep L L2 a b) :
    b.count = a.count := by
  simp only [SuggestBox.count, h.1]

theorem tracks_done (L L2 : Nat) : Tracks L L2 Run.done Run.done :=
  ⟨fun _ _ h => Or.inl h, fun _ _ h => h⟩

theorem tracks_fault (L L2 : Nat) : Tracks L L2 Run.fault Run.fault :=
  ⟨fun _ _ h => h, fun _ _ h => h⟩

theorem tracks_add (L L2 : Nat) (hL : L ≤ L2) (w : List Char) :
    Tracks L L2 (fun a => .done (add_suggestion a w)) (fun b => .done (add_suggestion b w)) := by
  refine ⟨?_, fun _ _ h => h.add w trivial⟩
  intro a b h
  obtain ⟨h1, h2, h3, h4⟩ := h
  have h5 : b.count < L2 := by
    have : b.count = a.count := by simp only [SuggestBox.count, h1]
    omega
  show InStep L L2 (add_suggestion a w) (add_suggestion b w) ∨ _
  by_cases hw : w ∈ b.items
  · have hwa : w ∈ a.items := by rw [h1]; exact hw
    left
    simp only [add_suggestion, hw, hwa, if_true]
    exact ⟨h1, h2, h3, h4⟩
  · have hwa : w ∉ a.items := by rw [h1]; exact hw
    have ha : ¬ a.count ≥ a.cap := by omega
    have hb : ¬ b.count ≥ b.cap := by omega
    simp only [add_suggestion, hw, hwa, ha, hb, if_false]
    by_cases hfull : a.count + 1 < L
    · left
      refine ⟨by simp [h1], h2, h3, ?_⟩
      simpa [SuggestBox.count] using hfull
    · right
      simp only [SuggestBox.count, List.length_append, List.length_singleton] at hfull h4 ⊢
      refine ⟨by omega, ?_⟩
      rw [h1, List.take_of_length_le]
      simp only [List.length_append, List.length_singleton]
      rw [← h1]
      omega

/-- The two runs pass a guarded block in step, or the run with the smaller
limit leaves at the `return` after the block while the other goes on. -/
theorem tracks_guarded (L L2 : Nat) (hL : L ≤ L2) (cond : Bool)
    (bodyA bodyB kA kB : SuggestBox → Run)
    (hb : cond = true → Tracks L L2 bodyA bodyB) (hk : Tracks L L2 kA kB) :
    Tracks L L2 (fun box => guarded cond L bodyA box kA)
      (fun box => guarded cond L2 bodyB box kB) := by
  constructor
  · intro a b hin
    show Truncates L L2 (guarded cond L bodyA a kA) (guarded cond L2 bodyB b kB)
    unfold guarded
    cases cond with
    | false => simpa using hk.1 a b hin
    | true =>
      have hb2 := (hb rfl).1 a b hin
      simp only [if_true]
      cases hA : bodyA a with
      | done a1 =>
        cases hB : bodyB b with
        | done b1 =>
          rw [hA, hB] at hb2
          rcases hb2 with h | h
          · have h1 : ¬ a1.count ≥ L := by have := h.2.2.2; omega
            have h2 : ¬ b1.count ≥ L2 := by
              have := InStep_count h
              have := h.2.2.2
              omega
            simp only [h1, h2, if_false]
            exact hk.1 a1 b1 h
          · have h1 : a1.count ≥ L := h.1
            simp only [h1, if_true]
            by_cases h2 : b1.count ≥ L2
            · simp only [h2, if_true]
              exact Or.inr h
            · simp only [h2, if_false]
              exact Truncates_full L L2 a1 b1 _ h.1 h.2 (hk.2 b1 b1 (Reach_refl _ _))
        | fault b1 =>
          rw [hA, hB] at hb2
          have h1 : a1.count ≥ L := hb2.1
          simp only [h1, if_true]
          exact hb2
        | outOfFuel => rw [hA, hB] at hb2; exact absurd hb2 id
      | fault a1 =>
        cases hB : bodyB b with
        | done b1 => rw [hA, hB] at hb2; exact absurd hb2 id
        | fault b1 => rw [hA, hB] at hb2; exact hb2
        | outOfFuel => rw [hA, hB] at hb2; exact absurd hb2 id
      | outOfFuel =>
        cases hB : bodyB b with
        | done b1 => rw [hA, hB] at hb2; exact absurd hb2 id
        | fault b1 => rw [hA, hB] at hb2; exact absurd hb2 id
        | outOfFuel => rw [hA, hB] at hb2; exact absurd hb2 id
  · intro b0 b hb0
    exact guarded_holds cond L2 bodyB b kB hb0 (fun hc => (hb hc).2 b0 b hb0)
      (fun b1 hb1 => hk.2 b0 b1 hb1)

theorem tracks_visitChild (L L2 : Nat) (hL : L ≤ L2)
    (recA recB : Node → List Char → List Char → Nat → SuggestBox → Run)
    (child : Node) (inp pre : List Char) (edits : Nat)
    (hrec : Tracks L L2 (recA child inp pre edits) (recB child inp pre edits)) :
    Tracks L L2 (visitChild recA child inp pre edits) (visitChild recB child inp pre edits) := by
  cases child with
  | null => exact tracks_fault L L2
  | leaf lfword =>
    by_cases ht : tailWithinOneEdit lfword inp edits = true
    · have h := tracks_add L L2 hL (pre ++ lfword)
      refine ⟨fun a b hin => ?_, fun b0 b hb => ?_⟩
      · simpa [visitChild, ht, emit_word_from_prefix_and_leaf] using h.1 a b hin
      · simpa [visitChild, ht, emit_word_from_prefix_and_leaf] using h.2 b0 b hb
    · have h := tracks_done L L2
      refine ⟨fun a b hin => ?_, fun b0 b hb => ?_⟩
      · simpa [visitChild, ht] using h.1 a b hin
      · simpa [visitChild, ht] using h.2 b0 b hb
  | nonLeaf e ls ps => exact hrec

theorem tracks_dfsLoop (L L2 : Nat) (hL : L ≤ L2)
    (recA recB : Node → List Char → List Char → Nat → SuggestBox → Run)
    (ps : List Node) (inp pre : List Char) (edits : Nat) (hedits : edits ≤ 1)
    (hrec : ∀ c i q e2, fuelNeeded i e2 < fuelNeeded inp edits → e2 ≤ 1 →
      Tracks L L2 (recA c i q e2) (recB c i q e2))
    (kA kB : SuggestBox → Run) (hk : Tracks L L2 kA kB) (edges : List Char) (i : Nat) :
    Tracks L L2 (dfsLoop recA ps inp pre edits L kA edges i)
      (dfsLoop recB ps inp pre edits L2 kB edges i) := by
  induction edges generalizing i with
  | nil =>
    exact ⟨fun a b h => by simpa [dfsLoop] using hk.1 a b h,
      fun b0 b h => by simpa [dfsLoop] using hk.2 b0 b h⟩
  | cons edge edges ih =>
    have T := tracks_guarded L L2 hL (decide (inp ≠ [] ∧ charAt inp 0 = edge))
      (visitChild recA (ptrAt ps i) (inp.drop 1) (pre ++ [edge]) edits)
      (visitChild recB (ptrAt ps i) (inp.drop 1) (pre ++ [edge]) edits)
      _ _
      (fun hc => by
        simp only [decide_eq_true_eq] at hc
        obtain ⟨x, inp2, rfl⟩ := List.exists_cons_of_ne_nil hc.1
        exact tracks_visitChild L L2 hL recA recB _ _ _ _
          (hrec _ _ _ _ (by simp [fuelNeeded]) hedits))
      (tracks_guarded L L2 hL (decide (edits = 0 ∧ inp ≠ [] ∧ charAt inp 0 ≠ edge))
        (visitChild recA (ptrAt ps i) (inp.drop 1) (pre ++ [edge]) 1)
        (visitChild recB (ptrAt ps i) (inp.drop 1) (pre ++ [edge]) 1)
        _ _
        (fun hc => by
          simp only [decide_eq_true_eq] at hc
          obtain ⟨he0, hne, _⟩ := hc
          obtain ⟨x, inp2, rfl⟩ := List.exists_cons_of_ne_nil hne
          exact tracks_visitChild L L2 hL recA recB _ _ _ _
            (hrec _ _ _ _ (by simp [fuelNeeded, he0]) (Nat.le_refl 1)))
        (tracks_guarded L L2 hL (decide (edits = 0))
          (visitChild recA (ptrAt ps i) inp (pre ++ [edge]) 1)
          (visitChild recB (ptrAt ps i) inp (pre ++ [edge]) 1)
          _ _
          (fun hc => by
            simp only [decide_eq_true_eq] at hc
            exact tracks_visitChild L L2 hL recA recB _ _ _ _
              (hrec _ _ _ _ (by simp [fuelNeeded, hc]) (Nat.le_refl 1)))
          (ih (i + 1))))
    constructor
    · intro a b hin
      have h1 : ¬ a.count ≥ L := by have := hin.2.2.2; omega
      have h2 : ¬ b.count ≥ L2 := by
        have := InStep_count hin
        have := hin.2.2.2
        omega
      unfold dfsLoop
      simp only [h1, h2, if_false]
      exact T.1 a b hin
    · intro b0 b hb
      unfold dfsLoop
      by_cases h2 : b.count ≥ L2
      · simp only [h2, if_true]
        exact hk.2 b0 b hb
      · simp only [h2, if_false]
        exact T.2 b0 b hb

theorem tracks_transposeMove (L L2 : Nat) (hL : L ≤ L2)
    (recA recB : Node → List Char → List Char → Nat → SuggestBox → Run)
    (p : Node) (inp pre : List Char) (edits : Nat)
    (hrec : ∀ c i q e2, fuelNeeded i e2 < fuelNeeded inp edits → e2 ≤ 1 →
      Tracks L L2 (recA c i q e2) (recB c i q e2)) :
    Tracks L L2 (transposeMove recA p inp pre edits) (transposeMove recB p inp pre edits) := by
  have hdone := tracks_done L L2
  have hadd := tracks_add L L2 hL
  have key : ∀ a b b0 b1,
      (InStep L L2 a b → Truncates L L2 (transposeMove recA p inp pre edits a)
        (transposeMove recB p inp pre edits b)) ∧
      (Reach (fun _ => True) b0 b1 →
        Run.Holds (Reach (fun _ => True) b0) (transposeMove recB p inp pre edits b1)) := by
    intro a b b0 b1
    unfold transposeMove
    cases p with
    | null => exact ⟨fun h => (tracks_fault L L2).1 a b h, fun h => h⟩
    | leaf w => exact ⟨fun h => (tracks_fault L L2).1 a b h, fun h => h⟩
    | nonLeaf e ls ps =>
      simp only
      by_cases hcond : edits = 0 ∧ inp ≠ [] ∧ inp.drop 1 ≠ []
      · simp only [hcond, not_false_eq_true, and_self, if_true, ne_eq]
        obtain ⟨he0, hne, hne2⟩ := hcond
        subst he0
        obtain ⟨x, inp1, rfl⟩ := List.exists_cons_of_ne_nil hne
        obtain ⟨y, rest, hrest⟩ := List.exists_cons_of_ne_nil hne2
        simp only [List.drop_succ_cons, List.drop_zero] at hrest
        subst hrest
        have hc0 : charAt (x :: y :: rest) 0 = x := rfl
        have hc1 : charAt (x :: y :: rest) 1 = y := rfl
        have hd2 : (x :: y :: rest).drop 2 = rest := rfl
        rw [hc0, hc1, hd2]
        simp only [Position]
        cases hf1 : findLetter y ls with
        | none => exact ⟨fun h => hdone.1 a b h, fun h => h⟩
        | some pos1 =>
          simp only
          cases hp1 : ptrAt ps pos1 with
          | null => exact ⟨fun h => hdone.1 a b h, fun h => h⟩
          | leaf lf1word =>
            simp only
            by_cases h0 : charAt lf1word 0 = x
            · simp only [h0, if_true]
              by_cases ht : tailWithinOneEdit (lf1word.drop 1) rest 1 = true
              · simp only [ht, if_true, emit_word_from_prefix_and_leaf]
                exact ⟨fun h => (hadd _).1 a b h, fun h => (hadd _).2 b0 b1 h⟩
              · simp only [ht]
                exact ⟨fun h => hdone.1 a b h, fun h => h⟩
            · simp only [h0, if_false]
              exact ⟨fun h => hdone.1 a b h, fun h => h⟩
          | nonLeaf e1 l1 ptrs1 =>
            simp only
            cases hf2 : findLetter x l1 with
            | none => exact ⟨fun h => hdone.1 a b h, fun h => h⟩
            | some pos2 =>
              simp only
              cases hp2 : ptrAt ptrs1 pos2 with
              | null => exact ⟨fun h => hdone.1 a b h, fun h => h⟩
              | leaf lf2word =>
                simp only
                by_cases ht : tailWithinOneEdit lf2word rest 1 = true
                · simp only [ht, if_true, emit_word_from_prefix_and_leaf]
                  exact ⟨fun h => (hadd _).1 a b h, fun h => (hadd _).2 b0 b1 h⟩
                · simp only [ht]
                  exact ⟨fun h => hdone.1 a b h, fun h => h⟩
              | nonLeaf e2 l2 ptrs2 =>
                simp only
                have hr := hrec (.nonLeaf e2 l2 ptrs2) rest (pre ++ [y, x]) 1
                  (by simp only [fuelNeeded, List.length_cons]; omega) (Nat.le_refl 1)
                exact ⟨fun h => hr.1 a b h, fun h => hr.2 b0 b1 h⟩
      · simp only [hcond, if_false]
        exact ⟨fun h => hdone.1 a b h, fun h => h⟩
  exact ⟨fun a b h => (key a b a b).1 h, fun b0 b1 h => (key b1 b1 b0 b1).2 h⟩

/-- The two runs of `dfsSuggest`, from boxes in step and with enough fuel:
neither runs out of fuel, and they end as `Truncates` says. -/
theorem tracks_dfsSuggest (L L2 : Nat) (hL : L ≤ L2) (fuel : Nat) (p : Node)
    (inp pre : List Char) (edits : Nat) (hedits : edits ≤ 1)
    (hfuel : fuelNeeded inp edits ≤ fuel) :
    Tracks L L2 (fun a => dfsSuggest fuel p inp pre edits a L)
      (fun b => dfsSuggest fuel p inp pre edits b L2) := by
  induction fuel generalizing p inp pre edits with
  | zero => simp only [fuelNeeded] at hfuel; omega
  | succ fuel ih =>
    have hrec : ∀ c i q e2, fuelNeeded i e2 < fuelNeeded inp edits → e2 ≤ 1 →
        Tracks L L2 (fun a => dfsSuggest fuel c i q e2 a L)
          (fun b => dfsSuggest fuel c i q e2 b L2) := by
      intro c i q e2 h1 h2
      exact ih c i q e2 h2 (by omega)
    have T : ∀ eow letters ptrs, Tracks L L2
        (fun box => guarded (decide (inp = []) && eow) L
          (fun b => .done (add_suggestion b pre)) box fun box =>
          guarded (decide (edits = 0 ∧ inp ≠ [])) L
            (fun b => dfsSuggest fuel (.nonLeaf eow letters ptrs) (inp.drop 1) pre 1 b L)
            box fun box =>
          dfsLoop (fun c i q e b => dfsSuggest fuel c i q e b L) ptrs inp pre edits L
            (fun box => transposeMove (fun c i q e b => dfsSuggest fuel c i q e b L)
              (.nonLeaf eow letters ptrs) inp pre edits box) letters 0 box)
        (fun box => guarded (decide (inp = []) && eow) L2
          (fun b => .done (add_suggestion b pre)) box fun box =>
          guarded (decide (edits = 0 ∧ inp ≠ [])) L2
            (fun b => dfsSuggest fuel (.nonLeaf eow letters ptrs) (inp.drop 1) pre 1 b L2)
            box fun box =>
          dfsLoop (fun c i q e b => dfsSuggest fuel c i q e b L2) ptrs inp pre edits L2
            (fun box => transposeMove (fun c i q e b => dfsSuggest fuel c i q e b L2)
              (.nonLeaf eow letters ptrs) inp pre edits box) letters 0 box) := by
      intro eow letters ptrs
      exact tracks_guarded L L2 hL (decide (inp = []) && eow) _ _ _ _
        (fun _ => tracks_add L L2 hL pre)
        (tracks_guarded L L2 hL (decide (edits = 0 ∧ inp ≠ [])) _ _ _ _
          (fun hc => by
            simp only [decide_eq_true_eq] at hc
            obtain ⟨x, inp2, rfl⟩ := List.exists_cons_of_ne_nil hc.2
            exact hrec _ _ _ _ (by simp [fuelNeeded, hc.1]) (Nat.le_refl 1))
          (tracks_dfsLoop L L2 hL
            (fun c i q e b => dfsSuggest fuel c i q e b L)
            (fun c i q e b => dfsSuggest fuel c i q e b L2)
            ptrs inp pre edits hedits hrec _ _
            (tracks_transposeMove L L2 hL
              (fun c i q e b => dfsSuggest fuel c i q e b L)
              (fun c i q e b => dfsSuggest fuel c i q e b L2)
              (.nonLeaf eow letters ptrs) inp pre edits hrec)
            letters 0))
    constructor
    · intro a b hin
      have h1 : ¬ a.count ≥ L := by have := hin.2.2.2; omega
      have h2 : ¬ b.count ≥ L2 := by
        have := InStep_count hin
        have := hin.2.2.2
        omega
      show Truncates L L2 (dfsSuggest (fuel + 1) p inp pre edits a L)
        (dfsSuggest (fuel + 1) p inp pre edits b L2)
      unfold dfsSuggest
      simp only [h1, h2, if_false]
      cases p with
      | null => exact hin
      | leaf w => exact hin
      | nonLeaf eow letters ptrs => exact (T eow letters ptrs).1 a b hin
    · intro b0 b hb
      show Run.Holds _ (dfsSuggest (fuel + 1) p inp pre edits b L2)
      unfold dfsSuggest
      by_cases h2 : b.count ≥ L2
      · simp only [h2, if_true]
        exact hb
      · simp only [h2, if_false]
        cases p with
        | null => exact hb
        | leaf w => exact hb
        | nonLeaf eow letters ptrs => exact (T eow letters ptrs).2 b0 b hb

/-- C20: for every tree, query and limits `L ≤ L2`, both searches end with a
box (returning, or faulting on a NULL child), and the entries found with the
limit `L` are exactly the first `L` entries, in the same order, of those found
with the limit `L2` (all of them when there are fewer than `L`, so
`min L n` entries); and when the search with the limit `L2` returns, so does
the search with the limit `L`. -/
theorem SuggestCorrections_limit_truncates (root : Node) (q : List Char) (L L2 : Nat)
    (hL : L ≤ L2) :
    ∃ a b, (SuggestCorrections root q L).box? = some a ∧
      (SuggestCorrections root q L2).box? = some b ∧
      a.items = b.items.take L ∧ a.items.length = min L b.items.length ∧
      (∀ b2, SuggestCorrections root q L2 = .done b2 →
        SuggestCorrections root q L = .done a) := by
  have T := tracks_dfsSuggest L L2 hL (q.length + 2) root q [] 0 (by omega)
    (by simp [fuelNeeded])
  have hB := (T.2 { items := [], cap := L2 } _ (Reach_refl _ _)).box
  obtain ⟨b, hb, _⟩ := hB
  by_cases h0 : L = 0
  · subst h0
    refine ⟨{ items := [], cap := 0 }, b, ?_, hb, by simp, by simp, ?_⟩
    · simp [SuggestCorrections, dfsSuggest, SuggestBox.count, Run.box?]
    · intro _ _
      simp [SuggestCorrections, dfsSuggest, SuggestBox.count]
  · have hin : InStep L L2 { items := [], cap := L } { items := [], cap := L2 } :=
      ⟨rfl, rfl, rfl, by simp only [SuggestBox.count, List.length_nil]; omega⟩
    have hT := T.1 _ _ hin
    have hA : SuggestCorrections root q L
        = dfsSuggest (q.length + 2) root q [] 0 { items := [], cap := L } L := rfl
    have hB2 : SuggestCorrections root q L2
        = dfsSuggest (q.length + 2) root q [] 0 { items := [], cap := L2 } L2 := rfl
    rw [hA, hB2]
    simp only at hT
    cases hrA : dfsSuggest (q.length + 2) root q [] 0 { items := [], cap := L } L with
    | done a =>
      cases hrB : dfsSuggest (q.length + 2) root q [] 0 { items := [], cap := L2 } L2 with
      | done b1 =>
        rw [hrA, hrB] at hT
        have key : a.items = b1.items.take L := by
          rcases hT with h | h
          · rw [← h.1, List.take_of_length_le]
            have := h.2.2.2
            simp only [SuggestBox.count] at this
            omega
          · exact h.2
        exact ⟨a, b1, rfl, rfl, key, by rw [key, List.length_take], fun _ _ => rfl⟩
      | fault b1 =>
        rw [hrA, hrB] at hT
        exact ⟨a, b1, rfl, rfl, hT.2, by rw [hT.2, List.length_take], fun _ _ => rfl⟩
      | outOfFuel => rw [hrA, hrB] at hT; exact absurd hT id
    | fault a =>
      cases hrB : dfsSuggest (q.length + 2) root q [] 0 { items := [], cap := L2 } L2 with
      | done b1 => rw [hrA, hrB] at hT; exact absurd hT id
      | fault b1 =>
        rw [hrA, hrB] at hT
        have key : a.items = b1.items.take L := by
          rw [← hT.1, List.take_of_length_le]
          have := hT.2.2.2
          simp only [SuggestBox.count] at this
          omega
        exact ⟨a, b1, rfl, rfl, key, by rw [key, List.length_take],
          fun _ h => by cases h⟩
      | outOfFuel => rw [hrA, hrB] at hT; exact absurd hT id
    | outOfFuel =>
      rw [hrA] at hT
      cases hrB : dfsSuggest (q.length + 2) root q [] 0 { items := [], cap := L2 } L2 with
      | done b1 => rw [hrB] at hT; exact absurd hT id
      | fault b1 => rw [hrB] at hT; exact absurd hT id
      | outOfFuel => rw [hrB] at hT; exact absurd hT id

/-- C20, witness: the dictionary CAT, BAT, CART, COAT and the query CAAT, with
the limits 2 and 10. -/
theorem SuggestCorrections_limit_truncates_witness :
    ∃ a b,
      (SuggestCorrections (.nonLeaf false ['B', 'C'] [.leaf "AT".toList,
        .nonLeaf false ['A', 'O'] [.nonLeaf false ['R', 'T'] [.leaf ['T'], .leaf []],
          .leaf "AT".toList]]) "CAAT".toList 2).box? = some a ∧
      (SuggestCorrections (.nonLeaf false ['B', 'C'] [.leaf "AT".toList,
        .nonLeaf false ['A', 'O'] [.nonLeaf false ['R', 'T'] [.leaf ['T'], .leaf []],
          .leaf "AT".toList]]) "CAAT".toList 10).box? = some b ∧
      a.items = b.items.take 2 ∧ a.items.length = min 2 b.items.length ∧
      (∀ b2, SuggestCorrections (.nonLeaf false ['B', 'C'] [.leaf "AT".toList,
        .nonLeaf false ['A', 'O'] [.nonLeaf false ['R', 'T'] [.leaf ['T'], .leaf []],
          .leaf "AT".toList]]) "CAAT".toList 10 = .done b2 →
        SuggestCorrections (.nonLeaf false ['B', 'C'] [.leaf "AT".toList,
        .nonLeaf false ['A', 'O'] [.nonLeaf false ['R', 'T'] [.leaf ['T'], .leaf []],
          .leaf "AT".toList]]) "CAAT".toList 2 = .done a) :=
  SuggestCorrections_limit_truncates _ "CAAT".toList 2 10 (by decide)

/-! ## One mark per dictionary word -/

theorem marks_list (ps : List Node) :
    leafCountList ps + eowCountList ps = (ps.map marks).sum := by
  induction ps with
  | nil => simp [leafCountList, eowCountList]
  | cons c cs ih =>
    simp only [leafCountList, eowCountList, List.map_cons, List.sum_cons, marks, ← ih]
    omega

theorem marks_null : marks .null = 0 := by
  simp [marks, leafCount, eowCount]

theorem marks_leaf (w : List Char) : marks (.leaf w) = 1 := by
  simp [marks, leafCount, eowCount]

theorem marks_nonLeaf (e : Bool) (ls : List Char) (ps : List Node) :
    marks (.nonLeaf e ls ps) = (if e then 1 else 0) + (ps.map marks).sum := by
  rw [← marks_list]
  simp only [marks, leafCount, eowCount]
  omega

theorem sum_map_insertAt {α : Type} (f : α → Nat) (k : Nat) (x : α) (l : List α) :
    ((insertAt k x l).map f).sum = f x + (l.map f).sum := by
  have h : (l.map f).sum = ((l.take k).map f).sum + ((l.drop k).map f).sum := by
    rw [← List.sum_append, ← List.map_append, List.take_append_drop]
  simp only [insertAt, List.map_append, List.map_cons, List.sum_append, List.sum_cons, h]
  omega

theorem sum_map_set (f : Node → Nat) (ps : List Node) (pos : Nat) (n : Node)
    (hpos : pos < ps.length) :
    ((ps.set pos n).map f).sum + f (ptrAt ps pos) = (ps.map f).sum + f n := by
  induction ps generalizing pos with
  | nil => simp at hpos
  | cons c cs ih =>
    cases pos with
    | zero => simp [ptrAt]; omega
    | succ j =>
      have hj : j < cs.length := by simpa using hpos
      have := ih j hj
      simp only [ptrAt, List.getD_cons_succ, List.set_cons_succ, List.map_cons,
        List.sum_cons] at this ⊢
      omega

theorem marks_hoistChain (cs : List Char) (final : Node) :
    marks (hoistChain cs final) = marks final := by
  induction cs with
  | nil => simp [hoistChain]
  | cons c cs ih =>
    simp only [hoistChain, marks_nonLeaf, List.map_cons, List.map_nil, List.sum_cons,
      List.sum_nil, ih]
    simp

/-- The subtree that replaces a split leaf carries two marks: one for the old
word and one for the new word. -/
theorem marks_splitTree (last : Char) (W T : List Char) (hne : T ≠ W) :
    marks (splitTree last W T) = 2 := by
  rcases strings_trichotomy W T hne with ⟨t, ts, rfl⟩ | ⟨w, ws, rfl⟩ |
    ⟨c, w, ws, t, ts, rfl, rfl, hwt⟩
  · rw [splitTree_caseA, marks_hoistChain]
    by_cases h1 : t = W.getLastD last
    · rw [if_pos h1]
      simp [marks_nonLeaf, marks_leaf]
    · rw [if_neg h1]
      by_cases h2 : W.getLastD last < t
      · rw [if_pos h2]
        simp [marks_nonLeaf, marks_leaf, marks_null]
      · rw [if_neg h2]
        simp [marks_nonLeaf, marks_leaf, marks_null]
  · rw [splitTree_caseB, marks_hoistChain]
    simp [marks_nonLeaf, marks_leaf]
  · rw [splitTree_caseC last c w t ws ts hwt, marks_hoistChain]
    by_cases hlt : w < t <;> simp [hlt, marks_nonLeaf, marks_leaf]

/-- A completed insert adds one mark when the word was not in the tree, and
none when it was. -/
theorem marks_TrieInsert (w : List Char) (p t2 : Node) (hwf : WellFormed p)
    (h : TrieInsert w p = some t2) :
    marks t2 = marks p + (if SearchTrie p w = true then 0 else 1) := by
  induction w generalizing p t2 with
  | nil =>
    obtain ⟨⟨e, ls, ps, rfl⟩, _⟩ := TrieInsert_shape _ _ _ h
    simp only [TrieInsert, Option.some.injEq] at h
    rw [← h, SearchTrie_nil, marks_nonLeaf, marks_nonLeaf]
    cases e with
    | false => simp; omega
    | true => simp
  | cons ch rest ih =>
    obtain ⟨⟨e, ls, ps, rfl⟩, _⟩ := TrieInsert_shape _ _ _ h
    rw [SearchTrie_cons]
    cases hf : findLetter ch ls with
    | none =>
      simp only [TrieInsert, Position, hf, Option.some.injEq] at h
      rw [← h, CreateLeaf_new ch rest e ls ps hf hwf.length_eq, marks_nonLeaf, marks_nonLeaf,
        sum_map_insertAt, marks_leaf]
      simp only [edgeChild, hf, SearchTrie_null]
      simp
      omega
    | some pos =>
      have hedge : edgeChild ls ps ch = ptrAt ps pos := by simp [edgeChild, hf]
      rw [hedge]
      cases hp : ptrAt ps pos with
      | null => simp [TrieInsert, Position, hf, hp] at h
      | leaf lfword =>
        have hpos : pos < ps.length := ptrAt_lt_of_ne_null ps pos (by rw [hp]; simp)
        rw [SearchTrie_leaf]
        by_cases heq : lfword = rest
        · simp only [TrieInsert, Position, hf, hp, if_pos heq, Option.some.injEq] at h
          rw [← h]
          simp [heq]
        · rw [TrieInsert_split ch rest lfword e ls ps pos hf hp heq] at h
          simp only [Option.some.injEq] at h
          have hs := sum_map_set marks ps pos (splitTree ch rest lfword) hpos
          rw [hp, marks_leaf, marks_splitTree ch rest lfword heq] at hs
          have hne : ¬ rest = lfword := fun e2 => heq e2.symm
          rw [← h, marks_nonLeaf, marks_nonLeaf]
          simp only [hne, decide_False, Bool.false_eq_true, if_false]
          omega
      | nonLeaf e1 l1 p1 =>
        have hpos : pos < ps.length := ptrAt_lt_of_ne_null ps pos (by rw [hp]; simp)
        simp only [TrieInsert, Position, hf, hp, Option.map_eq_some'] at h
        obtain ⟨n, hn, hn2⟩ := h
        have hi := ih _ n (hp ▸ hwf.ptrAt pos) hn
        have hs := sum_map_set marks ps pos n hpos
        rw [hp] at hs
        rw [← hn2, marks_nonLeaf, marks_nonLeaf]
        omega

/-- Along a completed sequence of inserts the marks count the set of words
found in the tree. -/
theorem marks_insertAll (ws : List (List Char)) (t t2 : Node) (S : Finset (List Char))
    (hwf : WellFormed t) (hS : ∀ v, SearchTrie t v = true ↔ v ∈ S)
    (hc : marks t = S.card) (h : insertAll ws t = some t2) :
    marks t2 = (S ∪ ws.toFinset).card := by
  induction ws generalizing t S with
  | nil =>
    simp only [insertAll, Option.some.injEq] at h
    rw [← h]; simpa using hc
  | cons w ws ih =>
    unfold insertAll at h
    cases hi : TrieInsert w t with
    | none => simp [hi] at h
    | some t1 =>
      simp only [hi] at h
      have hm := marks_TrieInsert w t t1 hwf hi
      have hS1 : ∀ v, SearchTrie t1 v = true ↔ v ∈ insert w S := by
        intro v
        rw [SearchTrie_TrieInsert w t t1 hwf hi v]
        simp only [Bool.or_eq_true, decide_eq_true_eq, Finset.mem_insert, hS v]
        exact or_comm
      have hc1 : marks t1 = (insert w S).card := by
        by_cases hw : w ∈ S
        · rw [Finset.card_insert_of_mem hw, hm, if_pos ((hS w).mpr hw), hc]
          rfl
        · have hnf : ¬ SearchTrie t w = true := fun hh => hw ((hS w).mp hh)
          rw [Finset.card_insert_of_not_mem hw, hm, if_neg hnf, hc]
      have := ih t1 (insert w S) (WellFormed_TrieInsert w t t1 hwf hi) hS1 hc1 h
      rw [this]
      congr 1
      ext v
      simp only [Finset.mem_union, Finset.mem_insert, List.mem_toFinset, List.mem_cons]
      tauto

/-- C21: in every tree built by the bootstrap on a first non-empty word
followed by `TrieInsert` of any sequence of words (the build having
completed), the number of leaf nodes plus the number of non-leaf nodes with
`EndOfWord` set equals the number of distinct words of the list. -/
theorem buildTrie_word_count (w : List Char) (ws : List (List Char)) (t : Node)
    (hw : w ≠ []) (h : buildTrie (w :: ws) = some t) :
    leafCount t + eowCount t = (w :: ws).dedup.length := by
  have hS : ∀ v, SearchTrie (bootstrap w) v = true ↔ v ∈ ({w} : Finset (List Char)) := by
    intro v
    rw [buildTrie_search w [] (bootstrap w) hw rfl v]
    simp
  have hc : marks (bootstrap w) = ({w} : Finset (List Char)).card := by
    rw [bootstrap_shape, marks_nonLeaf]
    simp [marks_leaf]
  have hm := marks_insertAll ws (bootstrap w) t {w} (WellFormed_bootstrap w) hS hc h
  rw [← List.card_toFinset]
  show marks t = _
  rw [hm]
  congr 1
  ext v
  simp

/-- C21, witness: the dictionary CAT, CAR, CAT, CART, CA: two leaves and two
flags for four distinct words. -/
theorem buildTrie_word_count_witness :
    leafCount (.nonLeaf false ['C'] [.nonLeaf false ['A'] [.nonLeaf true ['R', 'T']
        [.nonLeaf true ['T'] [.leaf []], .leaf []]]])
      + eowCount (.nonLeaf false ['C'] [.nonLeaf false ['A'] [.nonLeaf true ['R', 'T']
        [.nonLeaf true ['T'] [.leaf []], .leaf []]]])
      = ("CAT".toList :: ["CAR".toList, "CAT".toList, "CART".toList, "CA".toList]).dedup.length :=
  buildTrie_word_count "CAT".toList ["CAR".toList, "CAT".toList, "CART".toList, "CA".toList]
    _ (by decide) rfl

/-! ## Adding a cell -/

theorem charAt_insertAt_lt (x : Char) (ls : List Char) (k i : Nat) (hi : i < k)
    (hk : k ≤ ls.length) : charAt (insertAt k x ls) i = charAt ls i := by
  unfold charAt insertAt
  rw [List.getD_eq_getElem?_getD, List.getD_eq_getElem?_getD,
    List.getElem?_append_left (by simp; omega), List.getElem?_take_of_lt hi]

theorem charAt_insertAt_self (x : Char) (ls : List Char) (k : Nat) (hk : k ≤ ls.length) :
    charAt (insertAt k x ls) k = x := by
  unfold charAt insertAt
  have h6 : (List.take k ls).length = k := by simp; omega
  rw [List.getD_eq_getElem?_getD, List.getElem?_append_right (by omega), h6]
  simp

theorem charAt_insertAt_ge (x : Char) (ls : List Char) (k i : Nat) (hi : k ≤ i)
    (hk : k ≤ ls.length) : charAt (insertAt k x ls) (i + 1) = charAt ls i := by
  unfold charAt insertAt
  have h6 : (List.take k ls).length = k := by simp; omega
  rw [List.getD_eq_getElem?_getD, List.getD_eq_getElem?_getD,
    List.getElem?_append_right (by omega), h6]
  obtain ⟨j, rfl⟩ : ∃ j, i = k + j := ⟨i - k, by omega⟩
  have h7 : k + j + 1 - k = j + 1 := by omega
  simp [h7]

/-- The position the scan of `CreateLeaf` stops at is the only one at which
the new letter keeps the letters strictly ascending. -/
theorem sortedPos_unique (ch : Char) (ls : List Char) (j : Nat) (hj : j ≤ ls.length)
    (h : (insertAt j ch ls).Pairwise (· < ·)) : j = sortedPos ch ls := by
  induction ls generalizing j with
  | nil =>
    have : j = 0 := by simpa using hj
    subst this; simp [sortedPos]
  | cons l ls ih =>
    cases j with
    | zero =>
      rw [insertAt_zero, List.pairwise_cons] at h
      have hlt : ch < l := h.1 l (by simp)
      have hn : ¬ l < ch := fun h2 => absurd (lt_trans hlt h2) (lt_irrefl _)
      simp [sortedPos, hn]
    | succ j =>
      rw [insertAt_succ_cons, List.pairwise_cons] at h
      have hlt : l < ch := h.1 ch ((mem_insertAt _ _ _ _).mpr (Or.inl rfl))
      have := ih j (by simpa using hj) h.2
      simp [sortedPos, hlt, this]

/-- C22: for a non-leaf with `n` edges (parallel arrays of length `n`) and
`stop ≤ n`, `AddCell(ch, p, stop)` leaves the flag as it is and yields `n + 1`
edges: the letters are the old letters with `ch` inserted at index `stop`, the
slot at `stop` is NULL, every index below `stop` keeps its letter and child,
and every old index from `stop` on has its letter and child one place further.
When the letters are strictly ascending and do not contain `ch`,
`CreateLeaf(ch, s, p)` inserts `ch` at an index `k` that keeps the letters
strictly ascending, `k` is the only such index, the slot `k` holds a leaf with
`s`, and every other edge leads to the child it led to. -/
theorem AddCell_CreateLeaf_insert (ch : Char) (e : Bool) (ls : List Char)
    (ps : List Node) (hlen : ls.length = ps.length) :
    (∀ stop, stop ≤ ls.length →
      ∃ ls2 ps2, AddCell ch (.nonLeaf e ls ps) stop = .nonLeaf e ls2 ps2 ∧
        ls2 = insertAt stop ch ls ∧
        ls2.length = ls.length + 1 ∧ ps2.length = ps.length + 1 ∧
        charAt ls2 stop = ch ∧ ptrAt ps2 stop = .null ∧
        (∀ i, i < stop → charAt ls2 i = charAt ls i ∧ ptrAt ps2 i = ptrAt ps i) ∧
        (∀ i, stop ≤ i → i < ls.length →
          charAt ls2 (i + 1) = charAt ls i ∧ ptrAt ps2 (i + 1) = ptrAt ps i)) ∧
    (∀ s, ls.Pairwise (· < ·) → ch ∉ ls →
      ∃ k ls2 ps2, CreateLeaf ch s (.nonLeaf e ls ps) = .nonLeaf e ls2 ps2 ∧
        k ≤ ls.length ∧ ls2 = insertAt k ch ls ∧ ps2 = insertAt k (.leaf s) ps ∧
        ls2.Pairwise (· < ·) ∧
        (∀ j, j ≤ ls.length → (insertAt j ch ls).Pairwise (· < ·) → j = k) ∧
        ptrAt ps2 k = .leaf s ∧ edgeChild ls2 ps2 ch = .leaf s ∧
        (∀ i, i < k → ptrAt ps2 i = ptrAt ps i) ∧
        (∀ i, k ≤ i → ptrAt ps2 (i + 1) = ptrAt ps i) ∧
        (∀ c, c ≠ ch → edgeChild ls2 ps2 c = edgeChild ls ps c)) := by
  constructor
  · intro stop hstop
    have hstop2 : stop ≤ ps.length := hlen ▸ hstop
    refine ⟨_, _, AddCell_eq ch e ls ps stop hlen hstop, rfl, insertAt_length _ _ _,
      insertAt_length _ _ _, charAt_insertAt_self ch ls stop hstop,
      ptrAt_insertAt_self .null ps stop hstop2, ?_, ?_⟩
    · intro i hi
      exact ⟨charAt_insertAt_lt ch ls stop i hi hstop, ptrAt_insertAt_lt .null ps stop i hi hstop2⟩
    · intro i hi _
      exact ⟨charAt_insertAt_ge ch ls stop i hi hstop, ptrAt_insertAt_ge .null ps stop i hi hstop2⟩
  · intro s hsorted hnew
    have hf : findLetter ch ls = none := (findLetter_eq_none_iff ch ls).mpr hnew
    have hk := sortedPos_le ch ls
    have hk2 : sortedPos ch ls ≤ ps.length := hlen ▸ hk
    refine ⟨sortedPos ch ls, _, _, CreateLeaf_new ch s e ls ps hf hlen, hk, rfl, rfl,
      pairwise_insertAt_sortedPos ch ls hsorted hnew,
      fun j hj hp => sortedPos_unique ch ls j hj hp,
      ptrAt_insertAt_self _ ps _ hk2, ?_,
      fun i hi => ptrAt_insertAt_lt _ ps _ i hi hk2,
      fun i hi => ptrAt_insertAt_ge _ ps _ i hi hk2, ?_⟩
    · rw [edgeChild_insertAt ls ps ch ch _ _ hf hlen hk]
      simp
    · intro c hc
      rw [edgeChild_insertAt ls ps ch c _ _ hf hlen hk]
      simp [hc]

/-- C22, witness: the letter B added to a non-leaf with the letters A and C,
at index 1. -/
theorem AddCell_CreateLeaf_insert_witness :
    (∃ ls2 ps2, AddCell 'B' (.nonLeaf false ['A', 'C'] [.leaf ['X'], .leaf ['Y']]) 1
        = .nonLeaf false ls2 ps2 ∧
      ls2 = insertAt 1 'B' ['A', 'C'] ∧
      ls2.length = ['A', 'C'].length + 1 ∧
      ps2.length = [Node.leaf ['X'], Node.leaf ['Y']].length + 1 ∧
      charAt ls2 1 = 'B' ∧ ptrAt ps2 1 = .null ∧
      (∀ i, i < 1 → charAt ls2 i = charAt ['A', 'C'] i ∧
        ptrAt ps2 i = ptrAt [.leaf ['X'], .leaf ['Y']] i) ∧
      (∀ i, 1 ≤ i → i < ['A', 'C'].length →
        charAt ls2 (i + 1) = charAt ['A', 'C'] i ∧
        ptrAt ps2 (i + 1) = ptrAt [.leaf ['X'], .leaf ['Y']] i)) ∧
    (∃ k ls2 ps2, CreateLeaf 'B' ['Z'] (.nonLeaf false ['A', 'C'] [.leaf ['X'], .leaf ['Y']])
        = .nonLeaf false ls2 ps2 ∧
      k ≤ ['A', 'C'].length ∧ ls2 = insertAt k 'B' ['A', 'C'] ∧
      ps2 = insertAt k (.leaf ['Z']) [.leaf ['X'], .leaf ['Y']] ∧
      ls2.Pairwise (· < ·) ∧
      (∀ j, j ≤ ['A', 'C'].length → (insertAt j 'B' ['A', 'C']).Pairwise (· < ·) → j = k) ∧
      ptrAt ps2 k = .leaf ['Z'] ∧ edgeChild ls2 ps2 'B' = .leaf ['Z'] ∧
      (∀ i, i < k → ptrAt ps2 i = ptrAt [.leaf ['X'], .leaf ['Y']] i) ∧
      (∀ i, k ≤ i → ptrAt ps2 (i + 1) = ptrAt [.leaf ['X'], .leaf ['Y']] i) ∧
      (∀ c, c ≠ 'B' → edgeChild ls2 ps2 c
        = edgeChild ['A', 'C'] [.leaf ['X'], .leaf ['Y']] c)) :=
  ⟨(AddCell_CreateLeaf_insert 'B' false ['A', 'C'] [.leaf ['X'], .leaf ['Y']] rfl).1 1
      (by decide),
    (AddCell_CreateLeaf_insert 'B' false ['A', 'C'] [.leaf ['X'], .leaf ['Y']] rfl).2 ['Z']
      (by decide) (by decide)⟩

/-! ## A split below any path -/

theorem nodeAt_append (path r : List Char) (root : Node) :
    nodeAt (path ++ r) root = nodeAt r (nodeAt path root) := by
  induction path generalizing root with
  | nil => simp [nodeAt]
  | cons c path ih =>
    cases root with
    | null => simp [nodeAt, nodeAt_null]
    | leaf w => simp [nodeAt, nodeAt_null]
    | nonLeaf e ls ps => simpa [nodeAt] using ih (edgeChild ls ps c)

/-- The descent of `TrieInsert`: when the path leads to a non-leaf, inserting
`path ++ w` at the root is inserting `w` at that non-leaf, and the result is
put back by rewriting the child slots along the path. -/
theorem TrieInsert_along_path (path : List Char) (root : Node) (w : List Char)
    (e : Bool) (ls : List Char) (ps : List Node) (n2 : Node)
    (hnode : nodeAt path root = .nonLeaf e ls ps)
    (h : TrieInsert w (.nonLeaf e ls ps) = some n2) :
    TrieInsert (path ++ w) root = some (graft n2 path root) := by
  induction path generalizing root with
  | nil =>
    simp only [nodeAt] at hnode
    subst hnode
    simpa [graft] using h
  | cons p0 path ih =>
    obtain ⟨e0, l0, ps0, pos, rfl, hf0, hpos, hn, e1, l1, p1, hc⟩ :=
      nodeAt_cons_nonLeaf p0 path root e ls ps hnode
    simp only [List.cons_append, TrieInsert, Position, hf0, hc, graft]
    rw [← hc, show path.append w = path ++ w from rfl, ih (ptrAt ps0 pos) hn]
    rfl

/-- Grafting at the end of a path leaves the fields of every node that is not
at or below the end of the path as they were. -/
theorem nodeAt_graft_off_path (path : List Char) (root n2 : Node) (e : Bool)
    (ls : List Char) (ps : List Node) (hnode : nodeAt path root = .nonLeaf e ls ps)
    (q : List Char) (hq : ¬ path <+: q) :
    ownFields (nodeAt q (graft n2 path root)) = ownFields (nodeAt q root) := by
  induction path generalizing root q with
  | nil => exact absurd List.nil_prefix hq
  | cons p0 path ih =>
    obtain ⟨e0, l0, ps0, pos, rfl, hf0, hpos, hn, e1, l1, p1, hc⟩ :=
      nodeAt_cons_nonLeaf p0 path root e ls ps hnode
    cases q with
    | nil => simp [graft, hf0, nodeAt, ownFields]
    | cons c q =>
      simp only [graft, hf0, nodeAt]
      rw [edgeChild_set_of_lt l0 ps0 p0 c pos _ hf0 hpos]
      by_cases hcp : c = p0
      · subst hcp
        simp only [if_true]
        have hq2 : ¬ path <+: q := fun hp => hq ((List.prefix_cons_inj c).mpr hp)
        have := ih (ptrAt ps0 pos) hn q hq2
        simpa [edgeChild, hf0] using this
      · simp [hcp]

/-- Replacing the child in one slot of the node at the end of a path leaves
the fields of every node that is not at or below that slot as they were. -/
theorem nodeAt_graft_slot (path : List Char) (root : Node) (ch : Char) (e : Bool)
    (ls : List Char) (ps : List Node) (pos : Nat) (n : Node)
    (hnode : nodeAt path root = .nonLeaf e ls ps) (hf : findLetter ch ls = some pos)
    (hpos : pos < ps.length) (q : List Char) (hq : ¬ (path ++ [ch]) <+: q) :
    ownFields (nodeAt q (graft (.nonLeaf e ls (ps.set pos n)) path root))
      = ownFields (nodeAt q root) := by
  by_cases hp : path <+: q
  · obtain ⟨r, rfl⟩ := hp
    rw [nodeAt_append, nodeAt_append, nodeAt_graft_self path root _ e ls ps hnode, hnode]
    cases r with
    | nil => simp [nodeAt, ownFields]
    | cons c r =>
      have hc : c ≠ ch := by
        intro hc
        subst hc
        exact hq ⟨r, by simp⟩
      simp only [nodeAt]
      rw [edgeChild_set_of_lt ls ps ch c pos n hf hpos, if_neg hc]
  · exact nodeAt_graft_off_path path root _ e ls ps hnode q hp

/-- The slot that is replaced, seen from the root. -/
theorem nodeAt_graft_slot_self (path : List Char) (root : Node) (ch : Char) (e : Bool)
    (ls : List Char) (ps : List Node) (pos : Nat) (n : Node)
    (hnode : nodeAt path root = .nonLeaf e ls ps) (hf : findLetter ch ls = some pos)
    (hpos : pos < ps.length) (r : List Char) :
    nodeAt (path ++ ch :: r) (graft (.nonLeaf e ls (ps.set pos n)) path root) = nodeAt r n := by
  rw [nodeAt_append, nodeAt_graft_self path root _ e ls ps hnode]
  simp only [nodeAt, edgeChild, hf]
  rw [ptrAt_set_self ps pos n hpos]

theorem branchCount_list (ps : List Node) :
    branchCountList ps = (ps.map branchCount).sum := by
  induction ps with
  | nil => simp [branchCountList]
  | cons c cs ih => simp [branchCountList, ih]

theorem branchCount_nonLeaf (e : Bool) (ls : List Char) (ps : List Node) :
    branchCount (.nonLeaf e ls ps) = (ps.map branchCount).sum + 1 := by
  simp [branchCount, branchCount_list]

/-- Grafting exchanges the non-leaves of the old subtree for those of the new. -/
theorem branchCount_graft (path : List Char) (root n2 : Node) (e : Bool)
    (ls : List Char) (ps : List Node) (hnode : nodeAt path root = .nonLeaf e ls ps) :
    branchCount (graft n2 path root) + branchCount (.nonLeaf e ls ps)
      = branchCount root + branchCount n2 := by
  induction path generalizing root with
  | nil =>
    simp only [nodeAt] at hnode
    subst hnode
    simp only [graft]
    omega
  | cons p0 path ih =>
    obtain ⟨e0, l0, ps0, pos, rfl, hf0, hpos, hn, e1, l1, p1, hc⟩ :=
      nodeAt_cons_nonLeaf p0 path root e ls ps hnode
    have h1 := ih (ptrAt ps0 pos) hn
    have h2 := sum_map_set branchCount ps0 pos (graft n2 path (ptrAt ps0 pos)) hpos
    simp only [graft, hf0, branchCount_nonLeaf] at h1 ⊢
    omega

/-- C18: split case (C), wherever the leaf sits. The descent of `TrieInsert`
along `path` reaches a non-leaf whose edge `ch` leads to the leaf holding
`c ++ t :: ts`, and the rest of the input is `c ++ w :: ws` with `w ≠ t` (the
common prefix `c` has length `k`, and `w`, `t` are the letters at position `k`).
The insert returns the tree in which that leaf is replaced by the hoisted chain
for `c`; the non-leaf at the end of the chain, reached from the root along
`path ++ ch :: c`, has `EndOfWord` unset and exactly two edges, the letters `w`
and `t` in ascending order, `w` leading to the leaf holding `ws` and `t` to the
leaf holding `ts`; every node not at or below the replaced slot keeps its own
fields. -/
theorem TrieInsert_split_caseC (path : List Char) (root : Node) (ch : Char) (c : List Char)
    (w t : Char) (ws ts : List Char) (e : Bool) (ls : List Char) (ps : List Node) (pos : Nat)
    (hnode : nodeAt path root = .nonLeaf e ls ps)
    (hf : findLetter ch ls = some pos) (hp : ptrAt ps pos = .leaf (c ++ t :: ts))
    (hwt : w ≠ t) :
    ∃ lsF psF t2,
      TrieInsert (path ++ ch :: (c ++ w :: ws)) root = some t2 ∧
      t2 = graft (.nonLeaf e ls (ps.set pos
          (hoistChain c (.nonLeaf false lsF psF)))) path root ∧
      nodeAt (path ++ [ch]) root = .leaf (c ++ t :: ts) ∧
      nodeAt (path ++ [ch]) t2 = hoistChain c (.nonLeaf false lsF psF) ∧
      nodeAt (path ++ ch :: c) t2 = .nonLeaf false lsF psF ∧
      (∀ q, ¬ (path ++ [ch]) <+: q →
        ownFields (nodeAt q t2) = ownFields (nodeAt q root)) ∧
      lsF.length = 2 ∧ psF.length = 2 ∧ (lsF = [w, t] ∨ lsF = [t, w]) ∧
      edgeChild lsF psF w = .leaf ws ∧ edgeChild lsF psF t = .leaf ts := by
  obtain ⟨lsF, psF, hins, _, h1, h2, h3, h4, h5⟩ :=
    splitNode_caseC ch c w t ws ts e ls ps pos hf hp hwt
  have hpos : pos < ps.length := ptrAt_lt_of_ne_null ps pos (by rw [hp]; simp)
  refine ⟨lsF, psF, _, TrieInsert_along_path path root _ e ls ps _ hnode hins, rfl,
    ?_, ?_, ?_, ?_, h1, h2, h3, h4, h5⟩
  · rw [nodeAt_append, hnode]
    simp [nodeAt, edgeChild, hf, hp]
  · rw [nodeAt_graft_slot_self path root ch e ls ps pos _ hnode hf hpos []]
    rfl
  · rw [nodeAt_graft_slot_self path root ch e ls ps pos _ hnode hf hpos c,
      nodeAt_hoistChain]
  · intro q hq
    exact nodeAt_graft_slot path root ch e ls ps pos _ hnode hf hpos q hq

/-- C18, witness: CART inserted into the tree of CARE and COT; the descent
along C reaches the non-leaf with the letters A and O, whose edge A leads to
the leaf holding RE; with the tree the insert returns. -/
theorem TrieInsert_split_caseC_witness :
    (∃ lsF psF t2,
      TrieInsert (['C'] ++ 'A' :: (['R'] ++ 'T' :: ([] : List Char))) (.nonLeaf false ['C'] [.nonLeaf false ['A', 'O'] [.leaf ['R', 'E'], .leaf ['T']]]) = some t2 ∧
      t2 = graft (.nonLeaf false ['A', 'O'] ([Node.leaf ['R', 'E'], Node.leaf ['T']].set 0
          (hoistChain ['R'] (.nonLeaf false lsF psF)))) ['C'] (.nonLeaf false ['C'] [.nonLeaf false ['A', 'O'] [.leaf ['R', 'E'], .leaf ['T']]]) ∧
      nodeAt (['C'] ++ ['A']) (.nonLeaf false ['C'] [.nonLeaf false ['A', 'O'] [.leaf ['R', 'E'], .leaf ['T']]]) = .leaf (['R'] ++ 'E' :: ([] : List Char)) ∧
      nodeAt (['C'] ++ ['A']) t2 = hoistChain ['R'] (.nonLeaf false lsF psF) ∧
      nodeAt (['C'] ++ 'A' :: ['R']) t2 = .nonLeaf false lsF psF ∧
      (∀ q, ¬ (['C'] ++ ['A']) <+: q →
        ownFields (nodeAt q t2) = ownFields (nodeAt q (.nonLeaf false ['C'] [.nonLeaf false ['A', 'O'] [.leaf ['R', 'E'], .leaf ['T']]]))) ∧
      lsF.length = 2 ∧ psF.length = 2 ∧ (lsF = ['T', 'E'] ∨ lsF = ['E', 'T']) ∧
      edgeChild lsF psF 'T' = .leaf ([] : List Char) ∧ edgeChild lsF psF 'E' = .leaf ([] : List Char)) ∧
    TrieInsert "CART".toList
        (.nonLeaf false ['C'] [.nonLeaf false ['A', 'O'] [.leaf ['R', 'E'], .leaf ['T']]])
      = some (.nonLeaf false ['C'] [.nonLeaf false ['A', 'O']
          [.nonLeaf false ['R'] [.nonLeaf false ['E', 'T'] [.leaf [], .leaf []]], .leaf ['T']]]) :=
  ⟨TrieInsert_split_caseC ['C']
    (.nonLeaf false ['C'] [.nonLeaf false ['A', 'O'] [.leaf ['R', 'E'], .leaf ['T']]])
    'A' ['R'] 'T' 'E' [] [] false ['A', 'O'] [.leaf ['R', 'E'], .leaf ['T']] 0
    rfl rfl rfl (by decide),
    rfl⟩

/-- C17: a split, wherever the leaf sits. The descent of `TrieInsert` along
`path` reaches a non-leaf whose edge `ch` leads to a leaf holding `T`, the rest
of the input is `W`, `T ≠ W`, and `k` is the length of the longest common
prefix of `W` and `T`. The insert returns the tree in which that leaf is
replaced by the chain of `k` one-letter non-leaves with `EndOfWord` unset
spelling the common prefix, ending in one more non-leaf: the tree has `k + 1`
non-leaves more than before, all in the chain, and every node not at or below
the replaced slot keeps its own fields. `EndOfWord` is set on the last node of
the chain exactly when one string is a prefix of the other (cases (A) and
(B)); in those cases the new subtree holds a single leaf, with the rest of the
longer string after its letter `k`, so the shorter word is marked by the flag
and not by a leaf; in case (C) it holds the two leaves of the two strings. -/
theorem TrieInsert_split_chain (path : List Char) (root : Node) (ch : Char) (W T : List Char)
    (e : Bool) (ls : List Char) (ps : List Node) (pos : Nat)
    (hnode : nodeAt path root = .nonLeaf e ls ps)
    (hf : findLetter ch ls = some pos) (hp : ptrAt ps pos = .leaf T) (hne : T ≠ W) :
    ∃ eF lsF psF t2,
      TrieInsert (path ++ ch :: W) root = some t2 ∧
      t2 = graft (.nonLeaf e ls (ps.set pos
          (hoistChain (W.take (lcpLen W T)) (.nonLeaf eF lsF psF)))) path root ∧
      nodeAt (path ++ [ch]) root = .leaf T ∧
      nodeAt (path ++ [ch]) t2
        = hoistChain (W.take (lcpLen W T)) (.nonLeaf eF lsF psF) ∧
      nodeAt (path ++ ch :: W.take (lcpLen W T)) t2 = .nonLeaf eF lsF psF ∧
      (∀ q, ¬ (path ++ [ch]) <+: q →
        ownFields (nodeAt q t2) = ownFields (nodeAt q root)) ∧
      branchCount t2 = branchCount root + (lcpLen W T + 1) ∧
      branchCount (hoistChain (W.take (lcpLen W T)) (.nonLeaf eF lsF psF))
        = lcpLen W T + 1 ∧
      (eF = true ↔ (W.length = lcpLen W T ∨ T.length = lcpLen W T)) ∧
      (W.length = lcpLen W T →
        leafWords (hoistChain (W.take (lcpLen W T)) (.nonLeaf eF lsF psF))
          = [T.drop (lcpLen W T + 1)]) ∧
      (T.length = lcpLen W T →
        leafWords (hoistChain (W.take (lcpLen W T)) (.nonLeaf eF lsF psF))
          = [W.drop (lcpLen W T + 1)]) ∧
      (lcpLen W T < W.length → lcpLen W T < T.length →
        leafWords (hoistChain (W.take (lcpLen W T)) (.nonLeaf eF lsF psF))
            = [W.drop (lcpLen W T + 1), T.drop (lcpLen W T + 1)] ∨
        leafWords (hoistChain (W.take (lcpLen W T)) (.nonLeaf eF lsF psF))
            = [T.drop (lcpLen W T + 1), W.drop (lcpLen W T + 1)]) := by
  obtain ⟨eF, lsF, psF, hins, hbc, heow, hA, hB, hC⟩ :=
    splitNode_chain ch W T e ls ps pos hf hp hne
  have hpos : pos < ps.length := ptrAt_lt_of_ne_null ps pos (by rw [hp]; simp)
  refine ⟨eF, lsF, psF, _, TrieInsert_along_path path root _ e ls ps _ hnode hins, rfl,
    ?_, ?_, ?_, ?_, ?_, hbc, heow, hA, hB, hC⟩
  · rw [nodeAt_append, hnode]
    simp [nodeAt, edgeChild, hf, hp]
  · rw [nodeAt_graft_slot_self path root ch e ls ps pos _ hnode hf hpos []]
    rfl
  · rw [nodeAt_graft_slot_self path root ch e ls ps pos _ hnode hf hpos _,
      nodeAt_hoistChain]
  · intro q hq
    exact nodeAt_graft_slot path root ch e ls ps pos _ hnode hf hpos q hq
  · have h1 := branchCount_graft path root
      (.nonLeaf e ls (ps.set pos (hoistChain (W.take (lcpLen W T)) (.nonLeaf eF lsF psF))))
      e ls ps hnode
    have h2 := sum_map_set branchCount ps pos
      (hoistChain (W.take (lcpLen W T)) (.nonLeaf eF lsF psF)) hpos
    rw [hp, hbc] at h2
    simp only [branchCount_nonLeaf] at h1
    have h3 : branchCount (.leaf T) = 0 := by simp [branchCount]
    omega

/-- C17, witness: CAR inserted into the tree of CARROT and COT; the descent
along C reaches the non-leaf with the letters A and O, whose edge A leads to
the leaf holding RROT (case (A), common prefix R of length 1, two new
non-leaves, one leaf holding OT), with the tree the insert returns. -/
theorem TrieInsert_split_chain_witness :
    (∃ eF lsF psF t2,
      TrieInsert (['C'] ++ 'A' :: ['R']) (.nonLeaf false ['C'] [.nonLeaf false ['A', 'O'] [.leaf "RROT".toList, .leaf ['T']]]) = some t2 ∧
      t2 = graft (.nonLeaf false ['A', 'O'] ([Node.leaf "RROT".toList, Node.leaf ['T']].set 0
          (hoistChain (['R'].take (lcpLen ['R'] "RROT".toList)) (.nonLeaf eF lsF psF)))) ['C'] (.nonLeaf false ['C'] [.nonLeaf false ['A', 'O'] [.leaf "RROT".toList, .leaf ['T']]]) ∧
      nodeAt (['C'] ++ ['A']) (.nonLeaf false ['C'] [.nonLeaf false ['A', 'O'] [.leaf "RROT".toList, .leaf ['T']]]) = .leaf "RROT".toList ∧
      nodeAt (['C'] ++ ['A']) t2
        = hoistChain (['R'].take (lcpLen ['R'] "RROT".toList)) (.nonLeaf eF lsF psF) ∧
      nodeAt (['C'] ++ 'A' :: ['R'].take (lcpLen ['R'] "RROT".toList)) t2 = .nonLeaf eF lsF psF ∧
      (∀ q, ¬ (['C'] ++ ['A']) <+: q →
        ownFields (nodeAt q t2) = ownFields (nodeAt q (.nonLeaf false ['C'] [.nonLeaf false ['A', 'O'] [.leaf "RROT".toList, .leaf ['T']]]))) ∧
      branchCount t2 = branchCount (.nonLeaf false ['C'] [.nonLeaf false ['A', 'O'] [.leaf "RROT".toList, .leaf ['T']]]) + (lcpLen ['R'] "RROT".toList + 1) ∧
      branchCount (hoistChain (['R'].take (lcpLen ['R'] "RROT".toList)) (.nonLeaf eF lsF psF))
        = lcpLen ['R'] "RROT".toList + 1 ∧
      (eF = true ↔ (['R'].length = lcpLen ['R'] "RROT".toList ∨ "RROT".toList.length = lcpLen ['R'] "RROT".toList)) ∧
      (['R'].length = lcpLen ['R'] "RROT".toList →
        leafWords (hoistChain (['R'].take (lcpLen ['R'] "RROT".toList)) (.nonLeaf eF lsF psF))
          = ["RROT".toList.drop (lcpLen ['R'] "RROT".toList + 1)]) ∧
      ("RROT".toList.length = lcpLen ['R'] "RROT".toList →
        leafWords (hoistChain (['R'].take (lcpLen ['R'] "RROT".toList)) (.nonLeaf eF lsF psF))
          = [['R'].drop (lcpLen ['R'] "RROT".toList + 1)]) ∧
      (lcpLen ['R'] "RROT".toList < ['R'].length → lcpLen ['R'] "RROT".toList < "RROT".toList.length →
        leafWords (hoistChain (['R'].take (lcpLen ['R'] "RROT".toList)) (.nonLeaf eF lsF psF))
            = [['R'].drop (lcpLen ['R'] "RROT".toList + 1), "RROT".toList.drop (lcpLen ['R'] "RROT".toList + 1)] ∨
        leafWords (hoistChain (['R'].take (lcpLen ['R'] "RROT".toList)) (.nonLeaf eF lsF psF))
            = ["RROT".toList.drop (lcpLen ['R'] "RROT".toList + 1), ['R'].drop (lcpLen ['R'] "RROT".toList + 1)])) ∧
    TrieInsert "CAR".toList
        (.nonLeaf false ['C'] [.nonLeaf false ['A', 'O'] [.leaf "RROT".toList, .leaf ['T']]])
      = some (.nonLeaf false ['C'] [.nonLeaf false ['A', 'O']
          [.nonLeaf false ['R'] [.nonLeaf true ['R'] [.leaf ['O', 'T']]], .leaf ['T']]]) :=
  ⟨TrieInsert_split_chain ['C']
    (.nonLeaf false ['C'] [.nonLeaf false ['A', 'O'] [.leaf "RROT".toList, .leaf ['T']]])
    'A' ['R'] "RROT".toList false ['A', 'O'] [.leaf "RROT".toList, .leaf ['T']] 0
    rfl rfl rfl (by decide),
    rfl⟩

end SimpleTrie
